import Mathlib

/-!
# BARES: Basic ARithmetic Expression Evaluator based on Stacks

A shallow embedding of the parser (`parser.cpp`), the infix-to-postfix
converter and the postfix evaluator (`evaluator.cpp`), followed by the
properties proved about them.

Conventions of the embedding:
* a `std::string` is a `List Char`;
* the parser's cursor `it_curr_symb` is the pair of its offset from
  `expr.begin()` and the characters from the cursor to `expr.end()`;
* a `while` loop or a recursive call takes a fuel argument and returns
  `none` when the fuel runs out; `parse` is shown to never run out;
* `jv::stack` is a list whose head is the top; reading or popping an empty
  stack is a fault.
-/

namespace Bares

/-! ## token.hpp -/

/-- The identification of a token (`Token::token_t`). -/
inductive token_t
  | OPERAND
  | OPERATOR
  | CLOSING_SCOPE
  | OPENING_SCOPE
  deriving DecidableEq, Repr

/-- A token: its text and its identification (`struct Token`). -/
structure Token where
  value : List Char
  type : token_t
  deriving DecidableEq, Repr

/-! ## parser.hpp / parser.cpp -/

/-- The result codes of the parser (`ParserResult::code_t`). -/
inductive ParserResult.code_t
  | PARSER_OK
  | UNEXPECTED_END_OF_EXPRESSION
  | ILL_FORMED_INTEGER
  | MISSING_TERM
  | EXTRANEOUS_SYMBOL
  | MISSING_CLOSING_PARENTHESIS
  | INTEGER_OUT_OF_RANGE
  deriving DecidableEq, Repr

/-- The result of a tokenization and the column of the error (`struct ParserResult`). -/
structure ParserResult where
  type : ParserResult.code_t
  at_col : Nat
  deriving DecidableEq, Repr

/-- The categories of input characters (`Parser::terminal_symbol_t`). -/
inductive terminal_symbol_t
  | TS_PLUS
  | TS_MINUS
  | TS_MOD
  | TS_SLASH
  | TS_ASTERISK
  | TS_EXP
  | TS_CLOSING_SCOPE
  | TS_OPENING_SCOPE
  | TS_ZERO
  | TS_NON_ZERO_DIGIT
  | TS_WS
  | TS_TAB
  | TS_EOS
  | TS_INVALID
  deriving DecidableEq, Repr

/-- The mutable members of `class Parser`: the cursor `it_curr_symb`, as its offset
`std::distance(expr.begin(), it_curr_symb)` and the characters it still has to read,
and the list of tokens extracted so far. -/
structure Parser where
  it_offset : Nat
  it_rest : List Char
  token_list : List Token
  deriving DecidableEq, Repr

/-- `std::numeric_limits<Parser::required_int_type>::max()` for `short int`. -/
def required_max : Int := 32767

/-- `std::numeric_limits<Parser::required_int_type>::min()` for `short int`. -/
def required_min : Int := -32768

/-- Largest value of the 64-bit `long long int` / `long int`. -/
def long_max : Int := 9223372036854775807

/-- Smallest value of the 64-bit `long long int` / `long int`. -/
def long_min : Int := -9223372036854775808

namespace Parser

open terminal_symbol_t ParserResult.code_t token_t

/-- `Parser::lexer`: the category of a character. -/
def lexer (c_ : Char) : terminal_symbol_t :=
  if c_ = '+' then TS_PLUS
  else if c_ = '-' then TS_MINUS
  else if c_ = '%' then TS_MOD
  else if c_ = '/' then TS_SLASH
  else if c_ = '*' then TS_ASTERISK
  else if c_ = '^' then TS_EXP
  else if c_ = ')' then TS_CLOSING_SCOPE
  else if c_ = '(' then TS_OPENING_SCOPE
  else if c_ = ' ' then TS_WS
  else if c_ = '\t' then TS_TAB
  else if c_ = '0' then TS_ZERO
  else if c_ = '1' ∨ c_ = '2' ∨ c_ = '3' ∨ c_ = '4' ∨ c_ = '5' ∨ c_ = '6' ∨ c_ = '7'
      ∨ c_ = '8' ∨ c_ = '9' then TS_NON_ZERO_DIGIT
  else if c_ = Char.ofNat 0 then TS_EOS
  else TS_INVALID

/-- `Parser::next_symbol`: advance the cursor by one character. -/
def next_symbol (p : Parser) : Parser :=
  { p with it_offset := p.it_offset + 1, it_rest := p.it_rest.tail }

/-- `Parser::end_input`: the cursor is at `expr.end()`. -/
def end_input (p : Parser) : Bool :=
  p.it_rest.isEmpty

/-- `Parser::peek`: not at the end and the current character has category `c_`. -/
def peek (p : Parser) (c_ : terminal_symbol_t) : Bool :=
  match p.it_rest with
  | [] => false
  | c :: _ => decide (lexer c = c_)

/-- `Parser::accept`: advance over the current character when it has category `c_`. -/
def accept (p : Parser) (c_ : terminal_symbol_t) : Bool × Parser :=
  if peek p c_ then (true, next_symbol p) else (false, p)

/-- The loop of `Parser::skip_ws` over the characters still to read: the number of
characters skipped and the characters left. -/
def skip_ws_chars : List Char → Nat × List Char
  | [] => (0, [])
  | c :: cs =>
    if lexer c = TS_WS ∨ lexer c = TS_TAB then
      ((skip_ws_chars cs).1 + 1, (skip_ws_chars cs).2)
    else (0, c :: cs)

/-- `Parser::skip_ws`: advance the cursor over blanks and tabs. -/
def skip_ws (p : Parser) : Parser :=
  { p with it_offset := p.it_offset + (skip_ws_chars p.it_rest).1,
           it_rest := (skip_ws_chars p.it_rest).2 }

/-- `Parser::expect`: skip the white space, then try to accept `c_`. The white space
stays skipped when the symbol is not accepted. -/
def expect (p : Parser) (c_ : terminal_symbol_t) : Bool × Parser :=
  accept (skip_ws p) c_

/-- `Parser::digit_excl_zero`. -/
def digit_excl_zero (p : Parser) : Bool × Parser :=
  accept p TS_NON_ZERO_DIGIT

/-- `Parser::digit`: `accept(TS_ZERO) or digit_excl_zero()`. -/
def digit (p : Parser) : Bool × Parser :=
  match accept p TS_ZERO with
  | (true, p1) => (true, p1)
  | (false, p1) => digit_excl_zero p1

/-- The loop `while( digit() );` of `Parser::natural_number`. -/
def digit_loop : Nat → Parser → Option Parser
  | 0, _ => none
  | fuel + 1, p =>
    match digit p with
    | (true, p1) => digit_loop fuel p1
    | (false, p1) => some p1

/-- `Parser::natural_number`. -/
def natural_number (fuel : Nat) (p : Parser) : Option (ParserResult × Parser) :=
  match digit_excl_zero p with
  | (false, p1) => some (⟨ILL_FORMED_INTEGER, p1.it_offset⟩, p1)
  | (true, p1) =>
    match digit_loop fuel p1 with
    | none => none
    | some p2 => some (⟨PARSER_OK, 0⟩, p2)

/-- The value read by `iss >> token_int` from a run of decimal digits, most significant
first, before the sign is applied and before the range of the type is considered. -/
def digits_value (cs : List Char) : Nat :=
  cs.foldl (fun acc c => 10 * acc + (c.toNat - '0'.toNat)) 0

/-- The characters `std::num_get` takes for a decimal integer after the sign. -/
def is_digit (c : Char) : Bool :=
  decide ('0'.toNat ≤ c.toNat ∧ c.toNat ≤ '9'.toNat)

/-- The extraction `stream >> n` of a 64-bit signed integer from the text `s`
(`std::istringstream`, `std::stringstream`): leading white space is skipped, an optional
sign and the longest run of digits are read. The pair is the value stored and the
stream's `fail()`: without a digit the value is `0` and the stream fails; a value that
does not fit is replaced by the nearest limit of the type and the stream fails. When
nothing follows the white space (`extract_nothing`) the stream fails before anything is
stored: the pair is `(0, true)` there as well, and no caller takes its first component for
the variable (`Parser::integer` tests `fail()` first, `Token2Value` keeps the value the
variable held). -/
def stream_extract (s : List Char) : Int × Bool :=
  let s1 := s.dropWhile (fun c => c = ' ' ∨ c = '\t' ∨ c = '\n' ∨ c = '\r'
    ∨ c = Char.ofNat 11 ∨ c = Char.ofNat 12)
  let neg := s1.head? = some '-'
  let s2 := if s1.head? = some '-' ∨ s1.head? = some '+' then s1.tail else s1
  let ds := s2.takeWhile is_digit
  if ds = [] then (0, true)
  else
    let v : Int := if neg then - (digits_value ds : Int) else (digits_value ds : Int)
    if v > long_max then (long_max, true)
    else if v < long_min then (long_min, true)
    else (v, false)

/-- The text holds nothing after the white space that `stream >> n` skips, so that the
extraction stops before it stores anything. -/
def extract_nothing (s : List Char) : Bool :=
  s.all (fun c => c = ' ' ∨ c = '\t' ∨ c = '\n' ∨ c = '\r'
    ∨ c = Char.ofNat 11 ∨ c = Char.ofNat 12)

/-- The loop `while ( expect( TS_MINUS ) ) ++cont;` of `Parser::integer`. -/
def minus_loop : Nat → Parser → Nat → Option (Nat × Parser)
  | 0, _, _ => none
  | fuel + 1, p, cont =>
    match expect p TS_MINUS with
    | (true, p1) => minus_loop fuel p1 (cont + 1)
    | (false, p1) => some (cont, p1)

/-- `Parser::integer`. -/
def integer (fuel : Nat) (p : Parser) : Option (ParserResult × Parser) :=
  match accept p TS_ZERO with
  | (true, p1) =>
    some (⟨PARSER_OK, 0⟩, { p1 with token_list := p1.token_list ++ [⟨['0'], OPERAND⟩] })
  | (false, p1) =>
    match minus_loop fuel p1 0 with
    | none => none
    | some (cont, begin_token) =>
      match natural_number fuel begin_token with
      | none => none
      | some (result, p3) =>
        if result.type = PARSER_OK then
          let digits := begin_token.it_rest.take (p3.it_offset - begin_token.it_offset)
          let token_str := if cont % 2 = 1 then '-' :: digits else digits
          let token_int := stream_extract token_str
          if token_int.2 ∨ token_int.1 ≥ required_max ∨ token_int.1 ≤ required_min then
            some (⟨INTEGER_OUT_OF_RANGE, begin_token.it_offset⟩, p3)
          else
            some (⟨PARSER_OK, cont⟩,
              { p3 with token_list := p3.token_list ++ [⟨token_str, OPERAND⟩] })
        else some (result, p3)

/-- The chain of `expect` calls at the head of the loop of `Parser::expression`: the
operator accepted, if any, and the cursor afterwards. -/
def expect_operator (p : Parser) : Option (List Char) × Parser :=
  match expect p TS_PLUS with
  | (true, p1) => (some ['+'], p1)
  | (false, p1) =>
  match expect p1 TS_MINUS with
  | (true, p2) => (some ['-'], p2)
  | (false, p2) =>
  match expect p2 TS_ASTERISK with
  | (true, p3) => (some ['*'], p3)
  | (false, p3) =>
  match expect p3 TS_SLASH with
  | (true, p4) => (some ['/'], p4)
  | (false, p4) =>
  match expect p4 TS_MOD with
  | (true, p5) => (some ['%'], p5)
  | (false, p5) =>
  match expect p5 TS_EXP with
  | (true, p6) => (some ['^'], p6)
  | (false, p6) => (none, p6)

mutual

/-- `Parser::expression`. -/
def expression : Nat → Parser → Option (ParserResult × Parser)
  | 0, _ => none
  | fuel + 1, p =>
    match term fuel (skip_ws p) with
    | none => none
    | some (result, p1) => expression_loop fuel result p1

/-- The `while` loop of `Parser::expression`, entered with the result of the last
term. -/
def expression_loop : Nat → ParserResult → Parser → Option (ParserResult × Parser)
  | 0, _, _ => none
  | fuel + 1, result, p =>
    if result.type = PARSER_OK then
      match expect_operator p with
      | (none, p1) => some (result, p1)
      | (some op, p1) =>
        match term fuel { p1 with token_list := p1.token_list ++ [⟨op, OPERATOR⟩] } with
        | none => none
        | some (result1, p2) =>
          if result1.type ≠ PARSER_OK ∧ result1.type ≠ INTEGER_OUT_OF_RANGE
              ∧ end_input p2 then
            some (⟨MISSING_TERM, result1.at_col⟩, p2)
          else expression_loop fuel result1 p2
    else some (result, p)

/-- `Parser::term`. -/
def term : Nat → Parser → Option (ParserResult × Parser)
  | 0, _ => none
  | fuel + 1, p =>
    match expect (skip_ws p) TS_OPENING_SCOPE with
    | (true, p1) =>
      match expression fuel { p1 with token_list := p1.token_list ++ [⟨['('], OPENING_SCOPE⟩] } with
      | none => none
      | some (result, p2) =>
        if result.type = PARSER_OK then
          match expect p2 TS_CLOSING_SCOPE with
          | (false, p3) => some (⟨MISSING_CLOSING_PARENTHESIS, p3.it_offset⟩, p3)
          | (true, p3) =>
            some (result, { p3 with token_list := p3.token_list ++ [⟨[')'], CLOSING_SCOPE⟩] })
        else some (result, p2)
    | (false, p1) => integer fuel p1

end

/-- `Parser::parse` on a parser whose previous state is `p0`: the result and the parser
afterwards, whose `token_list` is what `get_tokens` returns. -/
def parse_from (p0 : Parser) (e_ : List Char) : Option (ParserResult × Parser) :=
  let p : Parser := skip_ws { p0 with it_offset := 0, it_rest := e_, token_list := [] }
  if end_input p then
    some (⟨UNEXPECTED_END_OF_EXPRESSION, p.it_offset⟩, p)
  else
    match expression (2 * e_.length + 4) p with
    | none => none
    | some (result, p1) =>
      if result.type = PARSER_OK then
        if ¬ end_input (skip_ws p1) then
          some (⟨EXTRANEOUS_SYMBOL, (skip_ws p1).it_offset⟩, skip_ws p1)
        else some (result, skip_ws p1)
      else some (result, p1)

/-- `Parser::parse` on a freshly constructed parser. -/
def parse (e_ : List Char) : Option (ParserResult × Parser) :=
  parse_from ⟨0, [], []⟩ e_

end Parser

/-! ## evaluator.hpp / evaluator.cpp -/

/-- The result codes of the evaluator (`EvaluatorResult::code_t`). -/
inductive EvaluatorResult.code_t
  | RESULT_OK
  | DIVISION_BY_ZERO
  | NUMERIC_OVERFLOW
  deriving DecidableEq, Repr

/-- The value of an evaluation and its result code (`struct EvaluatorResult`). -/
structure EvaluatorResult where
  value : Int
  type : EvaluatorResult.code_t
  deriving DecidableEq, Repr

/-- The ways an evaluation aborts instead of returning. -/
inductive Fault
  | EMPTY_STACK
  | ASSERT_FALSE
  deriving DecidableEq, Repr

/-- Modelled from the spec: `jv::stack` (`stack.hpp`), a growable last-in-first-out
sequence. The head of the list is the top of the stack. -/
abbrev stack (α : Type) := List α

/-- Modelled from the spec: `jv::stack::top`; reading an empty stack is a fault. -/
def stack.top {α : Type} : stack α → Except Fault α
  | [] => .error Fault.EMPTY_STACK
  | x :: _ => .ok x

/-- Modelled from the spec: `jv::stack::pop`; popping an empty stack is a fault. -/
def stack.pop {α : Type} : stack α → Except Fault (stack α)
  | [] => .error Fault.EMPTY_STACK
  | _ :: st => .ok st

namespace Evaluator

open token_t EvaluatorResult.code_t

/-- The character `c.value[0]`; for an empty `std::string` it is the terminating null. -/
def first_char (c : Token) : Char :=
  c.value.headD (Char.ofNat 0)

/-- `Evaluator::is_operand`. -/
def is_operand (c : Token) : Bool := decide (c.type = OPERAND)

/-- `Evaluator::is_operator`. -/
def is_operator (c : Token) : Bool := decide (c.type = OPERATOR)

/-- `Evaluator::is_opening_scope`. -/
def is_opening_scope (c : Token) : Bool := decide (c.type = OPENING_SCOPE)

/-- `Evaluator::is_closing_scope`. -/
def is_closing_scope (c : Token) : Bool := decide (c.type = CLOSING_SCOPE)

/-- `Evaluator::is_right_association`. -/
def is_right_association (c : Token) : Bool := decide (first_char c = '^')

/-- `Evaluator::get_precedence`. -/
def get_precedence (c : Token) : Nat :=
  if first_char c = '^' then 3
  else if first_char c = '*' ∨ first_char c = '%' ∨ first_char c = '/' then 2
  else if first_char c = '+' ∨ first_char c = '-' then 1
  else 0

/-- `Evaluator::has_higher_precedence`. -/
def has_higher_precedence (op1 op2 : Token) : Bool :=
  if get_precedence op1 = get_precedence op2 ∧ is_right_association op1 then false
  else decide (get_precedence op1 ≥ get_precedence op2)

/-- The loop of the closing-scope branch of `infix_to_postfix`:
`while( not st.empty() and not is_opening_scope( st.top() ) )`. The pair is the stack
and the output afterwards. -/
def pop_to_opening : stack Token → List Token → stack Token × List Token
  | [], out => ([], out)
  | t :: st, out =>
    if ¬ is_opening_scope t then pop_to_opening st (out ++ [t]) else (t :: st, out)

/-- The loop of the operator branch of `infix_to_postfix`:
`while( not st.empty() and has_higher_precedence( st.top() , s ) )`. -/
def pop_higher (s : Token) : stack Token → List Token → stack Token × List Token
  | [], out => ([], out)
  | t :: st, out =>
    if has_higher_precedence t s then pop_higher s st (out ++ [t]) else (t :: st, out)

/-- The body of the `for` loop of `infix_to_postfix` for the token `s`, on the stack
`st` and the output `out`. The four branches cover every `token_t`, so that the final
`assert(false)` of the source has no case. -/
def convert_step (s : Token) (st : stack Token) (out : List Token) :
    Except Fault (stack Token × List Token) :=
  if is_operand s then .ok (st, out ++ [s])
  else if is_opening_scope s then .ok (s :: st, out)
  else if is_closing_scope s then
    match stack.pop (pop_to_opening st out).1 with
    | .error f => .error f
    | .ok st1 => .ok (st1, (pop_to_opening st out).2)
  else if is_operator s then
    .ok (s :: (pop_higher s st out).1, (pop_higher s st out).2)
  else .error Fault.ASSERT_FALSE

/-- The `for` loop of `infix_to_postfix` followed by the final loop that empties the
stack into the output. -/
def convert_loop : List Token → stack Token → List Token → Except Fault (List Token)
  | [], st, out => .ok (out ++ st)
  | s :: rest, st, out =>
    match convert_step s st out with
    | .error f => .error f
    | .ok (st1, out1) => convert_loop rest st1 out1

/-- `Evaluator::infix_to_postfix`. -/
def infix_to_postfix (tokens : List Token) : Except Fault (List Token) :=
  convert_loop tokens [] []

/-- The conversion to `long int` of `std::pow( term1, term2 )` on integral arguments:
the exact power when it fits the type, the indefinite value `long_min` of the conversion
when the power is infinite or does not fit, and the quotient `1 / term1 ^ (-term2)`
truncated toward zero for a negative exponent. -/
def pow (term1 term2 : Int) : Int :=
  if 0 ≤ term2 then
    if long_min ≤ term1 ^ term2.toNat ∧ term1 ^ term2.toNat ≤ long_max then
      term1 ^ term2.toNat
    else long_min
  else if term1 = 0 then long_min
  else if term1 = 1 then 1
  else if term1 = -1 then (-1) ^ (-term2).toNat
  else 0

/-- A `long int` computation reduced to the 64 bits of the type. -/
def wrap_long (x : Int) : Int :=
  (x - long_min) % 18446744073709551616 + long_min

/-- The `switch` of `Evaluator::execute_operator`: the values of `result_aux` and of
`result.type` after it. The local `result_aux` is not initialised by the source; `uninit`
is the value it happens to hold, which stays when the `switch` does not assign it
(division by zero, or a character that is no operator). -/
def operator_switch (uninit : Int) (term1 term2 : Int) (op : Token) :
    Int × EvaluatorResult.code_t :=
  if first_char op = '+' then (wrap_long (term1 + term2), RESULT_OK)
  else if first_char op = '-' then (wrap_long (term1 - term2), RESULT_OK)
  else if first_char op = '*' then (wrap_long (term1 * term2), RESULT_OK)
  else if first_char op = '^' then (pow term1 term2, RESULT_OK)
  else if first_char op = '/' then
    if term2 = 0 then (uninit, DIVISION_BY_ZERO)
    else (wrap_long (Int.tdiv term1 term2), RESULT_OK)
  else if first_char op = '%' then
    if term2 = 0 then (uninit, DIVISION_BY_ZERO)
    else (Int.tmod term1 term2, RESULT_OK)
  else (uninit, RESULT_OK)

/-- `Evaluator::execute_operator`: the `switch`, then the comparison of `result_aux`
with the limits of the required type. `result.value` stays `0` unless `result_aux` is
within the limits. -/
def execute_operator (uninit : Int) (term1 term2 : Int) (op : Token) : EvaluatorResult :=
  let r := operator_switch uninit term1 term2 op
  if r.1 ≤ required_max ∧ r.1 ≥ required_min then ⟨r.1, r.2⟩
  else if r.2 ≠ DIVISION_BY_ZERO then ⟨0, NUMERIC_OVERFLOW⟩
  else ⟨0, r.2⟩

/-- `Evaluator::Token2Value`: `ss >> result` into the local `result`, which the source
does not initialise. When the text of the token holds nothing after the leading white
space, nothing is stored and `result` keeps the value `uninit` it happened to hold. -/
def Token2Value (uninit : Int) (tok : Token) : Int :=
  if Parser.extract_nothing tok.value then uninit
  else (Parser.stream_extract tok.value).1

/-- The body of the `for` loop of `evaluate_postfix` for the token `s`, on the stack
`st` and the last result `result`. `uninit` is the value held by the uninitialised local
of the call made for `s`: `result` of `Token2Value` or `result_aux` of
`execute_operator`. -/
def evaluate_step (uninit : Int) (s : Token) (st : stack Int) (result : EvaluatorResult) :
    Except Fault (stack Int × EvaluatorResult) :=
  if is_operand s then .ok (Token2Value uninit s :: st, result)
  else if is_operator s then
    match stack.top st, stack.pop st with
    | .ok term2, .ok st1 =>
      match stack.top st1, stack.pop st1 with
      | .ok term1, .ok st2 =>
        .ok ((execute_operator uninit term1 term2 s).value :: st2,
          execute_operator uninit term1 term2 s)
      | _, _ => .error Fault.EMPTY_STACK
    | _, _ => .error Fault.EMPTY_STACK
  else .error Fault.ASSERT_FALSE

/-- The `for` loop of `evaluate_postfix`, from the token of index `i` on. The
uninitialised local of the call of `Token2Value` or of `execute_operator` made for the
token of index `i` holds `uninit i`. -/
def evaluate_loop (uninit : Nat → Int) :
    Nat → List Token → stack Int → EvaluatorResult →
      Except Fault (stack Int × EvaluatorResult)
  | _, [], st, result => .ok (st, result)
  | i, s :: rest, st, result =>
    match evaluate_step (uninit i) s st result with
    | .error f => .error f
    | .ok (st1, result1) => evaluate_loop uninit (i + 1) rest st1 result1

/-- `Evaluator::evaluate_postfix`. -/
def evaluate_postfix (uninit : Nat → Int) (tokens : List Token) :
    Except Fault EvaluatorResult :=
  match evaluate_loop uninit 0 tokens [] ⟨0, RESULT_OK⟩ with
  | .error f => .error f
  | .ok (st, result) =>
    match stack.top st with
    | .error f => .error f
    | .ok v => .ok { result with value := v }

end Evaluator

/-! ## The grammar of the accepted inputs -/

namespace Grammar

open token_t

/-- A run of blanks and tabs. -/
def Blank (w : List Char) : Prop := ∀ c ∈ w, c = ' ' ∨ c = '\t'

/-- The digits `1` to `9`. -/
def NonZeroDigit (c : Char) : Prop :=
  c = '1' ∨ c = '2' ∨ c = '3' ∨ c = '4' ∨ c = '5' ∨ c = '6' ∨ c = '7' ∨ c = '8' ∨ c = '9'

/-- The digits `0` to `9`. -/
def Digit (c : Char) : Prop := c = '0' ∨ NonZeroDigit c

/-- The six operator symbols. -/
def OperatorSymbol (c : Char) : Prop :=
  c = '+' ∨ c = '-' ∨ c = '*' ∨ c = '/' ∨ c = '%' ∨ c = '^'

/-- The rule `natural := digit_excl_zero , { digit }`. -/
def Natural (ds : List Char) : Prop :=
  ∃ d t, ds = d :: t ∧ NonZeroDigit d ∧ ∀ c ∈ t, Digit c

/-- The number a run of decimal digits denotes. -/
def natural_value (ds : List Char) : Nat :=
  Nat.ofDigits 10 (ds.reverse.map (fun c => c.toNat - 48))

/-- The value of a literal made of `k` minus signs and the digits `ds`: negative exactly
when `k` is odd. -/
def signed_value (k : Nat) (ds : List Char) : Int :=
  if k % 2 = 1 then - (natural_value ds : Int) else (natural_value ds : Int)

/-- The text of the operand token of a literal made of `k` minus signs and the digits
`ds`: a single minus sign when `k` is odd, none when `k` is even. -/
def literal_text (k : Nat) (ds : List Char) : List Char :=
  if k % 2 = 1 then '-' :: ds else ds

/-- The text of `k` minus signs, each after a run of blanks. -/
inductive Minuses : Nat → List Char → Prop
  | zero : Minuses 0 []
  | succ (k : Nat) (w ms : List Char) :
      Blank w → Minuses k ms → Minuses (k + 1) (w ++ '-' :: ms)

/-- The two nonterminals of the grammar that hold tokens. -/
inductive Level
  | term
  | expr
  deriving DecidableEq, Repr

/-- The grammar
`expr := term , { op , term }`, `term := integer | "(" , expr , ")"`,
`integer := "0" | { "-" } , natural`, with a run of blanks allowed before each symbol
and the value of each literal strictly inside the required range, together with the
tokens each text stands for. -/
inductive Derives : Level → List Char → List Token → Prop
  | zero (w : List Char) :
      Blank w → Derives Level.term (w ++ ['0']) [⟨['0'], OPERAND⟩]
  | literal (k : Nat) (ms w ds : List Char) :
      Minuses k ms → Blank w → Natural ds →
      required_min < signed_value k ds → signed_value k ds < required_max →
      Derives Level.term (ms ++ (w ++ ds)) [⟨literal_text k ds, OPERAND⟩]
  | scope (w e w1 : List Char) (ts : List Token) :
      Blank w → Derives Level.expr e ts → Blank w1 →
      Derives Level.term (w ++ '(' :: (e ++ (w1 ++ [')'])))
        (⟨['('], OPENING_SCOPE⟩ :: (ts ++ [⟨[')'], CLOSING_SCOPE⟩]))
  | single (t : List Char) (ts : List Token) :
      Derives Level.term t ts → Derives Level.expr t ts
  | binary (e w t : List Char) (c : Char) (ts us : List Token) :
      Derives Level.expr e ts → Blank w → OperatorSymbol c → Derives Level.term t us →
      Derives Level.expr (e ++ (w ++ c :: t)) (ts ++ ⟨[c], OPERATOR⟩ :: us)

end Grammar

namespace Grammar

/-- The text `cs` does not begin with a blank or a tab. -/
def NoBlankHead (cs : List Char) : Prop := ∀ c ∈ cs.head?, ¬ (c = ' ' ∨ c = '\t')

end Grammar

namespace Parser

/-- The parser went from `p` to `q` by reading the characters `cs` and appending the
tokens `ts` to the token list. -/
def Consumes (p q : Parser) (cs : List Char) (ts : List Token) : Prop :=
  p.it_rest = cs ++ q.it_rest ∧ q.it_offset = p.it_offset + cs.length
    ∧ q.token_list = p.token_list ++ ts

end Parser

namespace Grammar

/-- The text `cs` does not begin with a decimal digit. -/
def NoDigitHead (cs : List Char) : Prop := ∀ c ∈ cs.head?, ¬ Digit c

instance (w : List Char) : Decidable (Blank w) := by
  unfold Blank; infer_instance

instance (c : Char) : Decidable (NonZeroDigit c) := by
  unfold NonZeroDigit; infer_instance

instance (c : Char) : Decidable (Digit c) := by
  unfold Digit; infer_instance

instance (c : Char) : Decidable (OperatorSymbol c) := by
  unfold OperatorSymbol; infer_instance

/-- The texts of the grammar
`expr := term , { op , term }`, `term := integer | "(" , expr , ")"`,
`integer := "0" | { "-" } , natural`, `natural := digit_excl_zero , { digit }`,
where `op` is one of `+ - * / % ^`, a run of blanks and tabs may stand before each
symbol (a natural is one symbol), and the signed value of each literal lies strictly
between `required_min` and `required_max`. -/
inductive Sentence : Level → List Char → Prop
  | zero (w : List Char) :
      Blank w → Sentence Level.term (w ++ ['0'])
  | literal (k : Nat) (ms w ds : List Char) :
      Minuses k ms → Blank w → Natural ds →
      required_min < signed_value k ds → signed_value k ds < required_max →
      Sentence Level.term (ms ++ (w ++ ds))
  | scope (w e w1 : List Char) :
      Blank w → Sentence Level.expr e → Blank w1 →
      Sentence Level.term (w ++ '(' :: (e ++ (w1 ++ [')'])))
  | single (t : List Char) :
      Sentence Level.term t → Sentence Level.expr t
  | binary (e w t : List Char) (c : Char) :
      Sentence Level.expr e → Blank w → OperatorSymbol c → Sentence Level.term t →
      Sentence Level.expr (e ++ (w ++ c :: t))

/-- The inputs of the grammar: an expression followed by a run of blanks and tabs. -/
def Input (e : List Char) : Prop :=
  ∃ cs w, e = cs ++ w ∧ Sentence Level.expr cs ∧ Blank w

end Grammar

/-! ## The standard reading of an expression -/

namespace Reading

open token_t Grammar

/-- An expression read as a tree: a literal with its text, a parenthesised expression,
or an operator symbol applied to a left and a right operand. -/
inductive Exp
  | literal (text : List Char)
  | scope (e : Exp)
  | binary (l : Exp) (op : Char) (r : Exp)
  deriving DecidableEq, Repr

/-- How tightly an operator binds: `^` tightest, then `* / %`, then `+ -`. -/
def binding (op : Char) : Nat :=
  if op = '^' then 3
  else if op = '*' ∨ op = '/' ∨ op = '%' then 2
  else if op = '+' ∨ op = '-' then 1
  else 0

/-- The binding of the operator at the root of a tree; a literal and a parenthesised
expression bind tighter than every operator. -/
def Exp.level : Exp → Nat
  | Exp.literal _ => 4
  | Exp.scope _ => 4
  | Exp.binary _ op _ => binding op

/-- The tree is the standard reading of its tokens: an operand of `^` is on the left a
literal or a parenthesised expression and on the right binds at least as tightly as `^`
(so `^` groups right-to-left); the left operand of another operator binds at least as
tightly as the operator and the right operand binds strictly tighter (so `* / %` and
`+ -` group left-to-right, `* / %` before `+ -`). -/
def Exp.standard : Exp → Prop
  | Exp.literal _ => True
  | Exp.scope e => e.standard
  | Exp.binary l op r =>
    OperatorSymbol op ∧ l.standard ∧ r.standard ∧
      (if op = '^' then l.level = 4 ∧ 3 ≤ r.level
       else binding op ≤ l.level ∧ binding op < r.level)

/-- The tokens of an expression, in infix order. -/
def Exp.tokens : Exp → List Token
  | Exp.literal text => [⟨text, OPERAND⟩]
  | Exp.scope e => ⟨['('], OPENING_SCOPE⟩ :: (e.tokens ++ [⟨[')'], CLOSING_SCOPE⟩])
  | Exp.binary l op r => l.tokens ++ ⟨[op], OPERATOR⟩ :: r.tokens

/-- The number the text of an operand denotes: decimal, negative after a minus sign. -/
def literal_value (text : List Char) : Int :=
  match text with
  | '-' :: ds => - (natural_value ds : Int)
  | ds => (natural_value ds : Int)

/-- A value of the required 16-bit type. -/
def in_range (v : Int) : Prop := required_min ≤ v ∧ v ≤ required_max

instance (v : Int) : Decidable (in_range v) := by
  unfold in_range; infer_instance

/-- An operator applied to two values: nothing on a division or a remainder by zero and
on a negative exponent; the quotient is truncated toward zero and the remainder has the
sign of the dividend. -/
def apply (op : Char) (a b : Int) : Option Int :=
  if op = '+' then some (a + b)
  else if op = '-' then some (a - b)
  else if op = '*' then some (a * b)
  else if op = '/' then (if b = 0 then none else some (Int.tdiv a b))
  else if op = '%' then (if b = 0 then none else some (Int.tmod a b))
  else if op = '^' then (if b < 0 then none else some (a ^ b.toNat))
  else none

/-- The value of an expression: nothing when a division or a remainder by zero, a
negative exponent, or a value outside the required range is met. -/
def Exp.value : Exp → Option Int
  | Exp.literal text =>
    if in_range (literal_value text) then some (literal_value text) else none
  | Exp.scope e => e.value
  | Exp.binary l op r =>
    match l.value, r.value with
    | some a, some b =>
      match apply op a b with
      | some v => if in_range v then some v else none
      | none => none
    | _, _ => none

/-- The tokens of an expression in postfix order. -/
def Exp.post : Exp → List Token
  | Exp.literal text => [⟨text, OPERAND⟩]
  | Exp.scope e => e.post
  | Exp.binary l op r => l.post ++ (r.post ++ [⟨[op], OPERATOR⟩])

/-- The operators of an expression that the converter still holds on its stack when it
has read the tokens of the expression, top first. -/
def Exp.pend : Exp → List Token
  | Exp.literal _ => []
  | Exp.scope _ => []
  | Exp.binary _ op r => r.pend ++ [⟨[op], OPERATOR⟩]

/-- The tokens the converter has written when it has read the tokens of the expression. -/
def Exp.out : Exp → List Token
  | Exp.literal text => [⟨text, OPERAND⟩]
  | Exp.scope e => e.post
  | Exp.binary l _ r => l.post ++ r.out

/-- The tree of `t op a`, where `t` is a standard reading and `a` is a literal or a
parenthesised expression: `op a` goes down the right spine of `t` past the operators that
bind less tightly than `op`, and past `^` when `op` is `^`. -/
def Exp.extend : Exp → Char → Exp → Exp
  | Exp.binary l o r, op, a =>
    if binding o < binding op ∨ (o = '^' ∧ op = '^') then
      Exp.binary l o (Exp.extend r op a)
    else Exp.binary (Exp.binary l o r) op a
  | Exp.literal text, op, a => Exp.binary (Exp.literal text) op a
  | Exp.scope e, op, a => Exp.binary (Exp.scope e) op a

/-- The shape of the text of a token the parser emits. -/
def WellFormed (t : Token) : Prop :=
  match t.type with
  | OPERAND => t.value = ['0'] ∨ ∃ k ds, Natural ds ∧ required_min < signed_value k ds
      ∧ signed_value k ds < required_max ∧ t.value = literal_text k ds
  | OPERATOR => ∃ c, OperatorSymbol c ∧ t.value = [c]
  | OPENING_SCOPE => t.value = ['(']
  | CLOSING_SCOPE => t.value = [')']

end Reading

namespace Reading

/-- Whether a tree is a standard reading can be computed. -/
def Exp.decStandard : (T : Exp) → Decidable T.standard
  | Exp.literal _ => isTrue trivial
  | Exp.scope e => Exp.decStandard e
  | Exp.binary l op r =>
    have := Exp.decStandard l
    have := Exp.decStandard r
    by unfold Exp.standard; infer_instance

instance (T : Exp) : Decidable T.standard := Exp.decStandard T

end Reading

/-- The text obtained by writing the values of the tokens one after the other. -/
def concat_values (ts : List Token) : List Char :=
  (ts.map Token.value).flatten


namespace Grammar

open token_t

/-- The texts after which the parser expects a term (`Level.term`) or an expression
(`Level.expr`), with the tokens emitted for them: an expression is expected at the start
of the input and right after an opening parenthesis that stands where a term is expected;
a term is expected where an expression is expected, and right after an operator that
follows an expression standing where an expression is expected. -/
inductive Context : Level → List Char → List Token → Prop
  | start : Context Level.expr [] []
  | first (pre : List Char) (ts : List Token) :
      Context Level.expr pre ts → Context Level.term pre ts
  | operator (pre e w : List Char) (c : Char) (ts us : List Token) :
      Context Level.expr pre ts → Derives Level.expr e us → Blank w → OperatorSymbol c →
      Context Level.term (pre ++ (e ++ (w ++ [c]))) (ts ++ (us ++ [⟨[c], OPERATOR⟩]))
  | scope (pre w : List Char) (ts : List Token) :
      Context Level.term pre ts → Blank w →
      Context Level.expr (pre ++ (w ++ ['('])) (ts ++ [⟨['('], OPENING_SCOPE⟩])

end Grammar

/-- The text `s` with every blank and every tab deleted. -/
def delete_blanks (s : List Char) : List Char :=
  s.filter (fun c => ¬ (c = ' ' ∨ c = '\t'))

namespace Parser

/-- The parser went from `p` to `q` appending only tokens of the expected shape. -/
def Emits (p q : Parser) : Prop :=
  ∃ ts, q.token_list = p.token_list ++ ts ∧ ∀ t ∈ ts, Reading.WellFormed t

end Parser


namespace Parser

open Grammar

/-- The result `r` and the parser `q` are those of an out-of-range literal of the input
`e`: `e` is a text `pre` after which a term is expected, blanks, `k` minus signs `ms` (each
after blanks), blanks, a natural number `ds` whose signed value is not strictly inside the
required range, and the characters `q` still has to read; the column of `r` is the offset
of the first digit of `ds`, and the tokens of `q` are those of `pre`. -/
def OutOfRangeLiteral (e : List Char) (r : ParserResult) (q : Parser) : Prop :=
  ∃ pre ts w0 k ms w ds, Context Level.term pre ts ∧ Blank w0 ∧ Minuses k ms ∧ Blank w
    ∧ Natural ds ∧ NoDigitHead q.it_rest
    ∧ e = pre ++ (w0 ++ (ms ++ (w ++ (ds ++ q.it_rest))))
    ∧ ¬ (required_min < signed_value k ds ∧ signed_value k ds < required_max)
    ∧ r.at_col = (pre ++ (w0 ++ (ms ++ w))).length
    ∧ q.token_list = ts

/-- The token list `ts` belongs to a text of the grammar that is still being read: either
a term or an expression is expected after it, or it ends with a complete expression that
stands where an expression is expected. -/
def Viable (ts : List Token) : Prop :=
  (∃ lvl pre, Context lvl pre ts)
  ∨ (∃ pre ts0 e us, Context Level.expr pre ts0 ∧ Derives Level.expr e us ∧ ts = ts0 ++ us)

end Parser


namespace Reading

open Grammar

/-- The text of an operand of the accepted literal range: `0`, or a natural number (a
non-zero digit, then digits) with or without one `-` before it, whose numeric value lies
strictly between `required_min` and `required_max`. -/
def OperandText (text : List Char) : Prop :=
  (text = ['0'] ∨ ∃ ds, Natural ds ∧ (text = ds ∨ text = '-' :: ds))
    ∧ required_min < literal_value text ∧ literal_value text < required_max

end Reading

/-- The text made of the values of the tokens `ts`, the value of the token of index `i`
written after the run of index `i` of `ws` (after nothing where `ws` is shorter). -/
def spaced : List (List Char) → List Token → List Char
  | _, [] => []
  | ws, t :: ts => ws.headD [] ++ (t.value ++ spaced ws.tail ts)


/-! ## Properties of the parser -/

namespace Parser

open terminal_symbol_t ParserResult.code_t token_t Grammar

theorem ite_ne_of_ne {α : Type} {p : Prop} [Decidable p] {a b x : α} (ha : a ≠ x)
    (hb : b ≠ x) : (if p then a else b) ≠ x := by
  split <;> assumption

theorem lexer_eq_ws (c : Char) : lexer c = TS_WS ↔ c = ' ' := by
  constructor
  · intro h
    by_contra hc
    revert h
    unfold lexer
    rw [if_neg hc]
    repeat' (first | apply ite_ne_of_ne | decide)
  · rintro rfl; decide

theorem lexer_eq_tab (c : Char) : lexer c = TS_TAB ↔ c = '\t' := by
  constructor
  · intro h
    by_contra hc
    revert h
    unfold lexer
    rw [if_neg hc]
    repeat' (first | apply ite_ne_of_ne | decide)
  · rintro rfl; decide

theorem lexer_eq_plus (c : Char) : lexer c = TS_PLUS ↔ c = '+' := by
  constructor
  · intro h
    by_contra hc
    revert h
    unfold lexer
    rw [if_neg hc]
    repeat' (first | apply ite_ne_of_ne | decide)
  · rintro rfl; decide

theorem lexer_eq_minus (c : Char) : lexer c = TS_MINUS ↔ c = '-' := by
  constructor
  · intro h
    by_contra hc
    revert h
    unfold lexer
    rw [if_neg hc]
    repeat' (first | apply ite_ne_of_ne | decide)
  · rintro rfl; decide

theorem lexer_eq_asterisk (c : Char) : lexer c = TS_ASTERISK ↔ c = '*' := by
  constructor
  · intro h
    by_contra hc
    revert h
    unfold lexer
    rw [if_neg hc]
    repeat' (first | apply ite_ne_of_ne | decide)
  · rintro rfl; decide

theorem lexer_eq_slash (c : Char) : lexer c = TS_SLASH ↔ c = '/' := by
  constructor
  · intro h
    by_contra hc
    revert h
    unfold lexer
    rw [if_neg hc]
    repeat' (first | apply ite_ne_of_ne | decide)
  · rintro rfl; decide

theorem lexer_eq_mod (c : Char) : lexer c = TS_MOD ↔ c = '%' := by
  constructor
  · intro h
    by_contra hc
    revert h
    unfold lexer
    rw [if_neg hc]
    repeat' (first | apply ite_ne_of_ne | decide)
  · rintro rfl; decide

theorem lexer_eq_exp (c : Char) : lexer c = TS_EXP ↔ c = '^' := by
  constructor
  · intro h
    by_contra hc
    revert h
    unfold lexer
    rw [if_neg hc]
    repeat' (first | apply ite_ne_of_ne | decide)
  · rintro rfl; decide

theorem lexer_eq_closing (c : Char) : lexer c = TS_CLOSING_SCOPE ↔ c = ')' := by
  constructor
  · intro h
    by_contra hc
    revert h
    unfold lexer
    rw [if_neg hc]
    repeat' (first | apply ite_ne_of_ne | decide)
  · rintro rfl; decide

theorem lexer_eq_opening (c : Char) : lexer c = TS_OPENING_SCOPE ↔ c = '(' := by
  constructor
  · intro h
    by_contra hc
    revert h
    unfold lexer
    rw [if_neg hc]
    repeat' (first | apply ite_ne_of_ne | decide)
  · rintro rfl; decide

theorem lexer_eq_zero (c : Char) : lexer c = TS_ZERO ↔ c = '0' := by
  constructor
  · intro h
    by_contra hc
    revert h
    unfold lexer
    rw [if_neg hc]
    repeat' (first | apply ite_ne_of_ne | decide)
  · rintro rfl; decide

theorem lexer_eq_non_zero_digit (c : Char) :
    lexer c = TS_NON_ZERO_DIGIT ↔ NonZeroDigit c := by
  constructor
  · intro h
    by_contra hc
    revert h
    unfold lexer
    unfold NonZeroDigit at hc
    rw [if_neg hc]
    repeat' (first | apply ite_ne_of_ne | decide)
  · unfold NonZeroDigit
    rintro (rfl | rfl | rfl | rfl | rfl | rfl | rfl | rfl | rfl) <;> decide

theorem lexer_blank_iff (c : Char) :
    (lexer c = TS_WS ∨ lexer c = TS_TAB) ↔ (c = ' ' ∨ c = '\t') := by
  rw [lexer_eq_ws, lexer_eq_tab]


theorem skip_ws_chars_spec (cs : List Char) :
    ∃ w, Blank w ∧ cs = w ++ (skip_ws_chars cs).2 ∧ (skip_ws_chars cs).1 = w.length
      ∧ NoBlankHead (skip_ws_chars cs).2 := by
  induction cs with
  | nil => exact ⟨[], by simp [Blank], by simp [skip_ws_chars], by simp [skip_ws_chars],
      by simp [skip_ws_chars, NoBlankHead]⟩
  | cons c cs ih =>
    obtain ⟨w, hw, hcs, hlen, hhead⟩ := ih
    by_cases hc : lexer c = TS_WS ∨ lexer c = TS_TAB
    · refine ⟨c :: w, ?_, ?_, ?_, ?_⟩
      · intro x hx
        rcases List.mem_cons.mp hx with rfl | hx
        · exact (lexer_blank_iff _).mp hc
        · exact hw x hx
      · simp only [skip_ws_chars, if_pos hc, List.cons_append]
        rw [← hcs]
      · simp only [skip_ws_chars, if_pos hc, List.length_cons, hlen]
      · simpa only [skip_ws_chars, if_pos hc] using hhead
    · refine ⟨[], by simp [Blank], ?_, ?_, ?_⟩
      · simp only [skip_ws_chars, if_neg hc, List.nil_append]
      · simp only [skip_ws_chars, if_neg hc, List.length_nil]
      · simp only [skip_ws_chars, if_neg hc, NoBlankHead, List.head?_cons, Option.mem_def,
          Option.some.injEq, forall_eq']
        exact fun h => hc ((lexer_blank_iff _).mpr h)

theorem skip_ws_chars_append (w r : List Char) (hw : Blank w) (hr : NoBlankHead r) :
    skip_ws_chars (w ++ r) = (w.length, r) := by
  induction w with
  | nil =>
    cases r with
    | nil => simp [skip_ws_chars]
    | cons c r =>
      have hc : ¬ (lexer c = TS_WS ∨ lexer c = TS_TAB) := by
        rw [lexer_blank_iff]; exact hr c (by simp)
      simp only [List.nil_append, skip_ws_chars, if_neg hc, List.length_nil]
  | cons c w ih =>
    have hc : lexer c = TS_WS ∨ lexer c = TS_TAB := by
      rw [lexer_blank_iff]; exact hw c (by simp)
    have hw' : Blank w := fun x hx => hw x (List.mem_cons_of_mem _ hx)
    simp only [List.cons_append, skip_ws_chars, if_pos hc, List.length_cons]
    rw [show w.append r = w ++ r from rfl, ih hw']

theorem Consumes.refl (p : Parser) : Consumes p p [] [] := by
  simp [Consumes]

theorem Consumes.trans {p q r : Parser} {cs ds : List Char} {ts us : List Token}
    (h1 : Consumes p q cs ts) (h2 : Consumes q r ds us) :
    Consumes p r (cs ++ ds) (ts ++ us) := by
  obtain ⟨a1, a2, a3⟩ := h1
  obtain ⟨b1, b2, b3⟩ := h2
  refine ⟨?_, ?_, ?_⟩
  · rw [a1, b1, List.append_assoc]
  · rw [b2, a2, List.length_append]; omega
  · rw [b3, a3, List.append_assoc]

theorem Consumes.push (p : Parser) (t : Token) :
    Consumes p { p with token_list := p.token_list ++ [t] } [] [t] := by
  simp [Consumes]

theorem blank_nil : Blank [] := by
  intro c hc; cases hc

theorem blank_append {v w : List Char} (hv : Blank v) (hw : Blank w) : Blank (v ++ w) := by
  intro c hc
  rcases List.mem_append.mp hc with h | h
  · exact hv c h
  · exact hw c h

theorem skip_ws_consumes (p : Parser) :
    ∃ w, Blank w ∧ Consumes p (skip_ws p) w [] ∧ NoBlankHead (skip_ws p).it_rest := by
  obtain ⟨w, hw, hcs, hlen, hhead⟩ := skip_ws_chars_spec p.it_rest
  refine ⟨w, hw, ⟨?_, ?_, ?_⟩, hhead⟩
  · exact hcs
  · simp only [skip_ws, hlen]
  · simp only [skip_ws, List.append_nil]

theorem skip_ws_of_blank (o : Nat) (w r : List Char) (t : List Token) (hw : Blank w)
    (hr : NoBlankHead r) : skip_ws ⟨o, w ++ r, t⟩ = ⟨o + w.length, r, t⟩ := by
  simp only [skip_ws, skip_ws_chars_append w r hw hr]

theorem skip_ws_of_noBlankHead (p : Parser) (h : NoBlankHead p.it_rest) : skip_ws p = p := by
  have := skip_ws_of_blank p.it_offset [] p.it_rest p.token_list blank_nil h
  simpa using this

theorem skip_ws_idem (p : Parser) : skip_ws (skip_ws p) = skip_ws p := by
  obtain ⟨w, _, _, h⟩ := skip_ws_consumes p
  exact skip_ws_of_noBlankHead _ h

theorem skip_ws_token_list (p : Parser) : (skip_ws p).token_list = p.token_list := rfl

theorem accept_true {p q : Parser} {c : terminal_symbol_t} (h : accept p c = (true, q)) :
    ∃ x, lexer x = c ∧ Consumes p q [x] [] := by
  obtain ⟨o, rest, t⟩ := p
  cases rest with
  | nil => simp [accept, peek] at h
  | cons x r =>
    by_cases hx : lexer x = c
    · simp [accept, peek, hx, next_symbol] at h
      subst h
      exact ⟨x, hx, by simp [Consumes]⟩
    · simp [accept, peek, hx] at h

theorem accept_false {p q : Parser} {c : terminal_symbol_t} (h : accept p c = (false, q)) :
    q = p ∧ ∀ x ∈ p.it_rest.head?, lexer x ≠ c := by
  obtain ⟨o, rest, t⟩ := p
  cases rest with
  | nil => simp [accept, peek] at h; simp [h]
  | cons x r =>
    by_cases hx : lexer x = c
    · simp [accept, peek, hx, next_symbol] at h
    · simp [accept, peek, hx] at h
      simp [h, hx]

theorem accept_cons (o : Nat) (x : Char) (r : List Char) (t : List Token)
    (c : terminal_symbol_t) :
    accept ⟨o, x :: r, t⟩ c = if lexer x = c then (true, ⟨o + 1, r, t⟩) else (false, ⟨o, x :: r, t⟩) := by
  by_cases hx : lexer x = c <;> simp [accept, peek, hx, next_symbol]

theorem accept_nil (o : Nat) (t : List Token) (c : terminal_symbol_t) :
    accept ⟨o, [], t⟩ c = (false, ⟨o, [], t⟩) := by
  simp [accept, peek]

theorem expect_true {p q : Parser} {c : terminal_symbol_t} (h : expect p c = (true, q)) :
    ∃ w x, Blank w ∧ lexer x = c ∧ Consumes p q (w ++ [x]) [] := by
  obtain ⟨w, hw, hc, _⟩ := skip_ws_consumes p
  obtain ⟨x, hx, hc2⟩ := accept_true h
  exact ⟨w, x, hw, hx, by simpa using hc.trans hc2⟩

theorem expect_false {p q : Parser} {c : terminal_symbol_t} (h : expect p c = (false, q)) :
    q = skip_ws p ∧ ∀ x ∈ (skip_ws p).it_rest.head?, lexer x ≠ c :=
  accept_false h

theorem digit_true {p q : Parser} (h : digit p = (true, q)) :
    ∃ x, Digit x ∧ Consumes p q [x] [] := by
  unfold digit at h
  cases h0 : accept p TS_ZERO with
  | mk b p1 =>
    rw [h0] at h
    cases b with
    | true =>
      simp only [Prod.mk.injEq, true_and] at h
      subst h
      obtain ⟨x, hx, hc⟩ := accept_true h0
      exact ⟨x, Or.inl ((lexer_eq_zero x).mp hx), hc⟩
    | false =>
      obtain ⟨rfl, _⟩ := accept_false h0
      obtain ⟨x, hx, hc⟩ := accept_true (c := TS_NON_ZERO_DIGIT) h
      exact ⟨x, Or.inr ((lexer_eq_non_zero_digit x).mp hx), hc⟩

theorem digit_false {p q : Parser} (h : digit p = (false, q)) :
    q = p ∧ NoDigitHead p.it_rest := by
  unfold digit at h
  cases h0 : accept p TS_ZERO with
  | mk b p1 =>
    rw [h0] at h
    cases b with
    | true => simp at h
    | false =>
      obtain ⟨rfl, hz⟩ := accept_false h0
      obtain ⟨rfl, hn⟩ := accept_false (c := TS_NON_ZERO_DIGIT) h
      refine ⟨rfl, ?_⟩
      intro x hx hd
      rcases hd with hd | hd
      · exact hz x hx ((lexer_eq_zero x).mpr hd)
      · exact hn x hx ((lexer_eq_non_zero_digit x).mpr hd)

theorem digit_loop_sound (fuel : Nat) : ∀ (p q : Parser), digit_loop fuel p = some q →
    ∃ ds, (∀ c ∈ ds, Digit c) ∧ Consumes p q ds [] ∧ NoDigitHead q.it_rest := by
  induction fuel with
  | zero => intro p q h; simp [digit_loop] at h
  | succ n ih =>
    intro p q h
    unfold digit_loop at h
    cases hd : digit p with
    | mk b p1 =>
      rw [hd] at h
      cases b with
      | true =>
        obtain ⟨x, hx, hc⟩ := digit_true hd
        obtain ⟨ds, hds, hc2, hq⟩ := ih p1 q h
        refine ⟨x :: ds, ?_, by simpa using hc.trans hc2, hq⟩
        intro c hcm
        rcases List.mem_cons.mp hcm with rfl | hcm
        · exact hx
        · exact hds c hcm
      | false =>
        obtain ⟨rfl, hn⟩ := digit_false hd
        simp only [Option.some.injEq] at h
        subst h
        exact ⟨[], by simp, Consumes.refl _, hn⟩

theorem natural_number_sound {fuel : Nat} {p q : Parser} {r : ParserResult}
    (h : natural_number fuel p = some (r, q)) (hr : r.type = PARSER_OK) :
    ∃ ds, Natural ds ∧ Consumes p q ds [] ∧ NoDigitHead q.it_rest := by
  unfold natural_number digit_excl_zero at h
  cases h0 : accept p TS_NON_ZERO_DIGIT with
  | mk b p1 =>
    rw [h0] at h
    cases b with
    | false =>
      simp only [Option.some.injEq, Prod.mk.injEq] at h
      rw [← h.1] at hr
      cases hr
    | true =>
      obtain ⟨x, hx, hc⟩ := accept_true h0
      cases hl : digit_loop fuel p1 with
      | none => simp [hl] at h
      | some p2 =>
        simp only [hl, Option.some.injEq, Prod.mk.injEq] at h
        obtain ⟨ds, hds, hc2, hq⟩ := digit_loop_sound fuel p1 p2 hl
        rw [← h.2]
        exact ⟨x :: ds, ⟨x, ds, rfl, (lexer_eq_non_zero_digit x).mp hx, hds⟩,
          by simpa using hc.trans hc2, hq⟩

theorem natural_number_fail {fuel : Nat} {p q : Parser} {r : ParserResult}
    (h : natural_number fuel p = some (r, q)) (hr : r.type ≠ PARSER_OK) :
    q = p ∧ r = ⟨ILL_FORMED_INTEGER, p.it_offset⟩
      ∧ ∀ x ∈ p.it_rest.head?, ¬ NonZeroDigit x := by
  unfold natural_number digit_excl_zero at h
  cases h0 : accept p TS_NON_ZERO_DIGIT with
  | mk b p1 =>
    rw [h0] at h
    cases b with
    | false =>
      simp only [Option.some.injEq, Prod.mk.injEq] at h
      obtain ⟨rfl, hn⟩ := accept_false h0
      refine ⟨h.2.symm, h.1.symm, ?_⟩
      intro x hx hd
      exact hn x hx ((lexer_eq_non_zero_digit x).mpr hd)
    | true =>
      cases hl : digit_loop fuel p1 with
      | none => simp [hl] at h
      | some p2 =>
        simp only [hl, Option.some.injEq, Prod.mk.injEq] at h
        rw [← h.1] at hr
        exact absurd rfl hr

theorem minus_loop_sound (fuel : Nat) : ∀ (p q : Parser) (n k : Nat),
    minus_loop fuel p n = some (k, q) →
    ∃ j ms w, Minuses j ms ∧ Blank w ∧ k = n + j ∧ Consumes p q (ms ++ w) []
      ∧ NoBlankHead q.it_rest ∧ ∀ x ∈ q.it_rest.head?, x ≠ '-' := by
  induction fuel with
  | zero => intro p q n k h; simp [minus_loop] at h
  | succ f ih =>
    intro p q n k h
    unfold minus_loop at h
    cases he : expect p TS_MINUS with
    | mk b p1 =>
      rw [he] at h
      cases b with
      | true =>
        obtain ⟨w, x, hw, hx, hc⟩ := expect_true he
        obtain ⟨j, ms, w1, hms, hw1, hk, hc2, hq⟩ := ih p1 q (n + 1) k h
        have hx' : x = '-' := (lexer_eq_minus x).mp hx
        subst hx'
        refine ⟨j + 1, w ++ '-' :: ms, w1, Minuses.succ j w ms hw hms, hw1, by omega, ?_, hq⟩
        have := hc.trans hc2
        simpa using this
      | false =>
        obtain ⟨rfl, hne⟩ := expect_false he
        simp only [Option.some.injEq, Prod.mk.injEq] at h
        obtain ⟨rfl, rfl⟩ := h
        obtain ⟨w, hw, hc, hnb⟩ := skip_ws_consumes p
        refine ⟨0, [], w, Minuses.zero, hw, rfl, by simpa using hc, hnb, ?_⟩
        intro x hx hm
        exact hne x hx ((lexer_eq_minus x).mpr hm)

theorem digits_value_eq (ds : List Char) : digits_value ds = natural_value ds := by
  unfold digits_value natural_value
  induction ds using List.reverseRecOn with
  | nil => simp
  | append_singleton l x ih =>
    rw [List.foldl_append, List.reverse_append]
    simp only [List.foldl_cons, List.foldl_nil, List.reverse_cons, List.reverse_nil,
      List.nil_append, List.singleton_append, List.map_cons, Nat.ofDigits_cons]
    rw [ih]
    have : ('0' : Char).toNat = 48 := by decide
    rw [this]
    omega

theorem is_digit_of_digit {c : Char} (h : Digit c) : is_digit c = true := by
  rcases h with rfl | h
  · decide
  · rcases h with rfl | rfl | rfl | rfl | rfl | rfl | rfl | rfl | rfl <;> decide

theorem natural_takeWhile {ds : List Char} (h : Natural ds) : ds.takeWhile is_digit = ds := by
  obtain ⟨d, t, rfl, hd, ht⟩ := h
  rw [List.takeWhile_eq_self_iff]
  intro c hc
  rcases List.mem_cons.mp hc with rfl | hc
  · exact is_digit_of_digit (Or.inr hd)
  · exact is_digit_of_digit (ht c hc)

theorem stream_extract_natural {ds : List Char} (h : Natural ds) :
    stream_extract ds =
      if (natural_value ds : Int) > long_max then (long_max, true)
      else (natural_value ds, false) := by
  have htw := natural_takeWhile h
  obtain ⟨d, t, rfl, hd, ht⟩ := h
  have h1 : (d :: t).dropWhile (fun c => decide (c = ' ' ∨ c = '\t' ∨ c = '\n' ∨ c = '\r'
      ∨ c = Char.ofNat 11 ∨ c = Char.ofNat 12)) = d :: t := by
    rw [List.dropWhile_cons_of_neg]
    rcases hd with rfl | rfl | rfl | rfl | rfl | rfl | rfl | rfl | rfl <;> decide
  have h2 : d ≠ '-' := by
    rcases hd with rfl | rfl | rfl | rfl | rfl | rfl | rfl | rfl | rfl <;> decide
  have h3 : d ≠ '+' := by
    rcases hd with rfl | rfl | rfl | rfl | rfl | rfl | rfl | rfl | rfl <;> decide
  unfold stream_extract
  simp only [h1, List.head?_cons, Option.some.injEq, h2, h3, or_self, if_false, htw,
    digits_value_eq]
  have hpos : ¬ ((natural_value (d :: t) : Int) < long_min) := by
    unfold long_min; omega
  simp [hpos]

theorem stream_extract_minus_natural {ds : List Char} (h : Natural ds) :
    stream_extract ('-' :: ds) =
      if - (natural_value ds : Int) < long_min then (long_min, true)
      else (- (natural_value ds : Int), false) := by
  have htw := natural_takeWhile h
  have h1 : ('-' :: ds).dropWhile (fun c => decide (c = ' ' ∨ c = '\t' ∨ c = '\n' ∨ c = '\r'
      ∨ c = Char.ofNat 11 ∨ c = Char.ofNat 12)) = '-' :: ds := by
    rw [List.dropWhile_cons_of_neg]
    decide
  have hne : ds ≠ [] := by
    obtain ⟨d, t, rfl, _, _⟩ := h
    simp
  unfold stream_extract
  simp only [h1, List.head?_cons, true_or, if_true, List.tail_cons, htw, digits_value_eq]
  have hpos : ¬ (- (natural_value ds : Int) > long_max) := by
    unfold long_max; omega
  simp [hpos, hne]

theorem range_check_literal (k : Nat) {ds : List Char} (h : Natural ds) :
    ((stream_extract (literal_text k ds)).2 = true
        ∨ (stream_extract (literal_text k ds)).1 ≥ required_max
        ∨ (stream_extract (literal_text k ds)).1 ≤ required_min)
      ↔ ¬ (required_min < signed_value k ds ∧ signed_value k ds < required_max) := by
  unfold literal_text signed_value
  by_cases hk : k % 2 = 1
  · simp only [hk, if_true, stream_extract_minus_natural h]
    unfold required_max required_min long_min
    split_ifs with hov
    · simp only [true_or, true_iff]; omega
    · simp only [Bool.false_eq_true, false_or]; omega
  · simp only [hk, if_false, stream_extract_natural h]
    unfold required_max required_min long_max
    split_ifs with hov
    · simp only [true_or, true_iff]; omega
    · simp only [Bool.false_eq_true, false_or]; omega

theorem stream_extract_literal_value (k : Nat) {ds : List Char} (h : Natural ds)
    (h1 : required_min < signed_value k ds) (h2 : signed_value k ds < required_max) :
    (stream_extract (literal_text k ds)).1 = signed_value k ds := by
  unfold literal_text signed_value at *
  unfold required_min at h1
  unfold required_max at h2
  by_cases hk : k % 2 = 1
  · simp only [hk, if_true, stream_extract_minus_natural h] at *
    unfold long_min
    split_ifs with hov
    · omega
    · rfl
  · simp only [hk, if_false, stream_extract_natural h] at *
    unfold long_max
    split_ifs with hov
    · omega
    · rfl

theorem Consumes.take_eq {p q : Parser} {cs : List Char} {ts : List Token}
    (h : Consumes p q cs ts) : p.it_rest.take (q.it_offset - p.it_offset) = cs := by
  obtain ⟨h1, h2, _⟩ := h
  rw [h1, h2]
  simp

/-- What `integer` returns, in terms of the minus signs and the digits it read. -/
theorem integer_cases {fuel : Nat} {p q : Parser} {r : ParserResult}
    (h : integer fuel p = some (r, q)) :
    (r = ⟨PARSER_OK, 0⟩ ∧ Consumes p q ['0'] [⟨['0'], OPERAND⟩])
    ∨ (∃ k ms w, Minuses k ms ∧ Blank w ∧
        ∃ b : Parser, Consumes p b (ms ++ w) [] ∧ NoBlankHead b.it_rest
          ∧ (∀ x ∈ b.it_rest.head?, x ≠ '-') ∧ (∀ x ∈ p.it_rest.head?, x ≠ '0') ∧
        ((q = b ∧ r = ⟨ILL_FORMED_INTEGER, b.it_offset⟩
            ∧ ∀ x ∈ b.it_rest.head?, ¬ NonZeroDigit x)
        ∨ (∃ ds, Natural ds ∧ NoDigitHead q.it_rest ∧
            ((Consumes b q ds [] ∧ r = ⟨INTEGER_OUT_OF_RANGE, b.it_offset⟩
                ∧ ¬ (required_min < signed_value k ds ∧ signed_value k ds < required_max))
            ∨ (Consumes b q ds [⟨literal_text k ds, OPERAND⟩] ∧ r = ⟨PARSER_OK, k⟩
                ∧ required_min < signed_value k ds ∧ signed_value k ds < required_max))))) := by
  unfold integer at h
  cases h0 : accept p TS_ZERO with
  | mk b0 p1 =>
    rw [h0] at h
    cases b0 with
    | true =>
      left
      simp only [Option.some.injEq, Prod.mk.injEq] at h
      obtain ⟨x, hx, hc⟩ := accept_true h0
      rw [(lexer_eq_zero x).mp hx] at hc
      refine ⟨h.1.symm, ?_⟩
      rw [← h.2]
      simpa using hc.trans (Consumes.push p1 ⟨['0'], OPERAND⟩)
    | false =>
      right
      obtain ⟨rfl, hz⟩ := accept_false h0
      have hz' : ∀ x ∈ p1.it_rest.head?, x ≠ '0' :=
        fun x hx h0 => hz x hx ((lexer_eq_zero x).mpr h0)
      dsimp only at h
      cases hm : minus_loop fuel p1 0 with
      | none => simp [hm] at h
      | some kb =>
        obtain ⟨k, b⟩ := kb
        simp only [hm] at h
        obtain ⟨j, ms, w, hms, hw, hk, hc, hnb, hnm⟩ := minus_loop_sound fuel p1 b 0 k hm
        have hkj : k = j := by omega
        subst hkj
        refine ⟨k, ms, w, hms, hw, b, hc, hnb, hnm, hz', ?_⟩
        cases hn : natural_number fuel b with
        | none => simp [hn] at h
        | some rq =>
          obtain ⟨result, p3⟩ := rq
          simp only [hn] at h
          by_cases hres : result.type = PARSER_OK
          · right
            obtain ⟨ds, hds, hc3, hnd⟩ := natural_number_sound hn hres
            rw [if_pos hres, hc3.take_eq] at h
            change (if (stream_extract (literal_text k ds)).2 = true
                ∨ (stream_extract (literal_text k ds)).1 ≥ required_max
                ∨ (stream_extract (literal_text k ds)).1 ≤ required_min then _ else _) = _ at h
            by_cases hrange : (stream_extract (literal_text k ds)).2 = true
                ∨ (stream_extract (literal_text k ds)).1 ≥ required_max
                ∨ (stream_extract (literal_text k ds)).1 ≤ required_min
            · rw [if_pos hrange] at h
              simp only [Option.some.injEq, Prod.mk.injEq] at h
              obtain ⟨rfl, rfl⟩ := h
              exact ⟨ds, hds, hnd, Or.inl ⟨hc3, rfl, (range_check_literal k hds).mp hrange⟩⟩
            · rw [if_neg hrange] at h
              simp only [Option.some.injEq, Prod.mk.injEq] at h
              obtain ⟨rfl, rfl⟩ := h
              have hin := not_not.mp (mt (range_check_literal k hds).mpr hrange)
              refine ⟨ds, hds, hnd, Or.inr ⟨?_, rfl, hin.1, hin.2⟩⟩
              simpa using hc3.trans (Consumes.push p3 ⟨literal_text k ds, OPERAND⟩)
          · left
            rw [if_neg hres] at h
            simp only [Option.some.injEq, Prod.mk.injEq] at h
            obtain ⟨rfl, rfl⟩ := h
            exact natural_number_fail hn hres

theorem expect_skip_ws (p : Parser) (c : terminal_symbol_t) :
    expect (skip_ws p) c = expect p c := by
  simp only [expect, skip_ws_idem]

theorem expect_eq_of_true {p q : Parser} {c : terminal_symbol_t}
    (h : expect (skip_ws p) c = (true, q)) :
    ∃ w x, Blank w ∧ lexer x = c ∧ Consumes p q (w ++ [x]) [] := by
  rw [expect_skip_ws] at h
  exact expect_true h

/-- What the chain of `expect` calls at the head of the loop of `expression` returns. -/
theorem expect_operator_cases (p : Parser) :
    (∃ w c q, Blank w ∧ OperatorSymbol c ∧ Consumes p q (w ++ [c]) []
        ∧ expect_operator p = (some [c], q))
    ∨ ((∀ x ∈ (skip_ws p).it_rest.head?, ¬ OperatorSymbol x)
        ∧ expect_operator p = (none, skip_ws p)) := by
  unfold expect_operator
  cases h1 : expect p TS_PLUS with
  | mk b1 q1 =>
  cases b1 with
  | true =>
    obtain ⟨w, x, hw, hx, hc⟩ := expect_true h1
    rw [(lexer_eq_plus x).mp hx] at hc
    exact Or.inl ⟨w, '+', q1, hw, Or.inl rfl, hc, rfl⟩
  | false =>
  obtain ⟨rfl, n1⟩ := expect_false h1
  dsimp only
  cases h2 : expect (skip_ws p) TS_MINUS with
  | mk b2 q2 =>
  cases b2 with
  | true =>
    obtain ⟨w, x, hw, hx, hc⟩ := expect_eq_of_true h2
    rw [(lexer_eq_minus x).mp hx] at hc
    exact Or.inl ⟨w, '-', q2, hw, Or.inr (Or.inl rfl), hc, rfl⟩
  | false =>
  obtain ⟨rfl, n2⟩ := expect_false h2
  rw [skip_ws_idem] at n2 ⊢
  dsimp only
  cases h3 : expect (skip_ws p) TS_ASTERISK with
  | mk b3 q3 =>
  cases b3 with
  | true =>
    obtain ⟨w, x, hw, hx, hc⟩ := expect_eq_of_true h3
    rw [(lexer_eq_asterisk x).mp hx] at hc
    exact Or.inl ⟨w, '*', q3, hw, Or.inr (Or.inr (Or.inl rfl)), hc, rfl⟩
  | false =>
  obtain ⟨rfl, n3⟩ := expect_false h3
  rw [skip_ws_idem] at n3 ⊢
  dsimp only
  cases h4 : expect (skip_ws p) TS_SLASH with
  | mk b4 q4 =>
  cases b4 with
  | true =>
    obtain ⟨w, x, hw, hx, hc⟩ := expect_eq_of_true h4
    rw [(lexer_eq_slash x).mp hx] at hc
    exact Or.inl ⟨w, '/', q4, hw, Or.inr (Or.inr (Or.inr (Or.inl rfl))), hc, rfl⟩
  | false =>
  obtain ⟨rfl, n4⟩ := expect_false h4
  rw [skip_ws_idem] at n4 ⊢
  dsimp only
  cases h5 : expect (skip_ws p) TS_MOD with
  | mk b5 q5 =>
  cases b5 with
  | true =>
    obtain ⟨w, x, hw, hx, hc⟩ := expect_eq_of_true h5
    rw [(lexer_eq_mod x).mp hx] at hc
    exact Or.inl ⟨w, '%', q5, hw, Or.inr (Or.inr (Or.inr (Or.inr (Or.inl rfl)))), hc, rfl⟩
  | false =>
  obtain ⟨rfl, n5⟩ := expect_false h5
  rw [skip_ws_idem] at n5 ⊢
  dsimp only
  cases h6 : expect (skip_ws p) TS_EXP with
  | mk b6 q6 =>
  cases b6 with
  | true =>
    obtain ⟨w, x, hw, hx, hc⟩ := expect_eq_of_true h6
    rw [(lexer_eq_exp x).mp hx] at hc
    exact Or.inl ⟨w, '^', q6, hw, Or.inr (Or.inr (Or.inr (Or.inr (Or.inr rfl)))), hc, rfl⟩
  | false =>
  obtain ⟨rfl, n6⟩ := expect_false h6
  rw [skip_ws_idem] at n6 ⊢
  refine Or.inr ⟨?_, rfl⟩
  intro x hx hop
  rcases hop with rfl | rfl | rfl | rfl | rfl | rfl
  · exact n1 _ hx (by decide)
  · exact n2 _ hx (by decide)
  · exact n3 _ hx (by decide)
  · exact n4 _ hx (by decide)
  · exact n5 _ hx (by decide)
  · exact n6 _ hx (by decide)

theorem blank_cons {c : Char} {w : List Char} (hc : c = ' ' ∨ c = '\t') (hw : Blank w) :
    Blank (c :: w) := by
  intro x hx
  rcases List.mem_cons.mp hx with rfl | hx
  · exact hc
  · exact hw x hx

theorem derives_term_blank {w cs : List Char} {ts : List Token} (hw : Blank w)
    (h : Derives Level.term cs ts) : Derives Level.term (w ++ cs) ts := by
  cases h with
  | zero w1 hw1 =>
    rw [← List.append_assoc]
    exact Derives.zero (w ++ w1) (blank_append hw hw1)
  | literal k ms w1 ds hms hw1 hds h1 h2 =>
    cases hms with
    | zero =>
      have := Derives.literal 0 [] (w ++ w1) ds Minuses.zero (blank_append hw hw1) hds h1 h2
      simpa using this
    | succ k w2 ms2 hw2 hms2 =>
      have := Derives.literal (k + 1) ((w ++ w2) ++ '-' :: ms2) w1 ds
        (Minuses.succ k (w ++ w2) ms2 (blank_append hw hw2) hms2) hw1 hds h1 h2
      simpa using this
  | scope w1 e w2 ts hw1 he hw2 =>
    have := Derives.scope (w ++ w1) e w2 ts (blank_append hw hw1) he hw2
    simpa using this

theorem term_unfold (fuel : Nat) (p : Parser) :
    term (fuel + 1) p =
      match expect (skip_ws p) TS_OPENING_SCOPE with
      | (true, p1) =>
        match expression fuel
          { p1 with token_list := p1.token_list ++ [⟨['('], OPENING_SCOPE⟩] } with
        | none => none
        | some (result, p2) =>
          if result.type = PARSER_OK then
            match expect p2 TS_CLOSING_SCOPE with
            | (false, p3) => some (⟨MISSING_CLOSING_PARENTHESIS, p3.it_offset⟩, p3)
            | (true, p3) =>
              some (result,
                { p3 with token_list := p3.token_list ++ [⟨[')'], CLOSING_SCOPE⟩] })
          else some (result, p2)
      | (false, p1) => integer fuel p1 := by
  rw [term]

theorem expression_unfold (fuel : Nat) (p : Parser) :
    expression (fuel + 1) p =
      match term fuel (skip_ws p) with
      | none => none
      | some (result, p1) => expression_loop fuel result p1 := by
  rw [expression]

theorem expression_loop_unfold (fuel : Nat) (result : ParserResult) (p : Parser) :
    expression_loop (fuel + 1) result p =
      if result.type = PARSER_OK then
        match expect_operator p with
        | (none, p1) => some (result, p1)
        | (some op, p1) =>
          match term fuel { p1 with token_list := p1.token_list ++ [⟨op, OPERATOR⟩] } with
          | none => none
          | some (result1, p2) =>
            if result1.type ≠ PARSER_OK ∧ result1.type ≠ INTEGER_OUT_OF_RANGE
                ∧ end_input p2 then
              some (⟨MISSING_TERM, result1.at_col⟩, p2)
            else expression_loop fuel result1 p2
      else some (result, p) := by
  rw [expression_loop]

theorem expression_zero (p : Parser) : expression 0 p = none := by rw [expression]

theorem expression_loop_zero (result : ParserResult) (p : Parser) :
    expression_loop 0 result p = none := by rw [expression_loop]

theorem term_zero (p : Parser) : term 0 p = none := by rw [term]

/-- One step of `term`: either an opening scope was read and `expression` was called, or
`integer` was called after the white space. -/
theorem term_inv {fuel : Nat} {p q : Parser} {r : ParserResult}
    (h : term (fuel + 1) p = some (r, q)) :
    (∃ w p1 res p2, Blank w ∧ Consumes p p1 (w ++ ['(']) [⟨['('], OPENING_SCOPE⟩]
        ∧ expression fuel p1 = some (res, p2)
        ∧ ((res.type ≠ PARSER_OK ∧ r = res ∧ q = p2)
          ∨ (res.type = PARSER_OK ∧ r = res
              ∧ ∃ w1, Blank w1 ∧ Consumes p2 q (w1 ++ [')']) [⟨[')'], CLOSING_SCOPE⟩])
          ∨ (res.type = PARSER_OK ∧ r = ⟨MISSING_CLOSING_PARENTHESIS, q.it_offset⟩
              ∧ q = skip_ws p2 ∧ ∀ x ∈ q.it_rest.head?, x ≠ ')')))
    ∨ ((∀ x ∈ (skip_ws p).it_rest.head?, x ≠ '(') ∧ integer fuel (skip_ws p) = some (r, q)) := by
  rw [term_unfold] at h
  cases h1 : expect (skip_ws p) TS_OPENING_SCOPE with
  | mk b p1 =>
  rw [h1] at h
  cases b with
  | true =>
    left
    obtain ⟨w, x, hw, hx, hc⟩ := expect_eq_of_true h1
    rw [(lexer_eq_opening x).mp hx] at hc
    dsimp only at h
    cases h2 : expression fuel
        { p1 with token_list := p1.token_list ++ [⟨['('], OPENING_SCOPE⟩] } with
    | none => simp [h2] at h
    | some rp =>
      obtain ⟨res, p2⟩ := rp
      simp only [h2] at h
      refine ⟨w, _, res, p2, hw, by simpa using hc.trans (Consumes.push p1 _), h2, ?_⟩
      by_cases hres : res.type = PARSER_OK
      · rw [if_pos hres] at h
        cases h3 : expect p2 TS_CLOSING_SCOPE with
        | mk b3 p3 =>
        rw [h3] at h
        cases b3 with
        | true =>
          simp only [Option.some.injEq, Prod.mk.injEq] at h
          obtain ⟨rfl, rfl⟩ := h
          obtain ⟨w1, x1, hw1, hx1, hc1⟩ := expect_true h3
          rw [(lexer_eq_closing x1).mp hx1] at hc1
          exact Or.inr (Or.inl ⟨hres, rfl, w1, hw1,
            by simpa using hc1.trans (Consumes.push p3 _)⟩)
        | false =>
          simp only [Option.some.injEq, Prod.mk.injEq] at h
          obtain ⟨rfl, rfl⟩ := h
          obtain ⟨rfl, hn⟩ := expect_false h3
          exact Or.inr (Or.inr ⟨hres, rfl, rfl,
            fun x hx hxe => hn x hx ((lexer_eq_closing x).mpr hxe)⟩)
      · rw [if_neg hres] at h
        simp only [Option.some.injEq, Prod.mk.injEq] at h
        exact Or.inl ⟨hres, h.1.symm, h.2.symm⟩
  | false =>
    right
    obtain ⟨rfl, hn⟩ := expect_false h1
    rw [skip_ws_idem] at hn h
    exact ⟨fun x hx hxe => hn x hx ((lexer_eq_opening x).mpr hxe), h⟩

/-- One step of the loop of `expression`. -/
theorem expression_loop_inv {fuel : Nat} {res r : ParserResult} {p q : Parser}
    (h : expression_loop (fuel + 1) res p = some (r, q)) :
    (res.type ≠ PARSER_OK ∧ r = res ∧ q = p)
    ∨ (res.type = PARSER_OK ∧ r = res ∧ q = skip_ws p
        ∧ ∀ x ∈ (skip_ws p).it_rest.head?, ¬ OperatorSymbol x)
    ∨ (res.type = PARSER_OK ∧ ∃ w c p1 res1 p2, Blank w ∧ OperatorSymbol c
        ∧ Consumes p p1 (w ++ [c]) [⟨[c], OPERATOR⟩] ∧ term fuel p1 = some (res1, p2)
        ∧ ((res1.type ≠ PARSER_OK ∧ res1.type ≠ INTEGER_OUT_OF_RANGE ∧ p2.it_rest = []
              ∧ r = ⟨MISSING_TERM, res1.at_col⟩ ∧ q = p2)
          ∨ (¬ (res1.type ≠ PARSER_OK ∧ res1.type ≠ INTEGER_OUT_OF_RANGE ∧ p2.it_rest = [])
              ∧ expression_loop fuel res1 p2 = some (r, q)))) := by
  rw [expression_loop_unfold] at h
  by_cases hres : res.type = PARSER_OK
  · rw [if_pos hres] at h
    right
    rcases expect_operator_cases p with ⟨w, c, p1, hw, hc, hcons, he⟩ | ⟨hn, he⟩
    · right
      rw [he] at h
      dsimp only at h
      cases h2 : term fuel { p1 with token_list := p1.token_list ++ [⟨[c], OPERATOR⟩] } with
      | none => simp [h2] at h
      | some rp =>
        obtain ⟨res1, p2⟩ := rp
        simp only [h2] at h
        refine ⟨hres, w, c, _, res1, p2, hw, hc,
          by simpa using hcons.trans (Consumes.push p1 _), h2, ?_⟩
        have hend : (end_input p2 = true) ↔ p2.it_rest = [] := by
          simp [end_input]
        by_cases hcond : res1.type ≠ PARSER_OK ∧ res1.type ≠ INTEGER_OUT_OF_RANGE
            ∧ end_input p2 = true
        · rw [if_pos hcond] at h
          simp only [Option.some.injEq, Prod.mk.injEq] at h
          exact Or.inl ⟨hcond.1, hcond.2.1, hend.mp hcond.2.2, h.1.symm, h.2.symm⟩
        · rw [if_neg hcond] at h
          rw [hend] at hcond
          exact Or.inr ⟨hcond, h⟩
    · left
      rw [he] at h
      simp only [Option.some.injEq, Prod.mk.injEq] at h
      exact ⟨hres, h.1.symm, h.2.symm, hn⟩
  · rw [if_neg hres] at h
    simp only [Option.some.injEq, Prod.mk.injEq] at h
    exact Or.inl ⟨hres, h.1.symm, h.2.symm⟩

/-- One step of `expression`. -/
theorem expression_inv {fuel : Nat} {p q : Parser} {r : ParserResult}
    (h : expression (fuel + 1) p = some (r, q)) :
    ∃ res p1, term fuel (skip_ws p) = some (res, p1)
      ∧ expression_loop fuel res p1 = some (r, q) := by
  rw [expression_unfold] at h
  cases h1 : term fuel (skip_ws p) with
  | none => simp [h1] at h
  | some rp =>
    obtain ⟨res, p1⟩ := rp
    simp only [h1] at h
    exact ⟨res, p1, rfl, h⟩

theorem integer_sound {fuel : Nat} {p q : Parser} {r : ParserResult}
    (h : integer fuel p = some (r, q)) (hr : r.type = PARSER_OK) :
    ∃ cs ts, Derives Level.term cs ts ∧ Consumes p q cs ts := by
  rcases integer_cases h with ⟨_, hc⟩ | ⟨k, ms, w, hms, hw, b, hcb, _, _, _, hrest⟩
  · exact ⟨['0'], _, by simpa using Derives.zero [] blank_nil, hc⟩
  · rcases hrest with ⟨_, rfl, _⟩ | ⟨ds, hds, _, ⟨_, rfl, _⟩ | ⟨hc, _, h1, h2⟩⟩
    · cases hr
    · cases hr
    · refine ⟨ms ++ (w ++ ds), _, Derives.literal k ms w ds hms hw hds h1 h2, ?_⟩
      simpa using hcb.trans hc

/-- Soundness of the parser: what `term`, the loop of `expression` and `expression`
accept is derived by the grammar. -/
theorem parser_sound (fuel : Nat) :
    (∀ p r q, term fuel p = some (r, q) → r.type = PARSER_OK →
      ∃ cs ts, Derives Level.term cs ts ∧ Consumes p q cs ts)
    ∧ (∀ res p r q, expression_loop fuel res p = some (r, q) → r.type = PARSER_OK →
      res.type = PARSER_OK ∧ ∀ cs0 ts0, Derives Level.expr cs0 ts0 →
        ∃ cs1 ts1 w, Derives Level.expr (cs0 ++ cs1) (ts0 ++ ts1) ∧ Blank w
          ∧ Consumes p q (cs1 ++ w) ts1 ∧ NoBlankHead q.it_rest
          ∧ ∀ x ∈ q.it_rest.head?, ¬ OperatorSymbol x)
    ∧ (∀ p r q, expression fuel p = some (r, q) → r.type = PARSER_OK →
      ∃ cs ts w, Derives Level.expr cs ts ∧ Blank w ∧ Consumes p q (cs ++ w) ts
        ∧ NoBlankHead q.it_rest ∧ ∀ x ∈ q.it_rest.head?, ¬ OperatorSymbol x) := by
  induction fuel with
  | zero =>
    refine ⟨?_, ?_, ?_⟩
    · intro p r q h; rw [term_zero] at h; cases h
    · intro res p r q h; rw [expression_loop_zero] at h; cases h
    · intro p r q h; rw [expression_zero] at h; cases h
  | succ n ih =>
    obtain ⟨ihT, ihL, ihE⟩ := ih
    refine ⟨?_, ?_, ?_⟩
    · intro p r q h hr
      rcases term_inv h with ⟨w, p1, res, p2, hw, hc, he, hcase⟩ | ⟨_, hi⟩
      · rcases hcase with ⟨hne, rfl, _⟩ | ⟨hres, rfl, w1, hw1, hc1⟩ | ⟨_, rfl, _⟩
        · exact absurd hr hne
        · obtain ⟨cs, ts, w2, hd, hw2, hc2, _, _⟩ := ihE p1 _ p2 he hres
          refine ⟨w ++ '(' :: (cs ++ ((w2 ++ w1) ++ [')'])), _,
            Derives.scope w cs (w2 ++ w1) ts hw hd (blank_append hw2 hw1), ?_⟩
          have := (hc.trans hc2).trans hc1
          simpa using this
        · cases hr
      · obtain ⟨w, hw, hc, _⟩ := skip_ws_consumes p
        obtain ⟨cs, ts, hd, hc1⟩ := integer_sound hi hr
        exact ⟨w ++ cs, ts, derives_term_blank hw hd, by simpa using hc.trans hc1⟩
    · intro res p r q h hr
      rcases expression_loop_inv h with ⟨hne, rfl, _⟩ | ⟨hres, rfl, rfl, hn⟩
        | ⟨hres, w, c, p1, res1, p2, hw, hc, hcons, ht, hcase⟩
      · exact absurd hr hne
      · refine ⟨hres, fun cs0 ts0 hd => ?_⟩
        obtain ⟨w, hw, hc, hnb⟩ := skip_ws_consumes p
        exact ⟨[], [], w, by simpa using hd, hw, by simpa using hc, hnb, hn⟩
      · refine ⟨hres, fun cs0 ts0 hd => ?_⟩
        rcases hcase with ⟨_, _, _, rfl, _⟩ | ⟨_, hl⟩
        · cases hr
        · obtain ⟨hres1, hrec⟩ := ihL res1 p2 r q hl hr
          obtain ⟨ct, tt, hdt, hct⟩ := ihT p1 res1 p2 ht hres1
          obtain ⟨cs1, ts1, w1, hd1, hw1, hc1, hnb, hn⟩ :=
            hrec _ _ (Derives.binary cs0 w ct c ts0 tt hd hw hc hdt)
          refine ⟨(w ++ c :: ct) ++ cs1, (⟨[c], OPERATOR⟩ :: tt) ++ ts1, w1, ?_, hw1, ?_,
            hnb, hn⟩
          · simpa using hd1
          · have := (hcons.trans hct).trans hc1
            simpa using this
    · intro p r q h hr
      obtain ⟨res, p1, ht, hl⟩ := expression_inv h
      obtain ⟨hres, hrec⟩ := ihL res p1 r q hl hr
      obtain ⟨ct, tt, hdt, hct⟩ := ihT _ res p1 ht hres
      obtain ⟨w, hw, hc, _⟩ := skip_ws_consumes p
      obtain ⟨cs1, ts1, w1, hd1, hw1, hc1, hnb, hn⟩ :=
        hrec _ _ (Derives.single _ _ (derives_term_blank hw hdt))
      refine ⟨(w ++ ct) ++ cs1, tt ++ ts1, w1, hd1, hw1, ?_, hnb, hn⟩
      have := (hc.trans hct).trans hc1
      simpa using this

theorem derives_blank {w : List Char} (hw : Blank w) {lvl : Level} {cs : List Char}
    {ts : List Token} (h : Derives lvl cs ts) : Derives lvl (w ++ cs) ts := by
  induction h with
  | zero w1 hw1 => exact derives_term_blank hw (Derives.zero w1 hw1)
  | literal k ms w1 ds hms hw1 hds h1 h2 =>
    exact derives_term_blank hw (Derives.literal k ms w1 ds hms hw1 hds h1 h2)
  | scope w1 e w2 ts hw1 he hw2 _ =>
    exact derives_term_blank hw (Derives.scope w1 e w2 ts hw1 he hw2)
  | single t ts _ ih => exact Derives.single _ _ ih
  | binary e w1 t c ts us _ hw1 hc ht ihe _ =>
    have := Derives.binary (w ++ e) w1 t c ts us ihe hw1 hc ht
    simpa using this

theorem end_input_iff (p : Parser) : end_input p = true ↔ p.it_rest = [] := by
  simp [end_input]

/-- The cases of `parse`. -/
theorem parse_from_inv {p0 q : Parser} {e : List Char} {r : ParserResult}
    (h : parse_from p0 e = some (r, q)) :
    ((skip_ws ⟨0, e, []⟩).it_rest = [] ∧ q = skip_ws ⟨0, e, []⟩
        ∧ r = ⟨UNEXPECTED_END_OF_EXPRESSION, q.it_offset⟩)
    ∨ ((skip_ws ⟨0, e, []⟩).it_rest ≠ [] ∧
        ∃ res p1, expression (2 * e.length + 4) (skip_ws ⟨0, e, []⟩) = some (res, p1)
          ∧ ((res.type ≠ PARSER_OK ∧ r = res ∧ q = p1)
            ∨ (res.type = PARSER_OK ∧ q = skip_ws p1 ∧ q.it_rest ≠ []
                ∧ r = ⟨EXTRANEOUS_SYMBOL, q.it_offset⟩)
            ∨ (res.type = PARSER_OK ∧ q = skip_ws p1 ∧ q.it_rest = [] ∧ r = res))) := by
  unfold parse_from at h
  dsimp only at h
  by_cases hend : end_input (skip_ws ⟨0, e, []⟩) = true
  · rw [if_pos hend] at h
    simp only [Option.some.injEq, Prod.mk.injEq] at h
    exact Or.inl ⟨(end_input_iff _).mp hend, h.2.symm, by rw [← h.1, ← h.2]⟩
  · rw [if_neg hend] at h
    right
    refine ⟨fun hc => hend ((end_input_iff _).mpr hc), ?_⟩
    cases he : expression (2 * e.length + 4) (skip_ws ⟨0, e, []⟩) with
    | none => simp [he] at h
    | some rp =>
      obtain ⟨res, p1⟩ := rp
      simp only [he] at h
      refine ⟨res, p1, rfl, ?_⟩
      by_cases hres : res.type = PARSER_OK
      · rw [if_pos hres] at h
        by_cases hend1 : end_input (skip_ws p1) = true
        · rw [if_neg (not_not.mpr hend1)] at h
          simp only [Option.some.injEq, Prod.mk.injEq] at h
          obtain ⟨rfl, rfl⟩ := h
          exact Or.inr (Or.inr ⟨hres, rfl, (end_input_iff _).mp hend1, rfl⟩)
        · rw [if_pos hend1] at h
          simp only [Option.some.injEq, Prod.mk.injEq] at h
          obtain ⟨rfl, rfl⟩ := h
          exact Or.inr (Or.inl ⟨hres, rfl, fun hc => hend1 ((end_input_iff _).mpr hc), rfl⟩)
      · rw [if_neg hres] at h
        simp only [Option.some.injEq, Prod.mk.injEq] at h
        exact Or.inl ⟨hres, h.1.symm, h.2.symm⟩

/-- Soundness of `parse`: an accepted input is an expression of the grammar followed by
blanks, and the token list holds the tokens of that expression. -/
theorem parse_sound {e : List Char} {r : ParserResult} {q : Parser}
    (h : parse e = some (r, q)) (hr : r.type = PARSER_OK) :
    ∃ cs ts w, Derives Level.expr cs ts ∧ Blank w ∧ e = cs ++ w ∧ q.token_list = ts
      ∧ q.it_rest = [] ∧ q.it_offset = e.length := by
  rcases parse_from_inv h with ⟨_, _, rfl⟩ | ⟨_, res, p1, he, hcase⟩
  · cases hr
  · rcases hcase with ⟨hne, rfl, _⟩ | ⟨_, _, _, rfl⟩ | ⟨hres, rfl, hend, rfl⟩
    · exact absurd hr hne
    · cases hr
    · obtain ⟨cs, ts, w, hd, hw, hc, hnb, _⟩ := (parser_sound _).2.2 _ _ _ he hres
      obtain ⟨w0, hw0, hc0, _⟩ := skip_ws_consumes ⟨0, e, []⟩
      have hsk : skip_ws p1 = p1 := skip_ws_of_noBlankHead p1 hnb
      rw [hsk] at hend ⊢
      obtain ⟨a1, a2, a3⟩ := hc0.trans hc
      simp only [hend, List.append_nil, List.nil_append, zero_add] at a1 a2 a3
      refine ⟨w0 ++ cs, ts, w, ?_, hw, by simpa using a1, a3, hend, by rw [a2, a1]⟩
      exact derives_blank hw0 hd

theorem digit_loop_mono (fuel : Nat) : ∀ (p q : Parser),
    digit_loop fuel p = some q → digit_loop (fuel + 1) p = some q := by
  induction fuel with
  | zero => intro p q h; simp [digit_loop] at h
  | succ n ih =>
    intro p q h
    rw [digit_loop] at h ⊢
    cases hd : digit p with
    | mk b p1 =>
      try rw [hd] at h
      try rw [hd]
      cases b with
      | true => exact ih p1 q h
      | false => exact h

theorem natural_number_mono {fuel : Nat} {p : Parser} {x : ParserResult × Parser}
    (h : natural_number fuel p = some x) : natural_number (fuel + 1) p = some x := by
  unfold natural_number at h ⊢
  cases h0 : digit_excl_zero p with
  | mk b p1 =>
    try rw [h0] at h
    try rw [h0]
    cases b with
    | false => exact h
    | true =>
      dsimp only at h ⊢
      cases hl : digit_loop fuel p1 with
      | none => simp [hl] at h
      | some p2 =>
        rw [digit_loop_mono fuel p1 p2 hl]
        simpa [hl] using h

theorem minus_loop_mono (fuel : Nat) : ∀ (p : Parser) (n : Nat) (x : Nat × Parser),
    minus_loop fuel p n = some x → minus_loop (fuel + 1) p n = some x := by
  induction fuel with
  | zero => intro p n x h; simp [minus_loop] at h
  | succ f ih =>
    intro p n x h
    rw [minus_loop] at h ⊢
    cases he : expect p TS_MINUS with
    | mk b p1 =>
      try rw [he] at h
      try rw [he]
      cases b with
      | true => exact ih p1 (n + 1) x h
      | false => exact h

theorem integer_mono {fuel : Nat} {p : Parser} {x : ParserResult × Parser}
    (h : integer fuel p = some x) : integer (fuel + 1) p = some x := by
  unfold integer at h ⊢
  cases h0 : accept p TS_ZERO with
  | mk b p1 =>
    try rw [h0] at h
    try rw [h0]
    cases b with
    | true => exact h
    | false =>
      dsimp only at h ⊢
      cases hm : minus_loop fuel p1 0 with
      | none => simp [hm] at h
      | some kb =>
        rw [minus_loop_mono fuel p1 0 kb hm]
        obtain ⟨k, b⟩ := kb
        simp only [hm] at h ⊢
        cases hn : natural_number fuel b with
        | none => simp [hn] at h
        | some rq =>
          rw [natural_number_mono hn]
          simpa [hn] using h

/-- More fuel does not change what the parser returns. -/
theorem parser_mono (fuel : Nat) :
    (∀ p x, term fuel p = some x → term (fuel + 1) p = some x)
    ∧ (∀ res p x, expression_loop fuel res p = some x →
        expression_loop (fuel + 1) res p = some x)
    ∧ (∀ p x, expression fuel p = some x → expression (fuel + 1) p = some x) := by
  induction fuel with
  | zero =>
    refine ⟨?_, ?_, ?_⟩
    · intro p x h; rw [term_zero] at h; cases h
    · intro res p x h; rw [expression_loop_zero] at h; cases h
    · intro p x h; rw [expression_zero] at h; cases h
  | succ n ih =>
    obtain ⟨ihT, ihL, ihE⟩ := ih
    refine ⟨?_, ?_, ?_⟩
    · intro p x h
      rw [term_unfold] at h ⊢
      cases h1 : expect (skip_ws p) TS_OPENING_SCOPE with
      | mk b p1 =>
        try rw [h1] at h
        try rw [h1]
        cases b with
        | true =>
          dsimp only at h ⊢
          cases h2 : expression n
              { p1 with token_list := p1.token_list ++ [⟨['('], OPENING_SCOPE⟩] } with
          | none => simp [h2] at h
          | some rp =>
            rw [ihE _ _ h2]
            simpa [h2] using h
        | false => exact integer_mono h
    · intro res p x h
      rw [expression_loop_unfold] at h ⊢
      by_cases hres : res.type = PARSER_OK
      · rw [if_pos hres] at h ⊢
        cases he : expect_operator p with
        | mk o p1 =>
          try rw [he] at h
          try rw [he]
          cases o with
          | none => exact h
          | some op =>
            dsimp only at h ⊢
            cases h2 : term n { p1 with token_list := p1.token_list ++ [⟨op, OPERATOR⟩] } with
            | none => simp [h2] at h
            | some rp =>
              rw [ihT _ _ h2]
              obtain ⟨res1, p2⟩ := rp
              simp only [h2] at h ⊢
              split_ifs at h ⊢ with hc
              · exact h
              · exact ihL _ _ _ h
      · rw [if_neg hres] at h ⊢
        exact h
    · intro p x h
      rw [expression_unfold] at h ⊢
      cases h1 : term n (skip_ws p) with
      | none => simp [h1] at h
      | some rp =>
        rw [ihT _ _ h1]
        obtain ⟨res, p1⟩ := rp
        simp only [h1] at h ⊢
        exact ihL _ _ _ h

theorem expression_mono_le {n m : Nat} (hnm : n ≤ m) {p : Parser}
    {x : ParserResult × Parser} (h : expression n p = some x) : expression m p = some x := by
  induction hnm with
  | refl => exact h
  | step _ ih => exact (parser_mono _).2.2 _ _ ih

theorem term_mono_le {n m : Nat} (hnm : n ≤ m) {p : Parser}
    {x : ParserResult × Parser} (h : term n p = some x) : term m p = some x := by
  induction hnm with
  | refl => exact h
  | step _ ih => exact (parser_mono _).1 _ _ ih

theorem expression_loop_mono_le {n m : Nat} (hnm : n ≤ m) {res : ParserResult} {p : Parser}
    {x : ParserResult × Parser} (h : expression_loop n res p = some x) :
    expression_loop m res p = some x := by
  induction hnm with
  | refl => exact h
  | step _ ih => exact (parser_mono _).2.1 _ _ _ ih

theorem integer_mono_le {n m : Nat} (hnm : n ≤ m) {p : Parser}
    {x : ParserResult × Parser} (h : integer n p = some x) : integer m p = some x := by
  induction hnm with
  | refl => exact h
  | step _ ih => exact integer_mono ih

theorem Consumes.length {p q : Parser} {cs : List Char} {ts : List Token}
    (h : Consumes p q cs ts) : p.it_rest.length = cs.length + q.it_rest.length := by
  rw [h.1, List.length_append]

theorem skip_ws_length (p : Parser) : (skip_ws p).it_rest.length ≤ p.it_rest.length := by
  obtain ⟨w, _, hc, _⟩ := skip_ws_consumes p
  have := hc.length
  omega

theorem digit_loop_total (fuel : Nat) : ∀ (p : Parser), p.it_rest.length < fuel →
    ∃ q, digit_loop fuel p = some q := by
  induction fuel with
  | zero => intro p h; omega
  | succ n ih =>
    intro p h
    rw [digit_loop]
    cases hd : digit p with
    | mk b p1 =>
      cases b with
      | true =>
        obtain ⟨x, _, hc⟩ := digit_true hd
        have := hc.length
        simp only [List.length_singleton] at this
        exact ih p1 (by omega)
      | false => exact ⟨p1, rfl⟩

theorem minus_loop_total (fuel : Nat) : ∀ (p : Parser) (k : Nat), p.it_rest.length < fuel →
    ∃ x, minus_loop fuel p k = some x := by
  induction fuel with
  | zero => intro p k h; omega
  | succ n ih =>
    intro p k h
    rw [minus_loop]
    cases he : expect p TS_MINUS with
    | mk b p1 =>
      cases b with
      | true =>
        obtain ⟨w, x, _, _, hc⟩ := expect_true he
        have := hc.length
        simp only [List.length_append, List.length_singleton] at this
        exact ih p1 (k + 1) (by omega)
      | false => exact ⟨_, rfl⟩

theorem natural_number_total {fuel : Nat} {p : Parser} (h : p.it_rest.length < fuel) :
    ∃ x, natural_number fuel p = some x := by
  unfold natural_number digit_excl_zero
  cases h0 : accept p TS_NON_ZERO_DIGIT with
  | mk b p1 =>
    cases b with
    | false => exact ⟨_, rfl⟩
    | true =>
      obtain ⟨x, _, hc⟩ := accept_true h0
      have := hc.length
      simp only [List.length_singleton] at this
      obtain ⟨q, hq⟩ := digit_loop_total fuel p1 (by omega)
      exact ⟨(⟨PARSER_OK, 0⟩, q), by simp only [hq]⟩

theorem integer_total {fuel : Nat} {p : Parser} (h : p.it_rest.length < fuel) :
    ∃ x, integer fuel p = some x := by
  unfold integer
  cases h0 : accept p TS_ZERO with
  | mk b p1 =>
    cases b with
    | true => exact ⟨_, rfl⟩
    | false =>
      obtain ⟨rfl, _⟩ := accept_false h0
      obtain ⟨kb, hm⟩ := minus_loop_total fuel p1 0 h
      obtain ⟨k, b⟩ := kb
      obtain ⟨j, ms, w, _, _, _, hc, _⟩ := minus_loop_sound fuel p1 b 0 k hm
      have := hc.length
      obtain ⟨rq, hn⟩ := @natural_number_total fuel b (by omega)
      obtain ⟨result, p3⟩ := rq
      simp only [hm, hn]
      split_ifs <;> exact ⟨_, rfl⟩

theorem integer_length {fuel : Nat} {p q : Parser} {r : ParserResult}
    (h : integer fuel p = some (r, q)) : q.it_rest.length ≤ p.it_rest.length := by
  rcases integer_cases h with ⟨_, hc⟩ | ⟨k, ms, w, _, _, b, hcb, _, _, _, hrest⟩
  · have := hc.length; omega
  · have h1 := hcb.length
    rcases hrest with ⟨rfl, _, _⟩ | ⟨ds, _, _, ⟨hc, _, _⟩ | ⟨hc, _, _, _⟩⟩
    · omega
    · have := hc.length; omega
    · have := hc.length; omega

/-- The parser never moves the cursor backwards. -/
theorem parser_length (fuel : Nat) :
    (∀ p r q, term fuel p = some (r, q) → q.it_rest.length ≤ p.it_rest.length)
    ∧ (∀ res p r q, expression_loop fuel res p = some (r, q) →
        q.it_rest.length ≤ p.it_rest.length)
    ∧ (∀ p r q, expression fuel p = some (r, q) → q.it_rest.length ≤ p.it_rest.length) := by
  induction fuel with
  | zero =>
    refine ⟨?_, ?_, ?_⟩
    · intro p r q h; rw [term_zero] at h; cases h
    · intro res p r q h; rw [expression_loop_zero] at h; cases h
    · intro p r q h; rw [expression_zero] at h; cases h
  | succ n ih =>
    obtain ⟨ihT, ihL, ihE⟩ := ih
    refine ⟨?_, ?_, ?_⟩
    · intro p r q h
      rcases term_inv h with ⟨w, p1, res, p2, hw, hc, he, hcase⟩ | ⟨_, hi⟩
      · have h1 := hc.length
        have h2 := ihE _ _ _ he
        rcases hcase with ⟨_, _, rfl⟩ | ⟨_, _, w1, _, hc1⟩ | ⟨_, _, rfl, _⟩
        · omega
        · have := hc1.length; omega
        · have := skip_ws_length p2; omega
      · have := integer_length hi
        have := skip_ws_length p
        omega
    · intro res p r q h
      rcases expression_loop_inv h with ⟨_, _, rfl⟩ | ⟨_, _, rfl, _⟩
        | ⟨_, w, c, p1, res1, p2, _, _, hcons, ht, hcase⟩
      · exact le_refl _
      · exact skip_ws_length p
      · have h1 := hcons.length
        have h2 := ihT _ _ _ ht
        rcases hcase with ⟨_, _, _, _, rfl⟩ | ⟨_, hl⟩
        · omega
        · have := ihL _ _ _ _ hl; omega
    · intro p r q h
      obtain ⟨res, p1, ht, hl⟩ := expression_inv h
      have := ihT _ _ _ ht
      have := ihL _ _ _ _ hl
      have := skip_ws_length p
      omega

/-- With fuel above twice the number of characters still to read, the parser returns. -/
theorem parser_total (fuel : Nat) :
    (∀ p, 2 * p.it_rest.length + 3 ≤ fuel → ∃ x, term fuel p = some x)
    ∧ (∀ res p, 2 * p.it_rest.length + 3 ≤ fuel → ∃ x, expression_loop fuel res p = some x)
    ∧ (∀ p, 2 * p.it_rest.length + 4 ≤ fuel → ∃ x, expression fuel p = some x) := by
  induction fuel with
  | zero =>
    refine ⟨?_, ?_, ?_⟩
    · intro p h; omega
    · intro res p h; omega
    · intro p h; omega
  | succ n ih =>
    obtain ⟨ihT, ihL, ihE⟩ := ih
    refine ⟨?_, ?_, ?_⟩
    · intro p h
      rw [term_unfold]
      have hs := skip_ws_length p
      cases h1 : expect (skip_ws p) TS_OPENING_SCOPE with
      | mk b p1 =>
        cases b with
        | true =>
          obtain ⟨w, x, _, _, hc⟩ := expect_eq_of_true h1
          have hl := hc.length
          simp only [List.length_append, List.length_singleton] at hl
          obtain ⟨rp, he⟩ := ihE
            { p1 with token_list := p1.token_list ++ [⟨['('], OPENING_SCOPE⟩] }
            (by simp only; omega)
          obtain ⟨res, p2⟩ := rp
          simp only [he]
          by_cases hres : res.type = PARSER_OK
          · rw [if_pos hres]
            cases h3 : expect p2 TS_CLOSING_SCOPE with
            | mk b3 p3 =>
              cases b3 with
              | true => exact ⟨_, rfl⟩
              | false => exact ⟨_, rfl⟩
          · rw [if_neg hres]
            exact ⟨_, rfl⟩
        | false =>
          obtain ⟨rfl, _⟩ := expect_false h1
          rw [skip_ws_idem]
          exact integer_total (by omega)
    · intro res p h
      rw [expression_loop_unfold]
      by_cases hres : res.type = PARSER_OK
      · rw [if_pos hres]
        rcases expect_operator_cases p with ⟨w, c, p1, _, _, hcons, he⟩ | ⟨_, he⟩
        · rw [he]
          have hl := hcons.length
          simp only [List.length_append, List.length_singleton] at hl
          obtain ⟨rp, ht⟩ := ihT
            { p1 with token_list := p1.token_list ++ [⟨[c], OPERATOR⟩] }
            (by simp only; omega)
          obtain ⟨res1, p2⟩ := rp
          simp only [ht]
          have hl2 := (parser_length n).1 _ _ _ ht
          simp only at hl2
          split_ifs
          · exact ⟨_, rfl⟩
          · exact ihL res1 p2 (by omega)
        · rw [he]
          exact ⟨_, rfl⟩
      · rw [if_neg hres]
        exact ⟨_, rfl⟩
    · intro p h
      rw [expression_unfold]
      have hs := skip_ws_length p
      obtain ⟨rp, ht⟩ := ihT (skip_ws p) (by omega)
      obtain ⟨res, p1⟩ := rp
      simp only [ht]
      have hl := (parser_length n).1 _ _ _ ht
      exact ihL res p1 (by omega)

/-- The results of `expression` with two amounts of fuel agree. -/
theorem expression_fuel_agree {n m : Nat} {p : Parser} {x y : ParserResult × Parser}
    (hx : expression n p = some x) (hy : expression m p = some y) : x = y := by
  have h1 := expression_mono_le (Nat.le_max_left n m) hx
  have h2 := expression_mono_le (Nat.le_max_right n m) hy
  rw [h1] at h2
  exact Option.some.inj h2

/-- `parse` always returns: the fuel it gives to `expression` is never used up. -/
theorem parse_from_total (p0 : Parser) (e : List Char) : ∃ x, parse_from p0 e = some x := by
  unfold parse_from
  dsimp only
  split_ifs with hend
  · exact ⟨_, rfl⟩
  · have hs := skip_ws_length ⟨0, e, []⟩
    simp only at hs
    obtain ⟨rp, he⟩ := (parser_total (2 * e.length + 4)).2.2 (skip_ws ⟨0, e, []⟩) (by omega)
    obtain ⟨res, p1⟩ := rp
    simp only [he]
    split_ifs <;> exact ⟨_, rfl⟩

theorem parse_total (e : List Char) : ∃ r q, parse e = some (r, q) := by
  obtain ⟨⟨r, q⟩, h⟩ := parse_from_total ⟨0, [], []⟩ e
  exact ⟨r, q, h⟩

theorem noBlankHead_cons {c : Char} (r : List Char) (hc : ¬ (c = ' ' ∨ c = '\t')) :
    NoBlankHead (c :: r) := by
  intro x hx
  simp only [List.head?_cons, Option.mem_def, Option.some.injEq] at hx
  subst hx
  exact hc

theorem noBlankHead_nil : NoBlankHead [] := by
  intro x hx; cases hx

theorem operatorSymbol_not_blank {c : Char} (h : OperatorSymbol c) : ¬ (c = ' ' ∨ c = '\t') := by
  rcases h with rfl | rfl | rfl | rfl | rfl | rfl <;> decide

theorem nonZeroDigit_not_blank {c : Char} (h : NonZeroDigit c) : ¬ (c = ' ' ∨ c = '\t') := by
  rcases h with rfl | rfl | rfl | rfl | rfl | rfl | rfl | rfl | rfl <;> decide

theorem digit_not_blank {c : Char} (h : Digit c) : ¬ (c = ' ' ∨ c = '\t') := by
  rcases h with rfl | h
  · decide
  · exact nonZeroDigit_not_blank h

theorem digit_not_operator {c : Char} (h : Digit c) : ¬ OperatorSymbol c := by
  rcases h with rfl | h
  · decide
  · rcases h with rfl | rfl | rfl | rfl | rfl | rfl | rfl | rfl | rfl <;> decide

/-- `expect` on a text that begins with blanks and then a character of the category. -/
theorem expect_of_blank (o : Nat) (w : List Char) (c : Char) (r : List Char)
    (t : List Token) (x : terminal_symbol_t) (hw : Blank w) (hc : ¬ (c = ' ' ∨ c = '\t'))
    (hx : lexer c = x) :
    expect ⟨o, w ++ c :: r, t⟩ x = (true, ⟨o + w.length + 1, r, t⟩) := by
  unfold expect
  rw [skip_ws_of_blank o w (c :: r) t hw (noBlankHead_cons r hc), accept_cons, if_pos hx]

/-- `expect` on a text that begins with blanks and then a character of another category. -/
theorem expect_of_blank_ne (o : Nat) (w : List Char) (c : Char) (r : List Char)
    (t : List Token) (x : terminal_symbol_t) (hw : Blank w) (hc : ¬ (c = ' ' ∨ c = '\t'))
    (hx : lexer c ≠ x) :
    expect ⟨o, w ++ c :: r, t⟩ x = (false, ⟨o + w.length, c :: r, t⟩) := by
  unfold expect
  rw [skip_ws_of_blank o w (c :: r) t hw (noBlankHead_cons r hc), accept_cons, if_neg hx]

theorem expect_operator_none (p : Parser)
    (h : ∀ x ∈ (skip_ws p).it_rest.head?, ¬ OperatorSymbol x) :
    expect_operator p = (none, skip_ws p) := by
  rcases expect_operator_cases p with ⟨w, c, q, hw, hc, hcons, _⟩ | ⟨_, he⟩
  · exfalso
    obtain ⟨o, rest, t⟩ := p
    have h1 := hcons.1
    simp only [List.append_assoc, List.singleton_append] at h1
    subst h1
    rw [skip_ws_of_blank o w (c :: q.it_rest) t hw
      (noBlankHead_cons _ (operatorSymbol_not_blank hc))] at h
    exact h c (by simp) hc
  · exact he

theorem expect_operator_some (o : Nat) (w : List Char) (c : Char) (r : List Char)
    (t : List Token) (hw : Blank w) (hc : OperatorSymbol c) :
    expect_operator ⟨o, w ++ c :: r, t⟩ = (some [c], ⟨o + w.length + 1, r, t⟩) := by
  rcases expect_operator_cases ⟨o, w ++ c :: r, t⟩ with ⟨w1, c1, q, hw1, hc1, hcons, he⟩ | ⟨hn, _⟩
  · have hsk := skip_ws_of_blank o w (c :: r) t hw
      (noBlankHead_cons r (operatorSymbol_not_blank hc))
    have h1 := hcons.1
    simp only [List.append_assoc, List.singleton_append] at h1
    have hsk1 : skip_ws ⟨o, w ++ c :: r, t⟩ = ⟨o + w1.length, c1 :: q.it_rest, t⟩ := by
      rw [h1]
      exact skip_ws_of_blank o w1 (c1 :: q.it_rest) t hw1
        (noBlankHead_cons _ (operatorSymbol_not_blank hc1))
    rw [hsk] at hsk1
    simp only [Parser.mk.injEq, List.cons.injEq, Nat.add_left_cancel_iff, and_true] at hsk1
    obtain ⟨hlen, rfl, hr⟩ := hsk1
    rw [he]
    obtain ⟨qo, qr, qt⟩ := q
    have h2 := hcons.2.1
    have h3 := hcons.2.2
    simp only [List.length_append, List.length_singleton, List.append_nil] at h2 h3 hr
    simp only [Prod.mk.injEq, Parser.mk.injEq, true_and]
    exact ⟨by omega, hr.symm, h3⟩
  · exfalso
    rw [skip_ws_of_blank o w (c :: r) t hw
      (noBlankHead_cons r (operatorSymbol_not_blank hc))] at hn
    exact hn c (by simp) hc

theorem accept_of_head_ne (p : Parser) (x : terminal_symbol_t)
    (h : ∀ c ∈ p.it_rest.head?, lexer c ≠ x) : accept p x = (false, p) := by
  obtain ⟨o, rest, t⟩ := p
  cases rest with
  | nil => exact accept_nil o t x
  | cons c r =>
    rw [accept_cons, if_neg (h c (by simp))]

theorem digit_of_digit (o : Nat) (c : Char) (r : List Char) (t : List Token) (hc : Digit c) :
    digit ⟨o, c :: r, t⟩ = (true, ⟨o + 1, r, t⟩) := by
  unfold digit digit_excl_zero
  rw [accept_cons]
  rcases hc with rfl | hc
  · rw [if_pos (by decide)]
  · have h0 : lexer c ≠ TS_ZERO := by
      rw [(lexer_eq_non_zero_digit c).mpr hc]; decide
    rw [if_neg h0]
    dsimp only
    rw [accept_cons, if_pos ((lexer_eq_non_zero_digit c).mpr hc)]

theorem digit_of_noDigitHead (p : Parser) (h : NoDigitHead p.it_rest) :
    digit p = (false, p) := by
  unfold digit digit_excl_zero
  rw [accept_of_head_ne p TS_ZERO
    (fun c hc hl => h c hc (Or.inl ((lexer_eq_zero c).mp hl)))]
  dsimp only
  rw [accept_of_head_ne p TS_NON_ZERO_DIGIT
    (fun c hc hl => h c hc (Or.inr ((lexer_eq_non_zero_digit c).mp hl)))]

theorem digit_loop_complete (ds : List Char) : ∀ (o : Nat) (s : List Char) (t : List Token),
    (∀ c ∈ ds, Digit c) → NoDigitHead s →
    digit_loop (ds.length + 1) ⟨o, ds ++ s, t⟩ = some ⟨o + ds.length, s, t⟩ := by
  induction ds with
  | nil =>
    intro o s t _ hs
    rw [digit_loop, List.nil_append, digit_of_noDigitHead _ hs]
    rfl
  | cons c ds ih =>
    intro o s t hds hs
    rw [digit_loop, List.cons_append, digit_of_digit o c _ t (hds c (by simp))]
    dsimp only
    rw [List.length_cons, ih (o + 1) s t (fun x hx => hds x (List.mem_cons_of_mem _ hx)) hs]
    simp only [Option.some.injEq, Parser.mk.injEq, and_true]
    omega

theorem natural_number_complete {ds : List Char} (o : Nat) (s : List Char) (t : List Token)
    (hds : Natural ds) (hs : NoDigitHead s) :
    natural_number ds.length ⟨o, ds ++ s, t⟩ = some (⟨PARSER_OK, 0⟩, ⟨o + ds.length, s, t⟩) := by
  obtain ⟨d, r, rfl, hd, hr⟩ := hds
  unfold natural_number digit_excl_zero
  rw [List.cons_append, accept_cons, if_pos ((lexer_eq_non_zero_digit d).mpr hd)]
  dsimp only
  rw [List.length_cons, digit_loop_complete r (o + 1) s t hr hs]
  simp only [Option.some.injEq, Prod.mk.injEq, Parser.mk.injEq, and_true, true_and]
  omega

theorem minus_loop_skip_ws (fuel : Nat) (p : Parser) (j : Nat) :
    minus_loop fuel (skip_ws p) j = minus_loop fuel p j := by
  cases fuel with
  | zero => rw [minus_loop, minus_loop]
  | succ n => rw [minus_loop, minus_loop, expect_skip_ws]

theorem minuses_length {k : Nat} {ms : List Char} (h : Minuses k ms) : k ≤ ms.length := by
  induction h with
  | zero => simp
  | succ k w ms _ _ ih => simp only [List.length_append, List.length_cons]; omega

theorem minus_loop_complete {k : Nat} {ms : List Char} (hms : Minuses k ms) :
    ∀ (o : Nat) (w r : List Char) (t : List Token) (j : Nat), Blank w → NoBlankHead r →
    (∀ x ∈ r.head?, x ≠ '-') →
    minus_loop (k + 1) ⟨o, ms ++ (w ++ r), t⟩ j
      = some (j + k, ⟨o + ms.length + w.length, r, t⟩) := by
  induction hms with
  | zero =>
    intro o w r t j hw hr hm
    rw [minus_loop]
    have hne : ∀ c ∈ (skip_ws ⟨o, w ++ r, t⟩).it_rest.head?, lexer c ≠ TS_MINUS := by
      rw [skip_ws_of_blank o w r t hw hr]
      exact fun c hc hl => hm c hc ((lexer_eq_minus c).mp hl)
    have : expect ⟨o, w ++ r, t⟩ TS_MINUS = (false, skip_ws ⟨o, w ++ r, t⟩) := by
      unfold expect
      exact accept_of_head_ne _ _ hne
    rw [List.nil_append, this, skip_ws_of_blank o w r t hw hr]
    simp
  | succ k w1 ms hw1 _ ih =>
    intro o w r t j hw hr hm
    rw [minus_loop, List.append_assoc, List.cons_append,
      expect_of_blank o w1 '-' _ t TS_MINUS hw1 (by decide) (by decide)]
    dsimp only
    rw [ih (o + w1.length + 1) w r t (j + 1) hw hr hm]
    simp only [List.length_append, List.length_cons, Option.some.injEq, Prod.mk.injEq,
      Parser.mk.injEq, and_true]
    omega

theorem minus_loop_mono_le {n m : Nat} (hnm : n ≤ m) {p : Parser} {j : Nat}
    {x : Nat × Parser} (h : minus_loop n p j = some x) : minus_loop m p j = some x := by
  induction hnm with
  | refl => exact h
  | step _ ih => exact minus_loop_mono _ _ _ _ ih

theorem natural_number_mono_le {n m : Nat} (hnm : n ≤ m) {p : Parser}
    {x : ParserResult × Parser} (h : natural_number n p = some x) :
    natural_number m p = some x := by
  induction hnm with
  | refl => exact h
  | step _ ih => exact natural_number_mono ih

/-- The text of a literal begins, after blanks, with a minus sign or a non-zero digit. -/
theorem literal_head {k : Nat} {ms w ds : List Char} (s : List Char) (hms : Minuses k ms)
    (hw : Blank w) (hds : Natural ds) :
    ∃ w0 c r, Blank w0 ∧ ms ++ (w ++ (ds ++ s)) = w0 ++ c :: r ∧ (c = '-' ∨ NonZeroDigit c) := by
  cases hms with
  | zero =>
    obtain ⟨d, r, rfl, hd, _⟩ := hds
    exact ⟨w, d, r ++ s, hw, by simp, Or.inr hd⟩
  | succ k w1 ms1 hw1 _ =>
    exact ⟨w1, '-', ms1 ++ (w ++ (ds ++ s)), hw1, by simp, Or.inl rfl⟩

theorem integer_complete_zero (fuel o : Nat) (s : List Char) (t : List Token) :
    integer fuel ⟨o, '0' :: s, t⟩ = some (⟨PARSER_OK, 0⟩, ⟨o + 1, s, t ++ [⟨['0'], OPERAND⟩]⟩) := by
  unfold integer
  rw [accept_cons, if_pos (by decide)]

/-- `integer` on the text of a literal whose value is in range. -/
theorem integer_complete_literal {k : Nat} {ms w ds : List Char} (fuel o : Nat)
    (s : List Char) (t : List Token) (hms : Minuses k ms) (hw : Blank w) (hds : Natural ds)
    (hs : NoDigitHead s) (h1 : required_min < signed_value k ds)
    (h2 : signed_value k ds < required_max) (hk : k + 1 ≤ fuel) (hd : ds.length ≤ fuel) :
    integer fuel ⟨o, ms ++ (w ++ (ds ++ s)), t⟩
      = some (⟨PARSER_OK, k⟩,
          ⟨o + ms.length + w.length + ds.length, s, t ++ [⟨literal_text k ds, OPERAND⟩]⟩) := by
  obtain ⟨w0, c, r, hw0, heq, hc⟩ := literal_head s hms hw hds
  have hz : accept ⟨o, ms ++ (w ++ (ds ++ s)), t⟩ TS_ZERO
      = (false, ⟨o, ms ++ (w ++ (ds ++ s)), t⟩) := by
    apply accept_of_head_ne
    intro x hx hl
    rw [(lexer_eq_zero x).mp hl] at hx
    simp only [heq] at hx
    cases w0 with
    | nil =>
      simp only [List.nil_append, List.head?_cons, Option.mem_def, Option.some.injEq] at hx
      subst hx
      rcases hc with hc | hc
      · exact absurd hc (by decide)
      · exact absurd hc (by decide)
    | cons b w0 =>
      simp only [List.cons_append, List.head?_cons, Option.mem_def, Option.some.injEq] at hx
      subst hx
      exact absurd (hw0 _ (List.mem_cons_self _ _)) (by decide)
  have hnb : NoBlankHead (ds ++ s) := by
    obtain ⟨d, r1, rfl, hd1, _⟩ := hds
    exact noBlankHead_cons _ (nonZeroDigit_not_blank hd1)
  have hnm : ∀ x ∈ (ds ++ s).head?, x ≠ '-' := by
    obtain ⟨d, r1, rfl, hd1, _⟩ := hds
    intro x hx
    simp only [List.cons_append, List.head?_cons, Option.mem_def, Option.some.injEq] at hx
    subst hx
    rcases hd1 with rfl | rfl | rfl | rfl | rfl | rfl | rfl | rfl | rfl <;> decide
  have hm := minus_loop_mono_le hk (minus_loop_complete hms o w (ds ++ s) t 0 hw hnb hnm)
  have hn := natural_number_mono_le hd
    (natural_number_complete (o + ms.length + w.length) s t hds hs)
  unfold integer
  rw [hz]
  dsimp only
  rw [hm]
  dsimp only
  rw [hn]
  dsimp only
  rw [if_pos rfl]
  have htake : List.take (o + ms.length + w.length + ds.length - (o + ms.length + w.length))
      (ds ++ s) = ds := by
    rw [show o + ms.length + w.length + ds.length - (o + ms.length + w.length) = ds.length
      from by omega]
    simp
  rw [htake]
  have hrc := (range_check_literal (0 + k) hds).not.mpr (not_not.mpr ⟨by simpa using h1,
    by simpa using h2⟩)
  unfold literal_text at hrc
  rw [if_neg hrc]
  simp [literal_text]

theorem term_skip_ws (fuel : Nat) (p : Parser) : term fuel (skip_ws p) = term fuel p := by
  cases fuel with
  | zero => rw [term_zero, term_zero]
  | succ n => rw [term_unfold, term_unfold, skip_ws_idem]

theorem noDigitHead_blank_cons {w : List Char} {c : Char} (r : List Char) (hw : Blank w)
    (hc : ¬ Digit c) : NoDigitHead (w ++ c :: r) := by
  intro x hx hd
  cases w with
  | nil =>
    simp only [List.nil_append, List.head?_cons, Option.mem_def, Option.some.injEq] at hx
    subst hx
    exact hc hd
  | cons b w =>
    simp only [List.cons_append, List.head?_cons, Option.mem_def, Option.some.injEq] at hx
    subst hx
    exact digit_not_blank hd (hw _ (List.mem_cons_self _ _))

/-- The loop of `expression` stops where no operator follows. -/
theorem expression_loop_stop (fuel : Nat) (res : ParserResult) (p : Parser)
    (hres : res.type = PARSER_OK)
    (h : ∀ x ∈ (skip_ws p).it_rest.head?, ¬ OperatorSymbol x) :
    expression_loop (fuel + 1) res p = some (res, skip_ws p) := by
  rw [expression_loop_unfold, if_pos hres, expect_operator_none p h]

/-- One turn of the loop of `expression` over an operator and a term that is accepted. -/
theorem expression_loop_turn (fuel o : Nat) (res res1 : ParserResult) (w r : List Char)
    (c : Char) (t : List Token) (p2 : Parser) (hres : res.type = PARSER_OK) (hw : Blank w)
    (hc : OperatorSymbol c) (hres1 : res1.type = PARSER_OK)
    (ht : term fuel ⟨o + w.length + 1, r, t ++ [⟨[c], OPERATOR⟩]⟩ = some (res1, p2)) :
    expression_loop (fuel + 1) res ⟨o, w ++ c :: r, t⟩ = expression_loop fuel res1 p2 := by
  rw [expression_loop_unfold, if_pos hres, expect_operator_some o w c r t hw hc]
  dsimp only
  rw [ht]
  dsimp only
  rw [if_neg]
  rw [hres1]
  simp

/-- Completeness of `term` and of `expression` up to the loop that follows the text of an
expression: the parser reads a derived text and appends its tokens. -/
theorem parser_complete {lvl : Level} {cs : List Char} {ts : List Token}
    (h : Derives lvl cs ts) :
    (lvl = Level.term → ∀ (o : Nat) (s : List Char) (t : List Token), NoDigitHead s →
      ∃ n col, term n ⟨o, cs ++ s, t⟩ = some (⟨PARSER_OK, col⟩, ⟨o + cs.length, s, t ++ ts⟩))
    ∧ (lvl = Level.expr → ∀ (o : Nat) (s : List Char) (t : List Token), NoDigitHead s →
      ∃ col, ∀ X m,
        expression_loop m ⟨PARSER_OK, col⟩ ⟨o + cs.length, s, t ++ ts⟩ = some X →
        ∃ n, expression n ⟨o, cs ++ s, t⟩ = some X) := by
  induction h with
  | zero w hw =>
    refine ⟨fun _ o s t _ => ?_, fun hl => by cases hl⟩
    refine ⟨1, 0, ?_⟩
    rw [term_unfold, expect_skip_ws, List.append_assoc, List.singleton_append,
      expect_of_blank_ne o w '0' s t TS_OPENING_SCOPE hw (by decide) (by decide)]
    dsimp only
    rw [integer_complete_zero]
    simp only [List.length_append, List.length_singleton, Option.some.injEq, Prod.mk.injEq,
      Parser.mk.injEq, and_true, true_and]
    omega
  | literal k ms w ds hms hw hds h1 h2 =>
    refine ⟨fun _ o s t hs => ?_, fun hl => by cases hl⟩
    refine ⟨k + 1 + ds.length + 1, k, ?_⟩
    rw [term_unfold, expect_skip_ws]
    obtain ⟨d, r, hdr, hd, hr⟩ := id hds
    cases hms with
    | zero =>
      have hne : lexer d ≠ TS_OPENING_SCOPE := by
        rw [(lexer_eq_non_zero_digit d).mpr hd]; decide
      rw [List.nil_append, List.append_assoc, hdr, List.cons_append,
        expect_of_blank_ne o w d (r ++ s) t TS_OPENING_SCOPE hw (nonZeroDigit_not_blank hd) hne]
      dsimp only
      have := integer_complete_literal (0 + 1 + ds.length) (o + w.length) s t Minuses.zero
        blank_nil hds hs h1 h2 (by omega) (by omega)
      rw [hdr] at this
      simp only [List.nil_append, List.cons_append] at this
      rw [this]
      simp only [List.length_nil, add_zero, List.length_append, List.length_cons,
        Option.some.injEq, Prod.mk.injEq, Parser.mk.injEq, and_true, true_and]
      omega
    | succ k w1 ms1 hw1 hms1 =>
      rw [List.append_assoc, List.append_assoc, List.cons_append,
        expect_of_blank_ne o w1 '-' _ t TS_OPENING_SCOPE hw1 (by decide) (by decide)]
      dsimp only
      have := integer_complete_literal (k + 1 + 1 + ds.length) (o + w1.length) s t
        (Minuses.succ k [] ms1 blank_nil hms1) hw hds hs h1 h2 (by omega) (by omega)
      simp only [List.nil_append, List.cons_append] at this
      simp only [List.append_assoc] at this ⊢
      rw [this]
      simp only [List.length_nil, add_zero, List.length_append, List.length_cons,
        Option.some.injEq, Prod.mk.injEq, Parser.mk.injEq, and_true, true_and]
      omega
  | scope w e w1 ts hw he hw1 ih =>
    refine ⟨fun _ o s t _ => ?_, fun hl => by cases hl⟩
    obtain ⟨col, hcol⟩ := ih.2 rfl (o + w.length + 1) ((w1 ++ [')']) ++ s)
      (t ++ [⟨['('], OPENING_SCOPE⟩])
      (by simpa using noDigitHead_blank_cons s hw1 (c := ')') (by decide))
    have hstop : ∀ x ∈ (skip_ws ⟨o + w.length + 1 + e.length, (w1 ++ [')']) ++ s,
        t ++ [⟨['('], OPENING_SCOPE⟩] ++ ts⟩).it_rest.head?, ¬ OperatorSymbol x := by
      rw [List.append_assoc, List.singleton_append,
        skip_ws_of_blank _ w1 (')' :: s) _ hw1 (noBlankHead_cons s (by decide))]
      intro x hx
      simp only [List.head?_cons, Option.mem_def, Option.some.injEq] at hx
      subst hx
      decide
    obtain ⟨n, hn⟩ := hcol _ 1 (expression_loop_stop 0 ⟨PARSER_OK, col⟩ _ rfl hstop)
    refine ⟨n + 1, col, ?_⟩
    rw [term_unfold, expect_skip_ws, List.append_assoc, List.cons_append,
      expect_of_blank o w '(' _ t TS_OPENING_SCOPE hw (by decide) (by decide)]
    dsimp only
    simp only [List.append_assoc] at hn ⊢
    rw [hn]
    dsimp only
    have hexp := fun o1 t1 =>
      expect_of_blank o1 [] ')' s t1 TS_CLOSING_SCOPE blank_nil (by decide) (by decide)
    simp only [List.nil_append] at hexp
    rw [if_pos rfl, List.singleton_append,
      skip_ws_of_blank _ w1 (')' :: s) _ hw1 (noBlankHead_cons s (by decide)), hexp]
    simp only [List.length_nil, add_zero, List.length_append, List.length_cons,
      List.length_singleton, List.cons_append, List.nil_append, List.append_assoc,
      Option.some.injEq, Prod.mk.injEq, Parser.mk.injEq, and_true, true_and]
    omega
  | single t ts _ ih =>
    refine ⟨fun hl => (by cases hl), fun _ o s t0 hs => ?_⟩
    obtain ⟨n0, col, hn0⟩ := ih.1 rfl o s t0 hs
    refine ⟨col, fun X m hX => ⟨max n0 m + 1, ?_⟩⟩
    rw [expression_unfold, term_skip_ws, term_mono_le (Nat.le_max_left n0 m) hn0]
    exact expression_loop_mono_le (Nat.le_max_right n0 m) hX
  | binary e w t c ts us _ hw hc _ ihe iht =>
    refine ⟨fun hl => (by cases hl), fun _ o s t0 hs => ?_⟩
    obtain ⟨cole, hcole⟩ := ihe.2 rfl o ((w ++ c :: t) ++ s) t0
      (by simpa using noDigitHead_blank_cons (t ++ s) hw (mt digit_not_operator (not_not.mpr hc)))
    obtain ⟨n0, col, hn0⟩ := iht.1 rfl (o + e.length + w.length + 1) s
      (t0 ++ ts ++ [⟨[c], OPERATOR⟩]) hs
    refine ⟨col, fun X m hX => ?_⟩
    have hturn := expression_loop_turn (max n0 m) (o + e.length) ⟨PARSER_OK, cole⟩
      ⟨PARSER_OK, col⟩ w (t ++ s) c (t0 ++ ts) _ rfl hw hc rfl
      (term_mono_le (Nat.le_max_left n0 m) hn0)
    have hX' : expression_loop (max n0 m) ⟨PARSER_OK, col⟩
        ⟨o + e.length + w.length + 1 + t.length, s, t0 ++ ts ++ [⟨[c], OPERATOR⟩] ++ us⟩
        = some X := by
      have := expression_loop_mono_le (Nat.le_max_right n0 m) hX
      simp only [List.length_append, List.length_cons, List.append_assoc,
        List.singleton_append] at this ⊢
      rw [← this]
      congr 2
      omega
    rw [hX'] at hturn
    obtain ⟨n, hn⟩ := hcole X _ (by simpa using hturn)
    exact ⟨n, by simpa using hn⟩

theorem sentence_of_derives {lvl : Level} {cs : List Char} {ts : List Token}
    (h : Derives lvl cs ts) : Sentence lvl cs := by
  induction h with
  | zero w hw => exact Sentence.zero w hw
  | literal k ms w ds hms hw hds h1 h2 => exact Sentence.literal k ms w ds hms hw hds h1 h2
  | scope w e w1 ts hw _ hw1 ih => exact Sentence.scope w e w1 hw ih hw1
  | single t ts _ ih => exact Sentence.single t ih
  | binary e w t c ts us _ hw hc _ ihe iht => exact Sentence.binary e w t c ihe hw hc iht

theorem derives_of_sentence {lvl : Level} {cs : List Char} (h : Sentence lvl cs) :
    ∃ ts, Derives lvl cs ts := by
  induction h with
  | zero w hw => exact ⟨_, Derives.zero w hw⟩
  | literal k ms w ds hms hw hds h1 h2 => exact ⟨_, Derives.literal k ms w ds hms hw hds h1 h2⟩
  | scope w e w1 hw _ hw1 ih =>
    obtain ⟨ts, hts⟩ := ih
    exact ⟨_, Derives.scope w e w1 ts hw hts hw1⟩
  | single t _ ih =>
    obtain ⟨ts, hts⟩ := ih
    exact ⟨_, Derives.single t ts hts⟩
  | binary e w t c _ hw hc _ ihe iht =>
    obtain ⟨ts, hts⟩ := ihe
    obtain ⟨us, hus⟩ := iht
    exact ⟨_, Derives.binary e w t c ts us hts hw hc hus⟩

theorem derives_ne_nil {lvl : Level} {cs : List Char} {ts : List Token}
    (h : Derives lvl cs ts) : cs ≠ [] ∧ ts ≠ [] := by
  induction h with
  | zero w hw => simp
  | literal k ms w ds hms hw hds h1 h2 =>
    obtain ⟨d, r, rfl, _, _⟩ := hds
    simp
  | scope w e w1 ts hw _ hw1 ih => simp
  | single t ts _ ih => exact ih
  | binary e w t c ts us _ hw hc _ ihe iht => simp

theorem expression_skip_ws (fuel : Nat) (p : Parser) :
    expression fuel (skip_ws p) = expression fuel p := by
  cases fuel with
  | zero => rw [expression_zero, expression_zero]
  | succ n => rw [expression_unfold, expression_unfold, skip_ws_idem]

theorem noDigitHead_blank {w : List Char} (hw : Blank w) : NoDigitHead w := by
  intro x hx hd
  cases w with
  | nil => cases hx
  | cons b w =>
    simp only [List.head?_cons, Option.mem_def, Option.some.injEq] at hx
    subst hx
    exact digit_not_blank hd (hw _ (List.mem_cons_self _ _))

theorem skip_ws_blank (o : Nat) (w : List Char) (t : List Token) (hw : Blank w) :
    skip_ws ⟨o, w, t⟩ = ⟨o + w.length, [], t⟩ := by
  have := skip_ws_of_blank o w [] t hw noBlankHead_nil
  simpa using this

/-- `expression` on the text of an expression followed by something that is neither a
digit nor, after blanks, an operator. -/
theorem expression_complete {cs : List Char} {ts : List Token} (h : Derives Level.expr cs ts)
    (o : Nat) (s : List Char) (t : List Token) (hs : NoDigitHead s)
    (hop : ∀ x ∈ (skip_ws ⟨o + cs.length, s, t ++ ts⟩).it_rest.head?, ¬ OperatorSymbol x) :
    ∃ n col, expression n ⟨o, cs ++ s, t⟩
      = some (⟨PARSER_OK, col⟩, skip_ws ⟨o + cs.length, s, t ++ ts⟩) := by
  obtain ⟨col, hcol⟩ := (parser_complete h).2 rfl o s t hs
  obtain ⟨n, hn⟩ := hcol _ 1 (expression_loop_stop 0 ⟨PARSER_OK, col⟩ _ rfl hop)
  exact ⟨n, col, hn⟩

/-- Completeness of `parse`: an expression of the grammar followed by blanks is accepted,
with the tokens of the expression as token list. -/
theorem parse_complete {cs w : List Char} {ts : List Token} (h : Derives Level.expr cs ts)
    (hw : Blank w) :
    ∃ col, parse (cs ++ w) = some (⟨PARSER_OK, col⟩, ⟨(cs ++ w).length, [], ts⟩) := by
  have hsk : skip_ws ⟨0 + cs.length, w, [] ++ ts⟩ = ⟨(cs ++ w).length, [], ts⟩ := by
    rw [skip_ws_blank _ w _ hw]
    simp
  obtain ⟨n, col, hn⟩ := expression_complete h 0 w [] (noDigitHead_blank hw)
    (by rw [hsk]; intro x hx; cases hx)
  rw [hsk, ← expression_skip_ws] at hn
  obtain ⟨r, q, hp⟩ := parse_total (cs ++ w)
  refine ⟨col, ?_⟩
  rw [hp]
  rcases parse_from_inv hp with ⟨hend, _, _⟩ | ⟨_, res, p1, he, hcase⟩
  · exfalso
    obtain ⟨cs1, ts1, w1, hd1, _, hc1, _, _⟩ := (parser_sound n).2.2 _ _ _ hn rfl
    have := hc1.1
    rw [hend] at this
    have hne := (derives_ne_nil hd1).1
    cases cs1 with
    | nil => exact hne rfl
    | cons a b => simp at this
  · have hag := expression_fuel_agree he hn
    simp only [Prod.mk.injEq] at hag
    obtain ⟨rfl, rfl⟩ := hag
    have hskq : skip_ws ⟨(cs ++ w).length, [], ts⟩ = ⟨(cs ++ w).length, [], ts⟩ :=
      skip_ws_of_noBlankHead _ noBlankHead_nil
    rcases hcase with ⟨hne, _, _⟩ | ⟨_, rfl, hne, _⟩ | ⟨_, rfl, _, rfl⟩
    · exact absurd rfl hne
    · rw [hskq] at hne
      exact absurd rfl hne
    · rw [hskq]

end Parser

/-- C3: `parse` returns on every input, and its status is `PARSER_OK` exactly when the
input is a text of the grammar `expr := term , { op , term }`,
`term := integer | "(" , expr , ")"`, `integer := "0" | { "-" } , natural`, with blanks
allowed before each symbol and at the end, and every literal strictly inside the
required range; every other input gets another status. -/
theorem C3_parse_ok_iff_grammar (e : List Char) :
    ∃ r q, Parser.parse e = some (r, q)
      ∧ (r.type = ParserResult.code_t.PARSER_OK ↔ Grammar.Input e) := by
  obtain ⟨r, q, hp⟩ := Parser.parse_total e
  refine ⟨r, q, hp, ?_, ?_⟩
  · intro hr
    obtain ⟨cs, ts, w, hd, hw, he, _⟩ := Parser.parse_sound hp hr
    exact ⟨cs, w, he, Parser.sentence_of_derives hd, hw⟩
  · rintro ⟨cs, w, rfl, hs, hw⟩
    obtain ⟨ts, hd⟩ := Parser.derives_of_sentence hs
    obtain ⟨col, hc⟩ := Parser.parse_complete hd hw
    rw [hc] at hp
    simp only [Option.some.injEq, Prod.mk.injEq] at hp
    rw [← hp.1]

namespace Reading

open token_t Grammar

theorem binding_pos {c : Char} (h : OperatorSymbol c) : 1 ≤ binding c := by
  rcases h with rfl | rfl | rfl | rfl | rfl | rfl <;> decide

theorem binding_le (c : Char) : binding c ≤ 3 := by
  unfold binding
  split_ifs <;> omega

theorem binding_eq_three {c : Char} (h : binding c = 3) : c = '^' := by
  unfold binding at h
  split_ifs at h with h1
  · exact h1
  all_goals omega

theorem level_pos {t : Exp} (h : t.standard) : 1 ≤ t.level := by
  cases t with
  | literal text => simp [Exp.level]
  | scope e => simp [Exp.level]
  | binary l op r => exact binding_pos h.1

theorem extend_tokens (t : Exp) (op : Char) (a : Exp) :
    (t.extend op a).tokens = t.tokens ++ ⟨[op], OPERATOR⟩ :: a.tokens := by
  induction t with
  | literal text => simp [Exp.extend, Exp.tokens]
  | scope e _ => simp [Exp.extend, Exp.tokens]
  | binary l o r _ ihr =>
    unfold Exp.extend
    split_ifs
    · simp [Exp.tokens, ihr]
    · simp [Exp.tokens]

theorem extend_level (t : Exp) (op : Char) (a : Exp) :
    (t.extend op a).level = min t.level (binding op) := by
  cases t with
  | literal text =>
    simp only [Exp.extend, Exp.level]
    have := binding_le op
    omega
  | scope e =>
    simp only [Exp.extend, Exp.level]
    have := binding_le op
    omega
  | binary l o r =>
    unfold Exp.extend
    split_ifs with h
    · simp only [Exp.level]
      rcases h with h | ⟨rfl, rfl⟩
      · omega
      · simp
    · simp only [Exp.level]
      push_neg at h
      omega

theorem extend_standard (t : Exp) (op : Char) (a : Exp) (ht : t.standard)
    (hop : OperatorSymbol op) (ha : a.standard) (hla : a.level = 4) :
    (t.extend op a).standard := by
  induction t with
  | literal text =>
    refine ⟨hop, trivial, ha, ?_⟩
    rw [hla, show (Exp.literal text).level = 4 from rfl]
    have := binding_le op
    split_ifs
    · exact ⟨rfl, by omega⟩
    · exact ⟨by omega, by omega⟩
  | scope e _ =>
    refine ⟨hop, ht, ha, ?_⟩
    rw [hla, show (Exp.scope e).level = 4 from rfl]
    have := binding_le op
    split_ifs
    · exact ⟨rfl, by omega⟩
    · exact ⟨by omega, by omega⟩
  | binary l o r _ ihr =>
    obtain ⟨ho, hl, hr, hshape⟩ := ht
    unfold Exp.extend
    split_ifs with h
    · refine ⟨ho, hl, ihr hr, ?_⟩
      rw [extend_level]
      split_ifs at hshape ⊢ with ho3
      · subst ho3
        rcases h with h | ⟨_, rfl⟩
        · have := binding_le op
          have h3 : binding '^' = 3 := by decide
          omega
        · have h3 : binding '^' = 3 := by decide
          exact ⟨hshape.1, by omega⟩
      · rcases h with h | ⟨rfl, _⟩
        · exact ⟨hshape.1, by omega⟩
        · exact absurd rfl ho3
    · push_neg at h
      refine ⟨hop, ⟨ho, hl, hr, hshape⟩, ha, ?_⟩
      rw [hla, show (Exp.binary l o r).level = binding o from rfl]
      have := binding_le op
      split_ifs with hop3
      · subst hop3
        have h3 : binding '^' = 3 := by decide
        have := binding_le o
        have ho3 : binding o = 3 := by omega
        exact absurd rfl (h.2 (binding_eq_three ho3))
      · exact ⟨by omega, by omega⟩

end Reading

namespace Reading

open token_t Grammar Evaluator

/-- The tokens of a derivation have a standard reading. -/
theorem reading_of_derives {lvl : Level} {cs : List Char} {ts : List Token}
    (h : Derives lvl cs ts) :
    ∃ T : Exp, T.standard ∧ T.tokens = ts ∧ (lvl = Level.term → T.level = 4) := by
  induction h with
  | zero w hw => exact ⟨Exp.literal ['0'], trivial, rfl, fun _ => rfl⟩
  | literal k ms w ds hms hw hds h1 h2 =>
    exact ⟨Exp.literal (literal_text k ds), trivial, rfl, fun _ => rfl⟩
  | scope w e w1 ts hw _ hw1 ih =>
    obtain ⟨T, hT, htok, _⟩ := ih
    exact ⟨Exp.scope T, hT, by simp [Exp.tokens, htok], fun _ => rfl⟩
  | single t ts _ ih =>
    obtain ⟨T, hT, htok, _⟩ := ih
    exact ⟨T, hT, htok, fun hl => by cases hl⟩
  | binary e w t c ts us _ hw hc _ ihe iht =>
    obtain ⟨Te, hTe, htoke, _⟩ := ihe
    obtain ⟨Tt, hTt, htokt, hlt⟩ := iht
    refine ⟨Te.extend c Tt, extend_standard Te c Tt hTe hc hTt (hlt rfl), ?_,
      fun hl => by cases hl⟩
    rw [extend_tokens, htoke, htokt]

/-- Every token of a derivation is well formed. -/
theorem derives_wellFormed {lvl : Level} {cs : List Char} {ts : List Token}
    (h : Derives lvl cs ts) : ∀ t ∈ ts, WellFormed t := by
  induction h with
  | zero w hw =>
    intro t ht
    simp only [List.mem_singleton] at ht
    subst ht
    exact Or.inl rfl
  | literal k ms w ds hms hw hds h1 h2 =>
    intro t ht
    simp only [List.mem_singleton] at ht
    subst ht
    exact Or.inr ⟨k, ds, hds, h1, h2, rfl⟩
  | scope w e w1 ts hw _ hw1 ih =>
    intro t ht
    simp only [List.mem_cons, List.mem_append, List.not_mem_nil, or_false] at ht
    rcases ht with rfl | ht | rfl
    · exact rfl
    · exact ih t ht
    · exact rfl
  | single t ts _ ih => exact ih
  | binary e w t c ts us _ hw hc _ ihe iht =>
    intro x hx
    simp only [List.mem_cons, List.mem_append] at hx
    rcases hx with hx | rfl | hx
    · exact ihe x hx
    · exact ⟨c, hc, rfl⟩
    · exact iht x hx

theorem get_precedence_eq (c : Char) (ty : token_t) :
    get_precedence ⟨[c], ty⟩ = binding c := by
  unfold get_precedence binding
  have : first_char ⟨[c], ty⟩ = c := rfl
  rw [this]
  by_cases h1 : c = '^'
  · rw [if_pos h1, if_pos h1]
  · rw [if_neg h1, if_neg h1]
    by_cases h2 : c = '*' ∨ c = '%' ∨ c = '/'
    · have h2' : c = '*' ∨ c = '/' ∨ c = '%' := by tauto
      rw [if_pos h2, if_pos h2']
    · have h2' : ¬ (c = '*' ∨ c = '/' ∨ c = '%') := by tauto
      rw [if_neg h2, if_neg h2']

theorem has_higher_precedence_eq (a b : Char) (ta tb : token_t) :
    has_higher_precedence ⟨[a], ta⟩ ⟨[b], tb⟩
      = if binding a = binding b ∧ a = '^' then false else decide (binding a ≥ binding b) := by
  unfold has_higher_precedence is_right_association
  rw [get_precedence_eq, get_precedence_eq]
  have : first_char ⟨[a], ta⟩ = a := rfl
  rw [this]
  simp

theorem pop_higher_append (s : Token) (P : List Token) :
    ∀ (S O : List Token), (∀ x ∈ P, has_higher_precedence x s = true) →
    (∀ t ∈ S.head?, has_higher_precedence t s = false) →
    pop_higher s (P ++ S) O = (S, O ++ P) := by
  induction P with
  | nil =>
    intro S O _ hS
    cases S with
    | nil => simp [pop_higher]
    | cons t S =>
      have := hS t (by simp)
      simp [pop_higher, this]
  | cons x P ih =>
    intro S O hP hS
    have hx := hP x (List.mem_cons_self _ _)
    simp only [List.cons_append, pop_higher, hx, if_true]
    show pop_higher s (P ++ S) (O ++ [x]) = _
    rw [ih S (O ++ [x]) (fun y hy => hP y (List.mem_cons_of_mem _ hy)) hS]
    simp

theorem pop_to_opening_append (P : List Token) :
    ∀ (t : Token) (S O : List Token), (∀ x ∈ P, x.type = OPERATOR) →
    t.type = OPENING_SCOPE →
    pop_to_opening (P ++ t :: S) O = (t :: S, O ++ P) := by
  induction P with
  | nil =>
    intro t S O _ ht
    simp [pop_to_opening, is_opening_scope, ht]
  | cons x P ih =>
    intro t S O hP ht
    have hx := hP x (List.mem_cons_self _ _)
    simp only [List.cons_append, pop_to_opening, is_opening_scope, hx]
    rw [if_pos (by decide)]
    show pop_to_opening (P ++ t :: S) (O ++ [x]) = _
    rw [ih t S (O ++ [x]) (fun y hy => hP y (List.mem_cons_of_mem _ hy)) ht]
    simp

theorem out_append_pend (T : Exp) : T.out ++ T.pend = T.post := by
  induction T with
  | literal text => simp [Exp.out, Exp.pend, Exp.post]
  | scope e _ => simp [Exp.out, Exp.pend, Exp.post]
  | binary l op r _ ihr =>
    simp only [Exp.out, Exp.pend, Exp.post, List.append_assoc]
    rw [← List.append_assoc r.out, ihr]

theorem pend_operator (T : Exp) (hT : T.standard) :
    ∀ x ∈ T.pend, ∃ c, x = ⟨[c], OPERATOR⟩ ∧ OperatorSymbol c ∧ T.level ≤ binding c := by
  induction T with
  | literal text => intro x hx; simp [Exp.pend] at hx
  | scope e _ => intro x hx; simp [Exp.pend] at hx
  | binary l op r _ ihr =>
    obtain ⟨hop, _, hr, hshape⟩ := hT
    intro x hx
    simp only [Exp.pend, List.mem_append, List.mem_singleton] at hx
    rcases hx with hx | rfl
    · obtain ⟨c, rfl, hc, hlev⟩ := ihr hr x hx
      refine ⟨c, rfl, hc, ?_⟩
      show binding op ≤ binding c
      split_ifs at hshape with h3
      · subst h3
        have : binding '^' = 3 := by decide
        omega
      · omega
    · exact ⟨op, rfl, hop, le_refl _⟩

theorem convert_loop_cons (s : Token) (rest : List Token) (S O S1 O1 : List Token)
    (h : convert_step s S O = .ok (S1, O1)) :
    convert_loop (s :: rest) S O = convert_loop rest S1 O1 := by
  rw [convert_loop, h]

theorem convert_step_operand (text : List Char) (S O : List Token) :
    convert_step ⟨text, OPERAND⟩ S O = .ok (S, O ++ [⟨text, OPERAND⟩]) := by
  simp [convert_step, is_operand]

theorem convert_step_opening (S O : List Token) :
    convert_step ⟨['('], OPENING_SCOPE⟩ S O = .ok (⟨['('], OPENING_SCOPE⟩ :: S, O) := by
  simp [convert_step, is_operand, is_opening_scope]

theorem convert_step_closing (P S O : List Token) (hP : ∀ x ∈ P, x.type = OPERATOR) :
    convert_step ⟨[')'], CLOSING_SCOPE⟩ (P ++ ⟨['('], OPENING_SCOPE⟩ :: S) O
      = .ok (S, O ++ P) := by
  simp [convert_step, is_operand, is_opening_scope, is_closing_scope,
    pop_to_opening_append P ⟨['('], OPENING_SCOPE⟩ S O hP rfl, stack.pop]

theorem convert_step_operator (c : Char) (P S O : List Token)
    (hP : ∀ x ∈ P, has_higher_precedence x ⟨[c], OPERATOR⟩ = true)
    (hS : ∀ t ∈ S.head?, has_higher_precedence t ⟨[c], OPERATOR⟩ = false) :
    convert_step ⟨[c], OPERATOR⟩ (P ++ S) O = .ok (⟨[c], OPERATOR⟩ :: S, O ++ P) := by
  simp [convert_step, is_operand, is_opening_scope, is_closing_scope, is_operator,
    pop_higher_append ⟨[c], OPERATOR⟩ P S O hP hS]

theorem get_precedence_le (t : Token) : get_precedence t ≤ 3 := by
  unfold get_precedence
  split_ifs <;> omega

theorem get_precedence_eq_three {t : Token} (h : get_precedence t = 3) :
    is_right_association t = true := by
  unfold get_precedence at h
  unfold is_right_association
  split_ifs at h with h1
  · simp [h1]
  all_goals omega

/-- A token on the stack that binds less tightly than the operator read is not popped. -/
theorem has_higher_precedence_false (t : Token) (c : Char)
    (h : binding c = 3 ∨ get_precedence t < binding c) :
    has_higher_precedence t ⟨[c], OPERATOR⟩ = false := by
  unfold has_higher_precedence
  rw [get_precedence_eq]
  have hle := get_precedence_le t
  by_cases heq : get_precedence t = binding c
  · rcases h with h | h
    · rw [if_pos ⟨heq, get_precedence_eq_three (heq.trans h)⟩]
    · omega
  · rw [if_neg (fun hc => heq hc.1)]
    rcases h with h | h
    · simp only [ge_iff_le, decide_eq_false_iff_not, not_le]; omega
    · simp only [ge_iff_le, decide_eq_false_iff_not, not_le]; omega

/-- The converter on the tokens of a standard reading: it writes `out` and leaves `pend`
on the stack, whatever follows. -/
theorem convert_tokens (T : Exp) (hT : T.standard) :
    ∀ (S O rest : List Token), (3 ≤ T.level ∨ ∀ t ∈ S.head?, get_precedence t < T.level) →
    convert_loop (T.tokens ++ rest) S O = convert_loop rest (T.pend ++ S) (O ++ T.out) := by
  induction T with
  | literal text =>
    intro S O rest _
    simp only [Exp.tokens, Exp.pend, Exp.out, List.singleton_append, List.nil_append]
    exact convert_loop_cons _ _ _ _ _ _ (convert_step_operand text S O)
  | scope e ih =>
    intro S O rest _
    simp only [Exp.tokens, Exp.pend, Exp.out, List.cons_append, List.append_assoc,
      List.nil_append, List.singleton_append]
    rw [convert_loop_cons _ _ _ _ _ _ (convert_step_opening S O),
      ih hT (⟨['('], OPENING_SCOPE⟩ :: S) O (⟨[')'], CLOSING_SCOPE⟩ :: rest) (Or.inr ?_),
      convert_loop_cons _ _ _ _ _ _ (convert_step_closing e.pend S (O ++ e.out)
        (fun x hx => ?_)),
      List.append_assoc, out_append_pend]
    · obtain ⟨c, rfl, _, _⟩ := pend_operator e hT x hx
      rfl
    · intro t ht
      simp only [List.head?_cons, Option.mem_def, Option.some.injEq] at ht
      subst ht
      have he : e.standard := hT
      have := level_pos he
      have h0 : get_precedence ⟨['('], OPENING_SCOPE⟩ = 0 := by decide
      omega
  | binary l op r ihl ihr =>
    intro S O rest hctx
    obtain ⟨hop, hl, hr, hshape⟩ := hT
    have hlev : (Exp.binary l op r).level = binding op := rfl
    rw [hlev] at hctx
    simp only [Exp.tokens, Exp.pend, Exp.out, List.append_assoc, List.cons_append]
    have hctxl : 3 ≤ l.level ∨ ∀ t ∈ S.head?, get_precedence t < l.level := by
      split_ifs at hshape with h3
      · exact Or.inl (by omega)
      · rcases hctx with hctx | hctx
        · exact Or.inl (by omega)
        · exact Or.inr (fun t ht => lt_of_lt_of_le (hctx t ht) hshape.1)
    have hpop : ∀ x ∈ l.pend, has_higher_precedence x ⟨[op], OPERATOR⟩ = true := by
      intro x hx
      obtain ⟨c, rfl, hc, hlevc⟩ := pend_operator l hl x hx
      rw [has_higher_precedence_eq]
      split_ifs at hshape with h3
      · rw [hshape.1] at hlevc
        have := binding_le c
        omega
      · have hne : ¬ (binding c = binding op ∧ c = '^') := by
          rintro ⟨h1, rfl⟩
          have h3' : binding '^' = 3 := by decide
          exact h3 (binding_eq_three (h1.symm.trans h3'))
        rw [if_neg hne]
        simp only [ge_iff_le, decide_eq_true_eq]
        omega
    have hstop : ∀ t ∈ S.head?, has_higher_precedence t ⟨[op], OPERATOR⟩ = false := by
      intro t ht
      apply has_higher_precedence_false
      rcases hctx with hctx | hctx
      · left
        have := binding_le op
        omega
      · exact Or.inr (hctx t ht)
    have hctxr : 3 ≤ r.level ∨
        ∀ t ∈ (⟨[op], OPERATOR⟩ :: S : List Token).head?, get_precedence t < r.level := by
      split_ifs at hshape with h3
      · exact Or.inl hshape.2
      · right
        intro t ht
        simp only [List.head?_cons, Option.mem_def, Option.some.injEq] at ht
        subst ht
        rw [get_precedence_eq]
        exact hshape.2
    rw [ihl hl S O _ hctxl,
      convert_loop_cons _ _ _ _ _ _ (convert_step_operator op l.pend S (O ++ l.out) hpop hstop),
      ihr hr _ _ rest hctxr, ← out_append_pend l]
    simp only [List.append_assoc, List.singleton_append, List.nil_append]

/-- The converter turns the tokens of a standard reading into its postfix tokens. -/
theorem infix_to_postfix_tokens (T : Exp) (hT : T.standard) :
    Evaluator.infix_to_postfix T.tokens = .ok T.post := by
  have := convert_tokens T hT [] [] [] (Or.inr (fun t ht => by cases ht))
  simp only [List.append_nil, List.nil_append] at this
  unfold Evaluator.infix_to_postfix
  rw [this, convert_loop, out_append_pend]

end Reading

namespace Reading

open token_t Grammar Evaluator EvaluatorResult.code_t

theorem evaluate_loop_cons (uninit : Nat → Int) (i : Nat) (s : Token) (rest : List Token)
    (st st1 : stack Int) (res res1 : EvaluatorResult)
    (h : evaluate_step (uninit i) s st res = .ok (st1, res1)) :
    evaluate_loop uninit i (s :: rest) st res = evaluate_loop uninit (i + 1) rest st1 res1 := by
  rw [evaluate_loop, h]

theorem evaluate_step_operand (u : Int) (text : List Char) (st : stack Int)
    (res : EvaluatorResult) :
    evaluate_step u ⟨text, OPERAND⟩ st res
      = .ok (Token2Value u ⟨text, OPERAND⟩ :: st, res) := by
  simp [evaluate_step, is_operand]

theorem evaluate_step_operator (u : Int) (c : Char) (a b : Int) (st : stack Int)
    (res : EvaluatorResult) :
    evaluate_step u ⟨[c], OPERATOR⟩ (b :: a :: st) res
      = .ok ((execute_operator u a b ⟨[c], OPERATOR⟩).value :: st,
          execute_operator u a b ⟨[c], OPERATOR⟩) := by
  simp [evaluate_step, is_operand, is_operator, stack.top, stack.pop]

theorem wrap_long_of_in_range {v : Int} (h : in_range v) : wrap_long v = v := by
  unfold in_range required_min required_max at h
  unfold wrap_long long_min
  omega

/-- The value `execute_operator` returns is always one of the required type. -/
theorem execute_operator_in_range (u a b : Int) (op : Token) :
    in_range (execute_operator u a b op).value := by
  unfold execute_operator
  dsimp only
  generalize operator_switch u a b op = r
  split_ifs with h
  · exact ⟨h.2, h.1⟩
  · exact ⟨by decide, by decide⟩
  · exact ⟨show required_min ≤ 0 by decide, show (0 : Int) ≤ required_max by decide⟩

/-- Where the standard reading applies an operator without error, so does
`execute_operator`, with the same value. -/
theorem operator_switch_apply {op : Char} {a b v : Int} (u : Int) (ty : token_t)
    (h : apply op a b = some v) (hv : in_range v) :
    operator_switch u a b ⟨[op], ty⟩ = (v, RESULT_OK) := by
  have hfc : first_char ⟨[op], ty⟩ = op := rfl
  unfold operator_switch
  rw [hfc]
  unfold apply at h
  by_cases h1 : op = '+'
  · rw [if_pos h1] at h ⊢
    cases h
    rw [wrap_long_of_in_range hv]
  rw [if_neg h1] at h ⊢
  by_cases h2 : op = '-'
  · rw [if_pos h2] at h ⊢
    cases h
    rw [wrap_long_of_in_range hv]
  rw [if_neg h2] at h ⊢
  by_cases h3 : op = '*'
  · rw [if_pos h3] at h ⊢
    cases h
    rw [wrap_long_of_in_range hv]
  rw [if_neg h3] at h ⊢
  by_cases h4 : op = '/'
  · have h4' : op ≠ '^' := by rw [h4]; decide
    rw [if_pos h4] at h
    rw [if_neg h4', if_pos h4]
    by_cases hb : b = 0
    · rw [if_pos hb] at h; cases h
    · rw [if_neg hb] at h ⊢
      cases h
      rw [wrap_long_of_in_range hv]
  rw [if_neg h4] at h
  by_cases h5 : op = '%'
  · have h5' : op ≠ '^' := by rw [h5]; decide
    rw [if_pos h5] at h
    rw [if_neg h5', if_neg h4, if_pos h5]
    by_cases hb : b = 0
    · rw [if_pos hb] at h; cases h
    · rw [if_neg hb] at h ⊢
      cases h
      rfl
  rw [if_neg h5] at h
  by_cases h6 : op = '^'
  · rw [if_pos h6] at h ⊢
    by_cases hb : b < 0
    · rw [if_pos hb] at h; cases h
    · rw [if_neg hb] at h
      cases h
      have hp : Evaluator.pow a b = a ^ b.toNat := by
        unfold Evaluator.pow
        unfold in_range required_min required_max at hv
        rw [if_pos (by omega), if_pos (by unfold long_min long_max; omega)]
      rw [hp]
  · rw [if_neg h6] at h
    cases h

/-- Where the standard reading applies an operator without error, so does
`execute_operator`, with the same value. -/
theorem execute_operator_apply {op : Char} {a b v : Int} (u : Int) (ty : token_t)
    (h : apply op a b = some v) (hv : in_range v) :
    execute_operator u a b ⟨[op], ty⟩ = ⟨v, RESULT_OK⟩ := by
  unfold execute_operator
  rw [operator_switch_apply u ty h hv]
  dsimp only
  rw [if_pos ⟨hv.2, hv.1⟩]

theorem literal_value_literal_text (k : Nat) {ds : List Char} (h : Natural ds) :
    literal_value (literal_text k ds) = signed_value k ds := by
  unfold literal_text signed_value
  by_cases hk : k % 2 = 1
  · rw [if_pos hk, if_pos hk]
    rfl
  · rw [if_neg hk, if_neg hk]
    obtain ⟨d, r, rfl, hd, _⟩ := h
    have hne : d ≠ '-' := by
      rcases hd with rfl | rfl | rfl | rfl | rfl | rfl | rfl | rfl | rfl <;> decide
    unfold literal_value
    split
    · rename_i heq
      simp only [List.cons.injEq] at heq
      exact absurd heq.1 hne
    · rfl

/-- The text of a literal holds more than white space. -/
theorem extract_nothing_literal_text (k : Nat) {ds : List Char} (h : Natural ds) :
    ¬ Parser.extract_nothing (literal_text k ds) = true := by
  obtain ⟨d, r, rfl, hd, _⟩ := h
  have hd1 : ¬ (d = ' ' ∨ d = '\t' ∨ d = '\n' ∨ d = '\r'
      ∨ d = Char.ofNat 11 ∨ d = Char.ofNat 12) := by
    rcases hd with rfl | rfl | rfl | rfl | rfl | rfl | rfl | rfl | rfl <;> decide
  unfold literal_text Parser.extract_nothing
  split
  · simp
  · simp [hd1]

/-- The evaluator reads a well-formed operand as the number its text denotes, a value
strictly inside the required range. -/
theorem token2Value_wellFormed (u : Int) {text : List Char}
    (h : WellFormed ⟨text, OPERAND⟩) :
    Token2Value u ⟨text, OPERAND⟩ = literal_value text
      ∧ required_min < literal_value text ∧ literal_value text < required_max := by
  rcases h with h | ⟨k, ds, hds, h1, h2, h⟩
  · simp only at h
    subst h
    refine ⟨?_, by decide, by decide⟩
    unfold Token2Value
    rw [if_neg (by decide)]
    decide
  · simp only at h
    subst h
    rw [literal_value_literal_text k hds]
    refine ⟨?_, h1, h2⟩
    unfold Token2Value
    rw [if_neg (extract_nothing_literal_text k hds)]
    exact Parser.stream_extract_literal_value k hds h1 h2

theorem post_length_binary (l r : Exp) (op : Char) :
    (Exp.binary l op r).post.length = l.post.length + r.post.length + 1 := by
  simp [Exp.post]
  omega

/-- The evaluator on the postfix tokens of a reading: it pushes one value of the required
type, whatever the arithmetic errors met. -/
theorem evaluate_post (uninit : Nat → Int) (T : Exp) (hwf : ∀ t ∈ T.tokens, WellFormed t) :
    ∀ (i : Nat) (rest : List Token) (st : stack Int) (res : EvaluatorResult),
    ∃ v res1, evaluate_loop uninit i (T.post ++ rest) st res
        = evaluate_loop uninit (i + T.post.length) rest (v :: st) res1 ∧ in_range v := by
  induction T with
  | literal text =>
    intro i rest st res
    obtain ⟨_, h1, h2⟩ := token2Value_wellFormed (uninit i)
      (hwf ⟨text, OPERAND⟩ (by simp [Exp.tokens]))
    refine ⟨Token2Value (uninit i) ⟨text, OPERAND⟩, res, ?_, ?_⟩
    · exact evaluate_loop_cons uninit i _ rest st _ res res (evaluate_step_operand _ text st res)
    · rw [(token2Value_wellFormed (uninit i) (hwf ⟨text, OPERAND⟩ (by simp [Exp.tokens]))).1]
      exact ⟨le_of_lt h1, le_of_lt h2⟩
  | scope e ih =>
    exact ih (fun t ht => hwf t (by simp [Exp.tokens, ht]))
  | binary l op r ihl ihr =>
    intro i rest st res
    obtain ⟨a, res1, h1, _⟩ := ihl (fun t ht => hwf t (by simp [Exp.tokens, ht])) i
      (r.post ++ ([⟨[op], OPERATOR⟩] ++ rest)) st res
    obtain ⟨b, res2, h2, _⟩ := ihr (fun t ht => hwf t (by simp [Exp.tokens, ht]))
      (i + l.post.length) ([⟨[op], OPERATOR⟩] ++ rest) (a :: st) res1
    refine ⟨(execute_operator (uninit (i + l.post.length + r.post.length)) a b
        ⟨[op], OPERATOR⟩).value,
      execute_operator (uninit (i + l.post.length + r.post.length)) a b ⟨[op], OPERATOR⟩, ?_,
      execute_operator_in_range _ a b ⟨[op], OPERATOR⟩⟩
    rw [post_length_binary]
    simp only [Exp.post, List.append_assoc]
    rw [h1, h2, show i + (l.post.length + r.post.length + 1)
      = i + l.post.length + r.post.length + 1 from by omega]
    exact evaluate_loop_cons uninit _ _ rest _ _ _ _ (evaluate_step_operator _ op a b st res2)

/-- The evaluator on the postfix tokens of a reading that has a value: it pushes that
value, and the status stays `RESULT_OK`. -/
theorem evaluate_post_value (uninit : Nat → Int) (T : Exp)
    (hwf : ∀ t ∈ T.tokens, WellFormed t) :
    ∀ (v : Int), T.value = some v →
    ∀ (i : Nat) (rest : List Token) (st : stack Int) (res : EvaluatorResult),
    ∃ res1, evaluate_loop uninit i (T.post ++ rest) st res
        = evaluate_loop uninit (i + T.post.length) rest (v :: st) res1
      ∧ (res.type = RESULT_OK → res1.type = RESULT_OK) := by
  induction T with
  | literal text =>
    intro v hv i rest st res
    obtain ⟨h0, _, _⟩ := token2Value_wellFormed (uninit i)
      (hwf ⟨text, OPERAND⟩ (by simp [Exp.tokens]))
    simp only [Exp.value] at hv
    split_ifs at hv
    cases hv
    refine ⟨res, ?_, id⟩
    rw [← h0]
    exact evaluate_loop_cons uninit i _ rest st _ res res (evaluate_step_operand _ text st res)
  | scope e ih =>
    exact ih (fun t ht => hwf t (by simp [Exp.tokens, ht]))
  | binary l op r ihl ihr =>
    intro v hv i rest st res
    simp only [Exp.value] at hv
    cases hl : l.value with
    | none => simp [hl] at hv
    | some a =>
      cases hr : r.value with
      | none => simp [hl, hr] at hv
      | some b =>
        simp only [hl, hr] at hv
        cases hap : apply op a b with
        | none => simp [hap] at hv
        | some v1 =>
          simp only [hap] at hv
          split_ifs at hv with hin
          cases hv
          obtain ⟨res1, h1, _⟩ := ihl (fun t ht => hwf t (by simp [Exp.tokens, ht])) a hl i
            (r.post ++ ([⟨[op], OPERATOR⟩] ++ rest)) st res
          obtain ⟨res2, h2, _⟩ := ihr (fun t ht => hwf t (by simp [Exp.tokens, ht])) b hr
            (i + l.post.length) ([⟨[op], OPERATOR⟩] ++ rest) (a :: st) res1
          refine ⟨⟨v, RESULT_OK⟩, ?_, fun _ => rfl⟩
          rw [post_length_binary]
          simp only [Exp.post, List.append_assoc]
          rw [h1, h2, show i + (l.post.length + r.post.length + 1)
            = i + l.post.length + r.post.length + 1 from by omega]
          have hstep := evaluate_step_operator
            (uninit (i + l.post.length + r.post.length)) op a b st res2
          rw [execute_operator_apply _ _ hap hin] at hstep
          exact evaluate_loop_cons uninit _ _ rest _ _ _ _ hstep

/-- The token list of an accepted input has a standard reading and holds only
well-formed tokens. -/
theorem parse_ok_reading {e : List Char} {r : ParserResult} {q : Parser}
    (h : Parser.parse e = some (r, q)) (hr : r.type = ParserResult.code_t.PARSER_OK) :
    (∃ T : Exp, T.standard ∧ T.tokens = q.token_list)
      ∧ ∀ t ∈ q.token_list, WellFormed t := by
  obtain ⟨cs, ts, w, hd, _, _, htok, _⟩ := Parser.parse_sound h hr
  obtain ⟨T, hT, hTt, _⟩ := reading_of_derives hd
  rw [htok]
  exact ⟨⟨T, hT, hTt⟩, derives_wellFormed hd⟩

theorem post_type (T : Exp) : ∀ t ∈ T.post, t.type = OPERAND ∨ t.type = OPERATOR := by
  induction T with
  | literal text =>
    intro t ht
    simp only [Exp.post, List.mem_singleton] at ht
    subst ht
    exact Or.inl rfl
  | scope e ih => exact ih
  | binary l op r ihl ihr =>
    intro t ht
    simp only [Exp.post, List.mem_append, List.mem_singleton] at ht
    rcases ht with ht | ht | rfl
    · exact ihl t ht
    · exact ihr t ht
    · exact Or.inr rfl

theorem post_perm (T : Exp) :
    T.post.Perm (T.tokens.filter (fun t => decide (t.type = OPERAND ∨ t.type = OPERATOR))) := by
  induction T with
  | literal text => simp [Exp.post, Exp.tokens]
  | scope e ih => simpa [Exp.post, Exp.tokens] using ih
  | binary l op r ihl ihr =>
    simp only [Exp.post, Exp.tokens, List.filter_append, List.filter_cons]
    rw [if_pos (by simp)]
    refine List.Perm.append ihl ?_
    exact (List.perm_append_singleton _ _).trans (List.Perm.cons _ ihr)

/-- The evaluation of the postfix tokens of a reading of well-formed tokens ends with
exactly one value on the stack. -/
theorem evaluate_loop_post (uninit : Nat → Int) (T : Exp)
    (hwf : ∀ t ∈ T.tokens, WellFormed t) :
    ∃ v res, evaluate_loop uninit 0 T.post [] ⟨0, RESULT_OK⟩ = .ok ([v], res) ∧ in_range v
      ∧ evaluate_postfix uninit T.post = .ok { res with value := v } := by
  obtain ⟨v, res, h, hv⟩ := evaluate_post uninit T hwf 0 [] [] ⟨0, RESULT_OK⟩
  rw [List.append_nil] at h
  have h2 : evaluate_loop uninit 0 T.post [] ⟨0, RESULT_OK⟩ = .ok ([v], res) := by
    rw [h, evaluate_loop]
  refine ⟨v, res, h2, hv, ?_⟩
  unfold evaluate_postfix
  rw [h2]
  rfl

end Reading

open Reading in
/-- C1: for every accepted input the token list has a standard reading (parentheses
first, `^` tightest and right-to-left, then `* / %`, then `+ -`, left-to-right), and
whenever a standard reading of the token list has a value (no division or remainder by
zero, no negative exponent, no value outside the required range), the evaluation of the
converted tokens returns `RESULT_OK` with exactly that value. -/
theorem C1_evaluates_standard_reading (e : List Char) (r : ParserResult) (q : Parser)
    (h : Parser.parse e = some (r, q)) (hr : r.type = ParserResult.code_t.PARSER_OK) :
    (∃ T : Exp, T.standard ∧ T.tokens = q.token_list)
    ∧ ∀ (T : Exp) (v : Int), T.standard → T.tokens = q.token_list → T.value = some v →
      ∃ pf, Evaluator.infix_to_postfix q.token_list = .ok pf
        ∧ ∀ uninit, Evaluator.evaluate_postfix uninit pf
            = .ok ⟨v, EvaluatorResult.code_t.RESULT_OK⟩ := by
  obtain ⟨hex, hwf⟩ := parse_ok_reading h hr
  refine ⟨hex, ?_⟩
  intro T v hT htok hv
  refine ⟨T.post, ?_, ?_⟩
  · rw [← htok]
    exact infix_to_postfix_tokens T hT
  · intro uninit
    rw [← htok] at hwf
    obtain ⟨res, h1, h2⟩ := evaluate_post_value uninit T hwf v hv 0 [] []
      ⟨0, EvaluatorResult.code_t.RESULT_OK⟩
    rw [List.append_nil] at h1
    unfold Evaluator.evaluate_postfix
    rw [h1, Evaluator.evaluate_loop]
    have := h2 rfl
    simp only [stack.top]
    rw [← this]

open Reading in
/-- C2: for every accepted input the conversion and the evaluation meet no empty stack
(no fault is raised): the converter returns its output, and the evaluation loop ends with
exactly one value on the stack, which `evaluate_postfix` returns. -/
theorem C2_no_empty_stack (e : List Char) (r : ParserResult) (q : Parser)
    (h : Parser.parse e = some (r, q)) (hr : r.type = ParserResult.code_t.PARSER_OK)
    (uninit : Nat → Int) :
    ∃ pf v res, Evaluator.infix_to_postfix q.token_list = .ok pf
      ∧ Evaluator.evaluate_loop uninit 0 pf [] ⟨0, EvaluatorResult.code_t.RESULT_OK⟩
          = .ok ([v], res)
      ∧ Evaluator.evaluate_postfix uninit pf = .ok { res with value := v } := by
  obtain ⟨⟨T, hT, htok⟩, hwf⟩ := parse_ok_reading h hr
  rw [← htok] at hwf ⊢
  obtain ⟨v, res, h1, _, h2⟩ := evaluate_loop_post uninit T hwf
  exact ⟨T.post, v, res, infix_to_postfix_tokens T hT, h1, h2⟩

open Reading in
/-- C5: for every accepted input the evaluation of the converted tokens returns, and
when its status is `RESULT_OK` the value lies in the range of the required type. -/
theorem C5_ok_value_in_range (e : List Char) (r : ParserResult) (q : Parser)
    (h : Parser.parse e = some (r, q)) (hr : r.type = ParserResult.code_t.PARSER_OK)
    (uninit : Nat → Int) :
    ∃ pf res, Evaluator.infix_to_postfix q.token_list = .ok pf
      ∧ Evaluator.evaluate_postfix uninit pf = .ok res
      ∧ (res.type = EvaluatorResult.code_t.RESULT_OK →
          required_min ≤ res.value ∧ res.value ≤ required_max) := by
  obtain ⟨⟨T, hT, htok⟩, hwf⟩ := parse_ok_reading h hr
  rw [← htok] at hwf ⊢
  obtain ⟨v, res, _, hv, h2⟩ := evaluate_loop_post uninit T hwf
  exact ⟨T.post, _, infix_to_postfix_tokens T hT, h2, fun _ => hv⟩

open Reading in
/-- C6: for every accepted input the converter returns a reordering of the operand and
operator tokens of the token list, and no scope token is in its output. -/
theorem C6_postfix_is_permutation (e : List Char) (r : ParserResult) (q : Parser)
    (h : Parser.parse e = some (r, q)) (hr : r.type = ParserResult.code_t.PARSER_OK) :
    ∃ pf, Evaluator.infix_to_postfix q.token_list = .ok pf
      ∧ (pf.filter (fun t => decide (t.type = token_t.OPERAND ∨ t.type = token_t.OPERATOR))).Perm
          (q.token_list.filter
            (fun t => decide (t.type = token_t.OPERAND ∨ t.type = token_t.OPERATOR)))
      ∧ ∀ t ∈ pf, t.type ≠ token_t.OPENING_SCOPE ∧ t.type ≠ token_t.CLOSING_SCOPE := by
  obtain ⟨⟨T, hT, htok⟩, _⟩ := parse_ok_reading h hr
  rw [← htok]
  refine ⟨T.post, infix_to_postfix_tokens T hT, ?_, ?_⟩
  · have hall : T.post.filter
        (fun t => decide (t.type = token_t.OPERAND ∨ t.type = token_t.OPERATOR)) = T.post := by
      rw [List.filter_eq_self]
      intro t ht
      simpa using post_type T t ht
    rw [hall]
    exact post_perm T
  · intro t ht
    rcases post_type T t ht with h1 | h1 <;> rw [h1] <;> exact ⟨by decide, by decide⟩

open Reading in
theorem C1_evaluates_standard_reading_witness :
    Parser.parse "1+2*3".toList
        = some (⟨ParserResult.code_t.PARSER_OK, 0⟩, ⟨5, [],
            [⟨['1'], token_t.OPERAND⟩, ⟨['+'], token_t.OPERATOR⟩, ⟨['2'], token_t.OPERAND⟩,
              ⟨['*'], token_t.OPERATOR⟩, ⟨['3'], token_t.OPERAND⟩]⟩)
    ∧ (∃ pf, Evaluator.infix_to_postfix
          [⟨['1'], token_t.OPERAND⟩, ⟨['+'], token_t.OPERATOR⟩, ⟨['2'], token_t.OPERAND⟩,
            ⟨['*'], token_t.OPERATOR⟩, ⟨['3'], token_t.OPERAND⟩] = .ok pf
        ∧ ∀ uninit, Evaluator.evaluate_postfix uninit pf
            = .ok ⟨7, EvaluatorResult.code_t.RESULT_OK⟩)
    ∧ Parser.parse "(1+2)*3".toList
        = some (⟨ParserResult.code_t.PARSER_OK, 0⟩, ⟨7, [],
            [⟨['('], token_t.OPENING_SCOPE⟩, ⟨['1'], token_t.OPERAND⟩,
              ⟨['+'], token_t.OPERATOR⟩, ⟨['2'], token_t.OPERAND⟩,
              ⟨[')'], token_t.CLOSING_SCOPE⟩, ⟨['*'], token_t.OPERATOR⟩,
              ⟨['3'], token_t.OPERAND⟩]⟩)
    ∧ (∃ pf, Evaluator.infix_to_postfix
          [⟨['('], token_t.OPENING_SCOPE⟩, ⟨['1'], token_t.OPERAND⟩,
            ⟨['+'], token_t.OPERATOR⟩, ⟨['2'], token_t.OPERAND⟩,
            ⟨[')'], token_t.CLOSING_SCOPE⟩, ⟨['*'], token_t.OPERATOR⟩,
            ⟨['3'], token_t.OPERAND⟩] = .ok pf
        ∧ ∀ uninit, Evaluator.evaluate_postfix uninit pf
            = .ok ⟨9, EvaluatorResult.code_t.RESULT_OK⟩) :=
  ⟨by decide,
   (C1_evaluates_standard_reading "1+2*3".toList _ _
      (show Parser.parse "1+2*3".toList
        = some (⟨ParserResult.code_t.PARSER_OK, 0⟩, ⟨5, [],
            [⟨['1'], token_t.OPERAND⟩, ⟨['+'], token_t.OPERATOR⟩, ⟨['2'], token_t.OPERAND⟩,
              ⟨['*'], token_t.OPERATOR⟩, ⟨['3'], token_t.OPERAND⟩]⟩) by decide) rfl).2
      (Exp.binary (Exp.literal ['1']) '+' (Exp.binary (Exp.literal ['2']) '*' (Exp.literal ['3'])))
      7 (by decide) rfl (by decide),
   by decide,
   (C1_evaluates_standard_reading "(1+2)*3".toList _ _
      (show Parser.parse "(1+2)*3".toList
        = some (⟨ParserResult.code_t.PARSER_OK, 0⟩, ⟨7, [],
            [⟨['('], token_t.OPENING_SCOPE⟩, ⟨['1'], token_t.OPERAND⟩,
              ⟨['+'], token_t.OPERATOR⟩, ⟨['2'], token_t.OPERAND⟩,
              ⟨[')'], token_t.CLOSING_SCOPE⟩, ⟨['*'], token_t.OPERATOR⟩,
              ⟨['3'], token_t.OPERAND⟩]⟩) by decide) rfl).2
      (Exp.binary (Exp.scope (Exp.binary (Exp.literal ['1']) '+' (Exp.literal ['2']))) '*'
        (Exp.literal ['3']))
      9 (by decide) rfl (by decide)⟩

theorem C2_no_empty_stack_witness :
    Parser.parse "(1+2)*3".toList
        = some (⟨ParserResult.code_t.PARSER_OK, 0⟩, ⟨7, [],
            [⟨['('], token_t.OPENING_SCOPE⟩, ⟨['1'], token_t.OPERAND⟩,
              ⟨['+'], token_t.OPERATOR⟩, ⟨['2'], token_t.OPERAND⟩,
              ⟨[')'], token_t.CLOSING_SCOPE⟩, ⟨['*'], token_t.OPERATOR⟩,
              ⟨['3'], token_t.OPERAND⟩]⟩)
    ∧ ∃ pf v res, Evaluator.infix_to_postfix
          [⟨['('], token_t.OPENING_SCOPE⟩, ⟨['1'], token_t.OPERAND⟩,
            ⟨['+'], token_t.OPERATOR⟩, ⟨['2'], token_t.OPERAND⟩,
            ⟨[')'], token_t.CLOSING_SCOPE⟩, ⟨['*'], token_t.OPERATOR⟩,
            ⟨['3'], token_t.OPERAND⟩] = .ok pf
      ∧ Evaluator.evaluate_loop (fun _ => 0) 0 pf [] ⟨0, EvaluatorResult.code_t.RESULT_OK⟩
          = .ok ([v], res)
      ∧ Evaluator.evaluate_postfix (fun _ => 0) pf = .ok { res with value := v } :=
  ⟨by decide,
   C2_no_empty_stack "(1+2)*3".toList _ _
      (show Parser.parse "(1+2)*3".toList
        = some (⟨ParserResult.code_t.PARSER_OK, 0⟩, ⟨7, [],
            [⟨['('], token_t.OPENING_SCOPE⟩, ⟨['1'], token_t.OPERAND⟩,
              ⟨['+'], token_t.OPERATOR⟩, ⟨['2'], token_t.OPERAND⟩,
              ⟨[')'], token_t.CLOSING_SCOPE⟩, ⟨['*'], token_t.OPERATOR⟩,
              ⟨['3'], token_t.OPERAND⟩]⟩) by decide) rfl (fun _ => 0)⟩

theorem C5_ok_value_in_range_witness :
    Parser.parse "2^3^2".toList
        = some (⟨ParserResult.code_t.PARSER_OK, 0⟩, ⟨5, [],
            [⟨['2'], token_t.OPERAND⟩, ⟨['^'], token_t.OPERATOR⟩, ⟨['3'], token_t.OPERAND⟩,
              ⟨['^'], token_t.OPERATOR⟩, ⟨['2'], token_t.OPERAND⟩]⟩)
    ∧ ∃ pf res, Evaluator.infix_to_postfix
          [⟨['2'], token_t.OPERAND⟩, ⟨['^'], token_t.OPERATOR⟩, ⟨['3'], token_t.OPERAND⟩,
            ⟨['^'], token_t.OPERATOR⟩, ⟨['2'], token_t.OPERAND⟩] = .ok pf
      ∧ Evaluator.evaluate_postfix (fun _ => 0) pf = .ok res
      ∧ (res.type = EvaluatorResult.code_t.RESULT_OK →
          required_min ≤ res.value ∧ res.value ≤ required_max) :=
  ⟨by decide,
   C5_ok_value_in_range "2^3^2".toList _ _
      (show Parser.parse "2^3^2".toList
        = some (⟨ParserResult.code_t.PARSER_OK, 0⟩, ⟨5, [],
            [⟨['2'], token_t.OPERAND⟩, ⟨['^'], token_t.OPERATOR⟩, ⟨['3'], token_t.OPERAND⟩,
              ⟨['^'], token_t.OPERATOR⟩, ⟨['2'], token_t.OPERAND⟩]⟩) by decide) rfl
      (fun _ => 0)⟩

theorem C6_postfix_is_permutation_witness :
    Parser.parse "(7-2)/5".toList
        = some (⟨ParserResult.code_t.PARSER_OK, 0⟩, ⟨7, [],
            [⟨['('], token_t.OPENING_SCOPE⟩, ⟨['7'], token_t.OPERAND⟩,
              ⟨['-'], token_t.OPERATOR⟩, ⟨['2'], token_t.OPERAND⟩,
              ⟨[')'], token_t.CLOSING_SCOPE⟩, ⟨['/'], token_t.OPERATOR⟩,
              ⟨['5'], token_t.OPERAND⟩]⟩)
    ∧ ∃ pf, Evaluator.infix_to_postfix
          [⟨['('], token_t.OPENING_SCOPE⟩, ⟨['7'], token_t.OPERAND⟩,
            ⟨['-'], token_t.OPERATOR⟩, ⟨['2'], token_t.OPERAND⟩,
            ⟨[')'], token_t.CLOSING_SCOPE⟩, ⟨['/'], token_t.OPERATOR⟩,
            ⟨['5'], token_t.OPERAND⟩] = .ok pf
      ∧ (pf.filter (fun t => decide (t.type = token_t.OPERAND ∨ t.type = token_t.OPERATOR))).Perm
          ([⟨['('], token_t.OPENING_SCOPE⟩, ⟨['7'], token_t.OPERAND⟩,
            ⟨['-'], token_t.OPERATOR⟩, ⟨['2'], token_t.OPERAND⟩,
            ⟨[')'], token_t.CLOSING_SCOPE⟩, ⟨['/'], token_t.OPERATOR⟩,
            ⟨['5'], token_t.OPERAND⟩].filter
            (fun t => decide (t.type = token_t.OPERAND ∨ t.type = token_t.OPERATOR)))
      ∧ ∀ t ∈ pf, t.type ≠ token_t.OPENING_SCOPE ∧ t.type ≠ token_t.CLOSING_SCOPE :=
  ⟨by decide,
   C6_postfix_is_permutation "(7-2)/5".toList _ _
      (show Parser.parse "(7-2)/5".toList
        = some (⟨ParserResult.code_t.PARSER_OK, 0⟩, ⟨7, [],
            [⟨['('], token_t.OPENING_SCOPE⟩, ⟨['7'], token_t.OPERAND⟩,
              ⟨['-'], token_t.OPERATOR⟩, ⟨['2'], token_t.OPERAND⟩,
              ⟨[')'], token_t.CLOSING_SCOPE⟩, ⟨['/'], token_t.OPERATOR⟩,
              ⟨['5'], token_t.OPERAND⟩]⟩) by decide) rfl⟩

/-- C4: on the accepted input `30000+30000-1` the first operator application overflows
(`NUMERIC_OVERFLOW`, and `0` is pushed), the second one is in range, and
`evaluate_postfix` returns `RESULT_OK` with the value `-1`: the status of the first
error is overwritten by the later operator application. -/
theorem C4_first_error_status_is_overwritten :
    Parser.parse "30000+30000-1".toList
        = some (⟨ParserResult.code_t.PARSER_OK, 0⟩, ⟨13, [],
            [⟨['3', '0', '0', '0', '0'], token_t.OPERAND⟩, ⟨['+'], token_t.OPERATOR⟩,
              ⟨['3', '0', '0', '0', '0'], token_t.OPERAND⟩, ⟨['-'], token_t.OPERATOR⟩,
              ⟨['1'], token_t.OPERAND⟩]⟩)
    ∧ Evaluator.infix_to_postfix
          [⟨['3', '0', '0', '0', '0'], token_t.OPERAND⟩, ⟨['+'], token_t.OPERATOR⟩,
            ⟨['3', '0', '0', '0', '0'], token_t.OPERAND⟩, ⟨['-'], token_t.OPERATOR⟩,
            ⟨['1'], token_t.OPERAND⟩]
        = .ok [⟨['3', '0', '0', '0', '0'], token_t.OPERAND⟩,
            ⟨['3', '0', '0', '0', '0'], token_t.OPERAND⟩, ⟨['+'], token_t.OPERATOR⟩,
            ⟨['1'], token_t.OPERAND⟩, ⟨['-'], token_t.OPERATOR⟩]
    ∧ (∀ uninit : Nat → Int, Evaluator.evaluate_loop uninit 0
          [⟨['3', '0', '0', '0', '0'], token_t.OPERAND⟩,
            ⟨['3', '0', '0', '0', '0'], token_t.OPERAND⟩, ⟨['+'], token_t.OPERATOR⟩]
          [] ⟨0, EvaluatorResult.code_t.RESULT_OK⟩
        = .ok ([0], ⟨0, EvaluatorResult.code_t.NUMERIC_OVERFLOW⟩))
    ∧ ∀ uninit : Nat → Int, Evaluator.evaluate_postfix uninit
          [⟨['3', '0', '0', '0', '0'], token_t.OPERAND⟩,
            ⟨['3', '0', '0', '0', '0'], token_t.OPERAND⟩, ⟨['+'], token_t.OPERATOR⟩,
            ⟨['1'], token_t.OPERAND⟩, ⟨['-'], token_t.OPERATOR⟩]
        = .ok ⟨-1, EvaluatorResult.code_t.RESULT_OK⟩ :=
  ⟨by decide, rfl, fun _ => rfl, fun _ => rfl⟩

namespace Reading

open token_t Grammar Evaluator EvaluatorResult.code_t

theorem wrap_long_of_bounds {x : Int} (h1 : -4611686018427387904 ≤ x)
    (h2 : x ≤ 4611686018427387904) : wrap_long x = x := by
  unfold wrap_long long_min
  omega

/-- `evaluate_postfix` on two operands followed by one operator. -/
theorem evaluate_postfix_binary (uninit : Nat → Int) (a b op : Token)
    (ha : a.type = OPERAND) (hb : b.type = OPERAND) (hop : op.type = OPERATOR) :
    evaluate_postfix uninit [a, b, op]
      = .ok (execute_operator (uninit 2) (Token2Value (uninit 0) a)
          (Token2Value (uninit 1) b) op) := by
  have h1 : is_operand a = true := by simp [is_operand, ha]
  have h2 : is_operand b = true := by simp [is_operand, hb]
  have h3 : is_operand op = false := by simp [is_operand, hop]
  have h4 : is_operator op = true := by simp [is_operator, hop]
  simp [ evaluate_postfix, evaluate_loop, evaluate_step, h1, h2, h3, h4, stack.top, stack.pop]

theorem execute_operator_of_switch {u a b v : Int} {op : Token}
    (h : operator_switch u a b op = (v, RESULT_OK)) :
    execute_operator u a b op
      = if in_range v then ⟨v, RESULT_OK⟩ else ⟨0, NUMERIC_OVERFLOW⟩ := by
  unfold execute_operator
  rw [h]
  dsimp only
  by_cases hv : in_range v
  · rw [if_pos ⟨hv.2, hv.1⟩, if_pos hv]
  · rw [if_neg (fun hc => hv ⟨hc.2, hc.1⟩), if_neg hv, if_pos (by decide)]

theorem operandText_wellFormed {text : List Char} (h : OperandText text) :
    WellFormed ⟨text, OPERAND⟩ := by
  obtain ⟨hshape, h1, h2⟩ := h
  rcases hshape with h0 | ⟨ds, hds, htxt | htxt⟩
  · exact Or.inl h0
  · have e : literal_text 0 ds = text := by simp [literal_text, htxt]
    have hv := literal_value_literal_text 0 hds
    rw [e] at hv
    exact Or.inr ⟨0, ds, hds, by rw [← hv]; exact h1, by rw [← hv]; exact h2, e.symm⟩
  · have e : literal_text 1 ds = text := by simp [literal_text, htxt]
    have hv := literal_value_literal_text 1 hds
    rw [e] at hv
    exact Or.inr ⟨1, ds, hds, by rw [← hv]; exact h1, by rw [← hv]; exact h2, e.symm⟩

/-- The evaluator reads an operand of the accepted literal range as the number its text
denotes. -/
theorem token2Value_operandText (u : Int) {a : Token} (ha : a.type = OPERAND)
    (h : OperandText a.value) : Token2Value u a = literal_value a.value := by
  obtain ⟨text, ty⟩ := a
  simp only at ha h
  subst ha
  exact (token2Value_wellFormed u (operandText_wellFormed h)).1

end Reading

open Reading in
/-- C8: for operand tokens `a` and `b` whose texts are operands of the accepted literal
range, with the numbers `literal_value a.value` and `literal_value b.value` their texts
denote, `evaluate_postfix [a, b, op]` applies `+`, `-` or `*` as `a op b` (the operand
pushed first is the left one) and returns `RESULT_OK` with that value when it lies in the
inclusive range of the required type, and `NUMERIC_OVERFLOW` (with the value `0`)
otherwise. -/
theorem C8_binary_result_range (a b op : Token) (uninit : Nat → Int)
    (ha : a.type = token_t.OPERAND) (hb : b.type = token_t.OPERAND)
    (hop : op.type = token_t.OPERATOR)
    (hat : OperandText a.value) (hbt : OperandText b.value) :
    (op.value = ['+'] → Evaluator.evaluate_postfix uninit [a, b, op]
      = .ok (if required_min ≤ literal_value a.value + literal_value b.value
              ∧ literal_value a.value + literal_value b.value ≤ required_max
            then ⟨literal_value a.value + literal_value b.value,
              EvaluatorResult.code_t.RESULT_OK⟩
            else ⟨0, EvaluatorResult.code_t.NUMERIC_OVERFLOW⟩))
    ∧ (op.value = ['-'] → Evaluator.evaluate_postfix uninit [a, b, op]
      = .ok (if required_min ≤ literal_value a.value - literal_value b.value
              ∧ literal_value a.value - literal_value b.value ≤ required_max
            then ⟨literal_value a.value - literal_value b.value,
              EvaluatorResult.code_t.RESULT_OK⟩
            else ⟨0, EvaluatorResult.code_t.NUMERIC_OVERFLOW⟩))
    ∧ (op.value = ['*'] → Evaluator.evaluate_postfix uninit [a, b, op]
      = .ok (if required_min ≤ literal_value a.value * literal_value b.value
              ∧ literal_value a.value * literal_value b.value ≤ required_max
            then ⟨literal_value a.value * literal_value b.value,
              EvaluatorResult.code_t.RESULT_OK⟩
            else ⟨0, EvaluatorResult.code_t.NUMERIC_OVERFLOW⟩)) := by
  have ea := token2Value_operandText (uninit 0) ha hat
  have eb := token2Value_operandText (uninit 1) hb hbt
  have hav := hat.2
  have hbv := hbt.2
  unfold required_min required_max at hav hbv
  obtain ⟨ha1, ha2⟩ := hav
  obtain ⟨hb1, hb2⟩ := hbv
  refine ⟨fun hv => ?_, fun hv => ?_, fun hv => ?_⟩
  · rw [evaluate_postfix_binary uninit a b op ha hb hop, ea, eb]
    have hsw : Evaluator.operator_switch (uninit 2) (literal_value a.value)
        (literal_value b.value) op
        = (literal_value a.value + literal_value b.value,
            EvaluatorResult.code_t.RESULT_OK) := by
      unfold Evaluator.operator_switch Evaluator.first_char
      rw [hv, List.headD_cons, if_pos rfl, wrap_long_of_bounds (by omega) (by omega)]
    rw [execute_operator_of_switch hsw]
    rfl
  · rw [evaluate_postfix_binary uninit a b op ha hb hop, ea, eb]
    have hsw : Evaluator.operator_switch (uninit 2) (literal_value a.value)
        (literal_value b.value) op
        = (literal_value a.value - literal_value b.value,
            EvaluatorResult.code_t.RESULT_OK) := by
      unfold Evaluator.operator_switch Evaluator.first_char
      rw [hv, List.headD_cons, if_neg (by decide), if_pos rfl,
        wrap_long_of_bounds (by omega) (by omega)]
    rw [execute_operator_of_switch hsw]
    rfl
  · rw [evaluate_postfix_binary uninit a b op ha hb hop, ea, eb]
    have hsw : Evaluator.operator_switch (uninit 2) (literal_value a.value)
        (literal_value b.value) op
        = (literal_value a.value * literal_value b.value,
            EvaluatorResult.code_t.RESULT_OK) := by
      unfold Evaluator.operator_switch Evaluator.first_char
      have hp1 : -1073741824 ≤ literal_value a.value * literal_value b.value := by
        nlinarith
      have hp2 : literal_value a.value * literal_value b.value ≤ 1073741824 := by
        nlinarith
      rw [hv, List.headD_cons, if_neg (by decide), if_neg (by decide), if_pos rfl,
        wrap_long_of_bounds (by omega) (by omega)]
    rw [execute_operator_of_switch hsw]
    rfl

theorem C8_binary_result_range_witness :
    Evaluator.evaluate_postfix (fun _ => 9)
        [⟨['3', '2', '7', '6', '6'], token_t.OPERAND⟩, ⟨['1'], token_t.OPERAND⟩,
          ⟨['+'], token_t.OPERATOR⟩]
      = .ok ⟨32767, EvaluatorResult.code_t.RESULT_OK⟩
    ∧ Evaluator.evaluate_postfix (fun _ => 9)
        [⟨['-', '3', '2', '7', '6', '7'], token_t.OPERAND⟩, ⟨['1'], token_t.OPERAND⟩,
          ⟨['-'], token_t.OPERATOR⟩]
      = .ok ⟨-32768, EvaluatorResult.code_t.RESULT_OK⟩
    ∧ Evaluator.evaluate_postfix (fun _ => 9)
        [⟨['1', '8', '2'], token_t.OPERAND⟩, ⟨['1', '8', '1'], token_t.OPERAND⟩,
          ⟨['*'], token_t.OPERATOR⟩]
      = .ok ⟨0, EvaluatorResult.code_t.NUMERIC_OVERFLOW⟩ :=
  ⟨(C8_binary_result_range ⟨['3', '2', '7', '6', '6'], token_t.OPERAND⟩
      ⟨['1'], token_t.OPERAND⟩ ⟨['+'], token_t.OPERATOR⟩ (fun _ => 9) rfl rfl rfl
      ⟨Or.inr ⟨['3', '2', '7', '6', '6'], ⟨'3', ['2', '7', '6', '6'], rfl, by decide,
        by decide⟩, Or.inl rfl⟩, by decide, by decide⟩
      ⟨Or.inr ⟨['1'], ⟨'1', [], rfl, by decide, by decide⟩, Or.inl rfl⟩, by decide,
        by decide⟩).1 rfl,
   (C8_binary_result_range ⟨['-', '3', '2', '7', '6', '7'], token_t.OPERAND⟩
      ⟨['1'], token_t.OPERAND⟩ ⟨['-'], token_t.OPERATOR⟩ (fun _ => 9) rfl rfl rfl
      ⟨Or.inr ⟨['3', '2', '7', '6', '7'], ⟨'3', ['2', '7', '6', '7'], rfl, by decide,
        by decide⟩, Or.inr rfl⟩, by decide, by decide⟩
      ⟨Or.inr ⟨['1'], ⟨'1', [], rfl, by decide, by decide⟩, Or.inl rfl⟩, by decide,
        by decide⟩).2.1 rfl,
   (C8_binary_result_range ⟨['1', '8', '2'], token_t.OPERAND⟩
      ⟨['1', '8', '1'], token_t.OPERAND⟩ ⟨['*'], token_t.OPERATOR⟩ (fun _ => 9) rfl rfl rfl
      ⟨Or.inr ⟨['1', '8', '2'], ⟨'1', ['8', '2'], rfl, by decide, by decide⟩, Or.inl rfl⟩,
        by decide, by decide⟩
      ⟨Or.inr ⟨['1', '8', '1'], ⟨'1', ['8', '1'], rfl, by decide, by decide⟩, Or.inl rfl⟩,
        by decide, by decide⟩).2.2 rfl⟩

namespace Reading

open token_t Grammar Evaluator EvaluatorResult.code_t

theorem evaluate_loop_append (uninit : Nat → Int) (xs : List Token) :
    ∀ (i : Nat) (ys : List Token) (st st1 : stack Int) (res res1 : EvaluatorResult),
    evaluate_loop uninit i xs st res = .ok (st1, res1) →
    evaluate_loop uninit i (xs ++ ys) st res
      = evaluate_loop uninit (i + xs.length) ys st1 res1 := by
  induction xs with
  | nil =>
    intro i ys st st1 res res1 h
    rw [evaluate_loop] at h
    cases h
    rfl
  | cons x xs ih =>
    intro i ys st st1 res res1 h
    rw [evaluate_loop] at h
    rw [List.cons_append, evaluate_loop]
    cases hs : evaluate_step (uninit i) x st res with
    | error f => rw [hs] at h; cases h
    | ok p =>
      obtain ⟨st2, res2⟩ := p
      rw [hs] at h
      dsimp only at h ⊢
      rw [ih (i + 1) ys st2 st1 res2 res1 h, List.length_cons]
      congr 1
      omega

/-- The loop of `evaluate_postfix` over operands only: the status is kept and the stack
grows. -/
theorem evaluate_loop_operands (uninit : Nat → Int) (xs : List Token) :
    ∀ (i : Nat) (v : Int) (st : stack Int) (res : EvaluatorResult),
    (∀ t ∈ xs, t.type = OPERAND) →
    ∃ w st1, evaluate_loop uninit i xs (v :: st) res = .ok (w :: st1, res) := by
  induction xs with
  | nil =>
    intro i v st res _
    exact ⟨v, st, rfl⟩
  | cons x xs ih =>
    intro i v st res hx
    have h1 : is_operand x = true := by simp [is_operand, hx x (List.mem_cons_self _ _)]
    rw [evaluate_loop]
    simp only [evaluate_step, h1, if_true]
    exact ih (i + 1) _ _ res (fun t ht => hx t (List.mem_cons_of_mem _ ht))

/-- A division or a remainder by zero leaves `result_aux` as it was and sets the status. -/
theorem operator_switch_zero (u term1 : Int) (s : Token)
    (hdiv : s.value = ['/'] ∨ s.value = ['%']) :
    operator_switch u term1 0 s = (u, DIVISION_BY_ZERO) := by
  unfold operator_switch first_char
  rcases hdiv with h | h
  · rw [h, List.headD_cons, if_neg (by decide), if_neg (by decide), if_neg (by decide),
      if_neg (by decide), if_pos rfl, if_pos rfl]
  · rw [h, List.headD_cons, if_neg (by decide), if_neg (by decide), if_neg (by decide),
      if_neg (by decide), if_neg (by decide), if_pos rfl, if_pos rfl]

theorem execute_operator_zero (u term1 : Int) (s : Token)
    (hdiv : s.value = ['/'] ∨ s.value = ['%']) :
    (execute_operator u term1 0 s).type = DIVISION_BY_ZERO := by
  unfold execute_operator
  rw [operator_switch_zero u term1 s hdiv]
  dsimp only
  split_ifs with h1 h2
  · rfl
  · exact absurd rfl h2
  · rfl

theorem evaluate_step_of_operator (u : Int) (s : Token) (a b : Int) (st : stack Int)
    (res : EvaluatorResult) (hs : s.type = OPERATOR) :
    evaluate_step u s (b :: a :: st) res
      = .ok ((execute_operator u a b s).value :: st, execute_operator u a b s) := by
  simp [evaluate_step, is_operand, is_operator, stack.top, stack.pop, hs]

end Reading

open Reading in
/-- C9: in the postfix tokens of an accepted input, when the last operator is `/` or `%`
and the value on top of the stack at its application (`term2`) is `0`, the `switch` of
`execute_operator` computes no quotient or remainder (`result_aux` is left as it was),
and `evaluate_postfix` returns with the status `DIVISION_BY_ZERO`. -/
theorem C9_division_by_zero (e : List Char) (r : ParserResult) (q : Parser)
    (h : Parser.parse e = some (r, q)) (hr : r.type = ParserResult.code_t.PARSER_OK)
    (uninit : Nat → Int) (pf pre post : List Token) (s : Token) (st : stack Int)
    (term1 : Int) (res : EvaluatorResult)
    (hpf : Evaluator.infix_to_postfix q.token_list = .ok pf)
    (hsplit : pf = pre ++ s :: post) (hs : s.type = token_t.OPERATOR)
    (hdiv : s.value = ['/'] ∨ s.value = ['%'])
    (hlast : ∀ t ∈ post, t.type ≠ token_t.OPERATOR)
    (hpre : Evaluator.evaluate_loop uninit 0 pre [] ⟨0, EvaluatorResult.code_t.RESULT_OK⟩
      = .ok (0 :: term1 :: st, res)) :
    Evaluator.operator_switch (uninit pre.length) term1 0 s
        = (uninit pre.length, EvaluatorResult.code_t.DIVISION_BY_ZERO)
    ∧ ∃ v, Evaluator.evaluate_postfix uninit pf
        = .ok ⟨v, EvaluatorResult.code_t.DIVISION_BY_ZERO⟩ := by
  refine ⟨operator_switch_zero _ term1 s hdiv, ?_⟩
  obtain ⟨⟨T, hT, htok⟩, _⟩ := parse_ok_reading h hr
  rw [← htok, infix_to_postfix_tokens T hT] at hpf
  have hpfT : pf = T.post := by
    simp only [Except.ok.injEq] at hpf
    exact hpf.symm
  have hpost : ∀ t ∈ post, t.type = token_t.OPERAND := by
    intro t ht
    have hmem : t ∈ T.post := by
      rw [← hpfT, hsplit]
      simp [ht]
    rcases post_type T t hmem with h1 | h1
    · exact h1
    · exact absurd h1 (hlast t ht)
  obtain ⟨w, st1, hloop⟩ := evaluate_loop_operands uninit post (0 + pre.length + 1)
    (Evaluator.execute_operator (uninit (0 + pre.length)) term1 0 s).value st
    (Evaluator.execute_operator (uninit (0 + pre.length)) term1 0 s) hpost
  refine ⟨w, ?_⟩
  unfold Evaluator.evaluate_postfix
  rw [hsplit, evaluate_loop_append uninit pre 0 (s :: post) _ _ _ _ hpre,
    evaluate_loop_cons uninit _ s post _ _ _ _
      (evaluate_step_of_operator (uninit (0 + pre.length)) s term1 0 st res hs),
    hloop]
  simp only [stack.top]
  rw [← execute_operator_zero (uninit (0 + pre.length)) term1 s hdiv]

theorem C9_division_by_zero_witness :
    Parser.parse "1/0".toList
        = some (⟨ParserResult.code_t.PARSER_OK, 0⟩, ⟨3, [],
            [⟨['1'], token_t.OPERAND⟩, ⟨['/'], token_t.OPERATOR⟩, ⟨['0'], token_t.OPERAND⟩]⟩)
    ∧ Evaluator.operator_switch 77 1 0 ⟨['/'], token_t.OPERATOR⟩
        = (77, EvaluatorResult.code_t.DIVISION_BY_ZERO)
    ∧ ∃ v, Evaluator.evaluate_postfix (fun _ => 77)
          [⟨['1'], token_t.OPERAND⟩, ⟨['0'], token_t.OPERAND⟩, ⟨['/'], token_t.OPERATOR⟩]
        = .ok ⟨v, EvaluatorResult.code_t.DIVISION_BY_ZERO⟩ :=
  ⟨by decide,
   C9_division_by_zero "1/0".toList _ _
      (show Parser.parse "1/0".toList
        = some (⟨ParserResult.code_t.PARSER_OK, 0⟩, ⟨3, [],
            [⟨['1'], token_t.OPERAND⟩, ⟨['/'], token_t.OPERATOR⟩,
              ⟨['0'], token_t.OPERAND⟩]⟩) by decide) rfl
      (fun _ => 77)
      [⟨['1'], token_t.OPERAND⟩, ⟨['0'], token_t.OPERAND⟩, ⟨['/'], token_t.OPERATOR⟩]
      [⟨['1'], token_t.OPERAND⟩, ⟨['0'], token_t.OPERAND⟩] []
      ⟨['/'], token_t.OPERATOR⟩ [] 1 ⟨0, EvaluatorResult.code_t.RESULT_OK⟩
      rfl rfl rfl (Or.inl rfl) (by simp) rfl⟩

namespace Parser

open terminal_symbol_t ParserResult.code_t token_t Grammar

theorem concat_values_append (ts us : List Token) :
    concat_values (ts ++ us) = concat_values ts ++ concat_values us := by
  simp [concat_values]

theorem concat_values_cons (t : Token) (ts : List Token) :
    concat_values (t :: ts) = t.value ++ concat_values ts := by
  simp [concat_values]

theorem signed_value_parity (k j : Nat) (ds : List Char) (h : k % 2 = j % 2) :
    signed_value k ds = signed_value j ds := by
  unfold signed_value
  rw [h]

theorem literal_text_parity (k j : Nat) (ds : List Char) (h : k % 2 = j % 2) :
    literal_text k ds = literal_text j ds := by
  unfold literal_text
  rw [h]

/-- The values of the tokens of a derivation, written one after the other, derive the
same tokens. -/
theorem derives_concat_values {lvl : Level} {cs : List Char} {ts : List Token}
    (h : Derives lvl cs ts) : Derives lvl (concat_values ts) ts := by
  induction h with
  | zero w hw =>
    have := Derives.zero [] blank_nil
    simpa [concat_values] using this
  | literal k ms w ds hms hw hds h1 h2 =>
    by_cases hk : k % 2 = 1
    · have hp : k % 2 = 1 % 2 := by omega
      have := Derives.literal 1 ([] ++ '-' :: []) [] ds
        (Minuses.succ 0 [] [] blank_nil Minuses.zero) blank_nil hds
        (by rw [← signed_value_parity k 1 ds hp]; exact h1)
        (by rw [← signed_value_parity k 1 ds hp]; exact h2)
      rw [← literal_text_parity k 1 ds hp] at this
      have htxt : concat_values [⟨literal_text k ds, OPERAND⟩] = '-' :: ds := by
        simp [concat_values, literal_text, hk]
      rw [htxt]
      simpa using this
    · have hp : k % 2 = 0 % 2 := by omega
      have := Derives.literal 0 [] [] ds Minuses.zero blank_nil hds
        (by rw [← signed_value_parity k 0 ds hp]; exact h1)
        (by rw [← signed_value_parity k 0 ds hp]; exact h2)
      rw [← literal_text_parity k 0 ds hp] at this
      have htxt : concat_values [⟨literal_text k ds, OPERAND⟩] = ds := by
        simp [concat_values, literal_text, hk]
      rw [htxt]
      simpa using this
  | scope w e w1 ts hw _ hw1 ih =>
    have := Derives.scope [] (concat_values ts) [] ts blank_nil ih blank_nil
    rw [concat_values_cons, concat_values_append]
    simpa [concat_values] using this
  | single t ts _ ih => exact Derives.single _ _ ih
  | binary e w t c ts us _ hw hc _ ihe iht =>
    have := Derives.binary (concat_values ts) [] (concat_values us) c ts us ihe blank_nil hc iht
    rw [concat_values_append, concat_values_cons]
    simpa using this

end Parser

/-- C7: for every accepted input, the text made of the values of its tokens written one
after the other is accepted too, and gives exactly the same token list. -/
theorem C7_reparse_token_values (e : List Char) (r : ParserResult) (q : Parser)
    (h : Parser.parse e = some (r, q)) (hr : r.type = ParserResult.code_t.PARSER_OK) :
    ∃ r1 q1, Parser.parse (concat_values q.token_list) = some (r1, q1)
      ∧ r1.type = ParserResult.code_t.PARSER_OK ∧ q1.token_list = q.token_list := by
  obtain ⟨cs, ts, w, hd, _, _, htok, _⟩ := Parser.parse_sound h hr
  obtain ⟨col, hc⟩ := Parser.parse_complete (Parser.derives_concat_values hd) Parser.blank_nil
  rw [List.append_nil] at hc
  rw [htok]
  exact ⟨_, _, hc, rfl, rfl⟩

theorem C7_reparse_token_values_witness :
    Parser.parse " - - 12 * ( 3 - --4 )".toList
        = some (⟨ParserResult.code_t.PARSER_OK, 2⟩, ⟨21, [],
            [⟨['1', '2'], token_t.OPERAND⟩, ⟨['*'], token_t.OPERATOR⟩,
              ⟨['('], token_t.OPENING_SCOPE⟩, ⟨['3'], token_t.OPERAND⟩,
              ⟨['-'], token_t.OPERATOR⟩, ⟨['4'], token_t.OPERAND⟩,
              ⟨[')'], token_t.CLOSING_SCOPE⟩]⟩)
    ∧ ∃ r1 q1, Parser.parse "12*(3-4)".toList = some (r1, q1)
      ∧ r1.type = ParserResult.code_t.PARSER_OK
      ∧ q1.token_list = [⟨['1', '2'], token_t.OPERAND⟩, ⟨['*'], token_t.OPERATOR⟩,
              ⟨['('], token_t.OPENING_SCOPE⟩, ⟨['3'], token_t.OPERAND⟩,
              ⟨['-'], token_t.OPERATOR⟩, ⟨['4'], token_t.OPERAND⟩,
              ⟨[')'], token_t.CLOSING_SCOPE⟩] :=
  ⟨by decide,
   C7_reparse_token_values " - - 12 * ( 3 - --4 )".toList _ _
      (show Parser.parse " - - 12 * ( 3 - --4 )".toList
        = some (⟨ParserResult.code_t.PARSER_OK, 2⟩, ⟨21, [],
            [⟨['1', '2'], token_t.OPERAND⟩, ⟨['*'], token_t.OPERATOR⟩,
              ⟨['('], token_t.OPENING_SCOPE⟩, ⟨['3'], token_t.OPERAND⟩,
              ⟨['-'], token_t.OPERATOR⟩, ⟨['4'], token_t.OPERAND⟩,
              ⟨[')'], token_t.CLOSING_SCOPE⟩]⟩) by decide) rfl⟩

namespace Parser

open terminal_symbol_t ParserResult.code_t token_t Grammar

theorem head_skip_ws_ne (p : Parser) (c : Char) (hc : ¬ (c = ' ' ∨ c = '\t'))
    (h : ∀ x ∈ (skip_ws p).it_rest.head?, x ≠ c) : ∀ x ∈ p.it_rest.head?, x ≠ c := by
  intro x hx hxc
  subst hxc
  have hnb : NoBlankHead p.it_rest := by
    intro y hy
    simp only [Option.mem_def] at hx hy
    rw [hx] at hy
    cases hy
    exact hc
  rw [skip_ws_of_noBlankHead p hnb] at h
  exact h x hx rfl

/-- `integer` skips the blanks itself, unless a zero follows them. -/
theorem integer_skip_ws (fuel : Nat) (p : Parser)
    (h : ∀ x ∈ (skip_ws p).it_rest.head?, x ≠ '0') :
    integer fuel (skip_ws p) = integer fuel p := by
  have h1 : accept (skip_ws p) TS_ZERO = (false, skip_ws p) :=
    accept_of_head_ne _ _ (fun x hx hl => h x hx ((lexer_eq_zero x).mp hl))
  have h2 : accept p TS_ZERO = (false, p) :=
    accept_of_head_ne _ _ (fun x hx hl =>
      head_skip_ws_ne p '0' (by decide) h x hx ((lexer_eq_zero x).mp hl))
  unfold integer
  rw [h1, h2]
  dsimp only
  rw [minus_loop_skip_ws]

/-- Where no opening scope follows the blanks, `term` is `integer`. -/
theorem term_eq_integer (fuel : Nat) (p : Parser)
    (h : ∀ x ∈ (skip_ws p).it_rest.head?, x ≠ '(') :
    term (fuel + 1) p = integer fuel (skip_ws p) := by
  have h1 : expect (skip_ws p) TS_OPENING_SCOPE = (false, skip_ws p) := by
    unfold expect
    rw [skip_ws_idem]
    exact accept_of_head_ne _ _ (fun x hx hl => h x hx ((lexer_eq_opening x).mp hl))
  rw [term_unfold, h1]

/-- On the text of a literal, `term` is `integer`. -/
theorem term_literal {k : Nat} {ms w ds : List Char} (fuel o : Nat) (s : List Char)
    (t : List Token) (hms : Minuses k ms) (hw : Blank w) (hds : Natural ds) :
    term (fuel + 1) ⟨o, ms ++ (w ++ (ds ++ s)), t⟩
      = integer fuel ⟨o, ms ++ (w ++ (ds ++ s)), t⟩ := by
  obtain ⟨w0, c, r, hw0, heq, hc⟩ := literal_head s hms hw hds
  have hcb : ¬ (c = ' ' ∨ c = '\t') := by
    rcases hc with rfl | hc
    · decide
    · exact nonZeroDigit_not_blank hc
  have hsk : skip_ws ⟨o, ms ++ (w ++ (ds ++ s)), t⟩ = ⟨o + w0.length, c :: r, t⟩ := by
    rw [heq]
    exact skip_ws_of_blank o w0 (c :: r) t hw0 (noBlankHead_cons r hcb)
  have hhead : ∀ (y : Char), (∀ d, NonZeroDigit d → d ≠ y) → '-' ≠ y →
      ∀ x ∈ (skip_ws ⟨o, ms ++ (w ++ (ds ++ s)), t⟩).it_rest.head?, x ≠ y := by
    intro y hy1 hy2 x hx
    rw [hsk] at hx
    simp only [List.head?_cons, Option.mem_def, Option.some.injEq] at hx
    subst hx
    rcases hc with rfl | hc
    · exact hy2
    · exact hy1 _ hc
  rw [term_eq_integer fuel _ (hhead '(' (fun d hd => by
      rcases hd with rfl | rfl | rfl | rfl | rfl | rfl | rfl | rfl | rfl <;> decide)
      (by decide)),
    integer_skip_ws fuel _ (hhead '0' (fun d hd => by
      rcases hd with rfl | rfl | rfl | rfl | rfl | rfl | rfl | rfl | rfl <;> decide)
      (by decide))]

/-- `integer` on the text of a literal whose value is out of range: no token is
appended, and the column is the one of the first digit. -/
theorem integer_out_of_range {k : Nat} {ms w ds : List Char} (fuel o : Nat)
    (s : List Char) (t : List Token) (hms : Minuses k ms) (hw : Blank w) (hds : Natural ds)
    (hs : NoDigitHead s)
    (hout : ¬ (required_min < signed_value k ds ∧ signed_value k ds < required_max))
    (hk : k + 1 ≤ fuel) (hd : ds.length ≤ fuel) :
    integer fuel ⟨o, ms ++ (w ++ (ds ++ s)), t⟩
      = some (⟨INTEGER_OUT_OF_RANGE, o + ms.length + w.length⟩,
          ⟨o + ms.length + w.length + ds.length, s, t⟩) := by
  obtain ⟨w0, c, r, hw0, heq, hc⟩ := literal_head s hms hw hds
  have hz : accept ⟨o, ms ++ (w ++ (ds ++ s)), t⟩ TS_ZERO
      = (false, ⟨o, ms ++ (w ++ (ds ++ s)), t⟩) := by
    apply accept_of_head_ne
    intro x hx hl
    rw [(lexer_eq_zero x).mp hl] at hx
    simp only [heq] at hx
    cases w0 with
    | nil =>
      simp only [List.nil_append, List.head?_cons, Option.mem_def, Option.some.injEq] at hx
      subst hx
      rcases hc with hc | hc
      · exact absurd hc (by decide)
      · exact absurd hc (by decide)
    | cons b w0 =>
      simp only [List.cons_append, List.head?_cons, Option.mem_def, Option.some.injEq] at hx
      subst hx
      exact absurd (hw0 _ (List.mem_cons_self _ _)) (by decide)
  have hnb : NoBlankHead (ds ++ s) := by
    obtain ⟨d, r1, rfl, hd1, _⟩ := hds
    exact noBlankHead_cons _ (nonZeroDigit_not_blank hd1)
  have hnm : ∀ x ∈ (ds ++ s).head?, x ≠ '-' := by
    obtain ⟨d, r1, rfl, hd1, _⟩ := hds
    intro x hx
    simp only [List.cons_append, List.head?_cons, Option.mem_def, Option.some.injEq] at hx
    subst hx
    rcases hd1 with rfl | rfl | rfl | rfl | rfl | rfl | rfl | rfl | rfl <;> decide
  have hm := minus_loop_mono_le hk (minus_loop_complete hms o w (ds ++ s) t 0 hw hnb hnm)
  have hn := natural_number_mono_le hd
    (natural_number_complete (o + ms.length + w.length) s t hds hs)
  unfold integer
  rw [hz]
  dsimp only
  rw [hm]
  dsimp only
  rw [hn]
  dsimp only
  rw [if_pos rfl]
  have htake : List.take (o + ms.length + w.length + ds.length - (o + ms.length + w.length))
      (ds ++ s) = ds := by
    rw [show o + ms.length + w.length + ds.length - (o + ms.length + w.length) = ds.length
      from by omega]
    simp
  rw [htake]
  have hrc := (range_check_literal (0 + k) hds).mpr (by simpa using hout)
  unfold literal_text at hrc
  rw [if_pos hrc]

theorem minuses_replicate (k : Nat) : Minuses k (List.replicate k '-') := by
  induction k with
  | zero => exact Minuses.zero
  | succ n ih =>
    have := Minuses.succ n [] (List.replicate n '-') blank_nil ih
    simpa [List.replicate_succ] using this

theorem not_blank_of_derives {lvl : Level} {cs : List Char} {ts : List Token}
    (h : Derives lvl cs ts) (s : List Char) : ¬ Blank (cs ++ s) := by
  induction h generalizing s with
  | zero w hw =>
    intro hb
    exact absurd (hb '0' (by simp)) (by decide)
  | literal k ms w ds hms hw hds h1 h2 =>
    obtain ⟨d, r, rfl, hd, _⟩ := hds
    intro hb
    exact nonZeroDigit_not_blank hd (hb d (by simp))
  | scope w e w1 ts hw _ hw1 ih =>
    intro hb
    exact absurd (hb '(' (by simp)) (by decide)
  | single t ts _ ih => exact ih s
  | binary e w t c ts us _ hw hc _ ihe iht =>
    intro hb
    rw [List.append_assoc] at hb
    exact ihe _ hb

/-- `parse` returns what `expression` returns on the input when that is an error. -/
theorem parse_of_expression {e : List Char} {n : Nat} {res : ParserResult} {p1 : Parser}
    (hne : ¬ Blank e) (h : expression n ⟨0, e, []⟩ = some (res, p1))
    (hres : res.type ≠ PARSER_OK) : parse e = some (res, p1) := by
  obtain ⟨r, q, hp⟩ := parse_total e
  rw [hp]
  rcases parse_from_inv hp with ⟨hend, _, _⟩ | ⟨_, res1, p2, he, hcase⟩
  · exfalso
    obtain ⟨w, hw, hc, _⟩ := skip_ws_consumes ⟨0, e, []⟩
    have := hc.1
    rw [hend, List.append_nil] at this
    simp only at this
    rw [this] at hne
    exact hne hw
  · rw [expression_skip_ws] at he
    have hag := expression_fuel_agree he h
    simp only [Prod.mk.injEq] at hag
    obtain ⟨rfl, rfl⟩ := hag
    rcases hcase with ⟨_, rfl, rfl⟩ | ⟨hok, _⟩ | ⟨hok, _⟩
    · rfl
    · exact absurd hok hres
    · exact absurd hok hres

theorem expression_loop_error (fuel : Nat) (res : ParserResult) (p : Parser)
    (hres : res.type ≠ PARSER_OK) : expression_loop (fuel + 1) res p = some (res, p) := by
  rw [expression_loop_unfold, if_neg hres]

theorem term_fuel_pos {n : Nat} {p : Parser} {X : ParserResult × Parser}
    (h : term n p = some X) : ∃ m, n = m + 1 := by
  cases n with
  | zero => rw [term_zero] at h; cases h
  | succ m => exact ⟨m, rfl⟩

/-- An `INTEGER_OUT_OF_RANGE` found where a term or an expression is expected is what
`expression` returns on the whole input. -/
theorem context_propagates {lvl : Level} {pre : List Char} {ts : List Token}
    (h : Context lvl pre ts) :
    ∀ (rest : List Char) (X : ParserResult × Parser), X.1.type = INTEGER_OUT_OF_RANGE →
    ((lvl = Level.term ∧ ∃ n, term n ⟨pre.length, rest, ts⟩ = some X)
      ∨ (lvl = Level.expr ∧ ∃ n, expression n ⟨pre.length, rest, ts⟩ = some X)) →
    ∃ n, expression n ⟨0, pre ++ rest, []⟩ = some X := by
  induction h with
  | start =>
    intro rest X _ hrun
    rcases hrun with ⟨hl, _⟩ | ⟨_, n, hn⟩
    · cases hl
    · exact ⟨n, hn⟩
  | first pre ts _ ih =>
    intro rest X hX hrun
    rcases hrun with ⟨_, n, hn⟩ | ⟨hl, _⟩
    · refine ih rest X hX (Or.inr ⟨rfl, n + 1, ?_⟩)
      obtain ⟨m, rfl⟩ := term_fuel_pos hn
      rw [expression_unfold, term_skip_ws, hn]
      exact expression_loop_error _ _ _ (by rw [hX]; decide)
    · cases hl
  | operator pre e w c ts us _ hd hw hc ih =>
    intro rest X hX hrun
    rcases hrun with ⟨_, n, hn⟩ | ⟨hl, _⟩
    · obtain ⟨m, rfl⟩ := term_fuel_pos hn
      obtain ⟨col, hcol⟩ := (parser_complete hd).2 rfl pre.length (w ++ c :: rest) ts
        (noDigitHead_blank_cons _ hw (mt digit_not_operator (not_not.mpr hc)))
      have hloop : expression_loop (m + 1 + 1) ⟨PARSER_OK, col⟩
          ⟨pre.length + e.length, w ++ c :: rest, ts ++ us⟩ = some X := by
        rw [expression_loop_unfold, if_pos rfl, expect_operator_some _ w c _ _ hw hc]
        dsimp only
        have hst : (⟨pre.length + e.length + w.length + 1, rest,
            ts ++ us ++ [⟨[c], OPERATOR⟩]⟩ : Parser)
            = ⟨(pre ++ (e ++ (w ++ [c]))).length, rest, ts ++ (us ++ [⟨[c], OPERATOR⟩])⟩ := by
          simp only [List.length_append, List.length_singleton, List.append_assoc,
            Parser.mk.injEq, and_true]
          omega
        rw [hst, hn]
        dsimp only
        rw [if_neg (by rw [hX]; simp)]
        exact expression_loop_error _ _ _ (by rw [hX]; decide)
      obtain ⟨n1, hn1⟩ := hcol X _ hloop
      have := ih (e ++ (w ++ c :: rest)) X hX (Or.inr ⟨rfl, n1, hn1⟩)
      simpa using this
    · cases hl
  | scope pre w ts _ hw ih =>
    intro rest X hX hrun
    rcases hrun with ⟨hl, _⟩ | ⟨_, n, hn⟩
    · cases hl
    · have hterm : term (n + 1) ⟨pre.length, w ++ '(' :: rest, ts⟩ = some X := by
        rw [term_unfold, expect_skip_ws,
          expect_of_blank _ w '(' rest ts TS_OPENING_SCOPE hw (by decide) (by decide)]
        dsimp only
        have hst : (⟨pre.length + w.length + 1, rest, ts ++ [⟨['('], OPENING_SCOPE⟩]⟩ : Parser)
            = ⟨(pre ++ (w ++ ['('])).length, rest, ts ++ [⟨['('], OPENING_SCOPE⟩]⟩ := by
          simp only [List.length_append, List.length_singleton, Parser.mk.injEq, and_true]
          omega
        rw [hst, hn]
        dsimp only
        rw [if_neg (by rw [hX]; decide)]
      have := ih (w ++ '(' :: rest) X hX (Or.inl ⟨rfl, n + 1, hterm⟩)
      simpa using this

/-- `term` on blanks, `k` minus signs and a natural number whose signed value is out of
range. -/
theorem term_out_of_range (k o : Nat) (w ds s : List Char) (t : List Token) (hw : Blank w)
    (hds : Natural ds) (hs : NoDigitHead s)
    (hout : ¬ (required_min < signed_value k ds ∧ signed_value k ds < required_max)) :
    term (k + 1 + ds.length + 1) ⟨o, w ++ (List.replicate k '-' ++ (ds ++ s)), t⟩
      = some (⟨INTEGER_OUT_OF_RANGE, o + w.length + k⟩,
          ⟨o + w.length + k + ds.length, s, t⟩) := by
  have h1 := term_literal (k + 1 + ds.length) (o + w.length) s t (minuses_replicate k)
    blank_nil hds
  have h2 := integer_out_of_range (k + 1 + ds.length) (o + w.length) s t
    (minuses_replicate k) blank_nil hds hs hout (by omega) (by omega)
  simp only [List.nil_append, List.length_replicate, List.length_nil, add_zero] at h1 h2
  have hnb : NoBlankHead (List.replicate k '-' ++ (ds ++ s)) := by
    obtain ⟨d, r, rfl, hd, _⟩ := hds
    cases k with
    | zero => exact noBlankHead_cons _ (nonZeroDigit_not_blank hd)
    | succ j => exact noBlankHead_cons _ (by decide)
  rw [← term_skip_ws, skip_ws_of_blank o w _ t hw hnb, h1, h2]

end Parser

open Parser Grammar in
/-- C10: wherever a term is expected (at the start of the input, right after an operator
or right after an opening parenthesis, at any depth), a literal of `k` minus signs and a
natural number whose signed value is not strictly inside the required range makes `parse`
return `INTEGER_OUT_OF_RANGE`, with no operand token appended for it and also when
nothing follows the literal; in particular at the start of the input and right after an
operator that follows an accepted input. `32766` and `-32767` are accepted, `32767` and
`-32768` are not. -/
theorem C10_integer_out_of_range :
    (∀ (pre : List Char) (ts : List Token) (w : List Char) (k : Nat) (ds s : List Char),
      Context Level.term pre ts → Blank w → Natural ds → NoDigitHead s →
      (required_max ≤ signed_value k ds ∨ signed_value k ds ≤ required_min) →
      ∃ col q, parse (pre ++ (w ++ (List.replicate k '-' ++ (ds ++ s))))
          = some (⟨ParserResult.code_t.INTEGER_OUT_OF_RANGE, col⟩, q)
        ∧ q.token_list = ts)
    ∧ (∀ (k : Nat) (ds s : List Char), Natural ds → NoDigitHead s →
      (required_max ≤ signed_value k ds ∨ signed_value k ds ≤ required_min) →
      ∃ col q, parse (List.replicate k '-' ++ (ds ++ s))
          = some (⟨ParserResult.code_t.INTEGER_OUT_OF_RANGE, col⟩, q)
        ∧ q.token_list = [])
    ∧ (∀ (e : List Char) (r : ParserResult) (q : Parser) (c : Char) (k : Nat)
        (ds s : List Char), parse e = some (r, q) → r.type = ParserResult.code_t.PARSER_OK →
      OperatorSymbol c → Natural ds → NoDigitHead s →
      (required_max ≤ signed_value k ds ∨ signed_value k ds ≤ required_min) →
      ∃ col q1, parse (e ++ c :: (List.replicate k '-' ++ (ds ++ s)))
          = some (⟨ParserResult.code_t.INTEGER_OUT_OF_RANGE, col⟩, q1)
        ∧ q1.token_list = q.token_list ++ [⟨[c], token_t.OPERATOR⟩])
    ∧ (parse "32766".toList).map (fun x => x.1.type) = some ParserResult.code_t.PARSER_OK
    ∧ (parse "-32767".toList).map (fun x => x.1.type) = some ParserResult.code_t.PARSER_OK
    ∧ (parse "32767".toList).map (fun x => x.1.type)
        = some ParserResult.code_t.INTEGER_OUT_OF_RANGE
    ∧ (parse "-32768".toList).map (fun x => x.1.type)
        = some ParserResult.code_t.INTEGER_OUT_OF_RANGE := by
  have general : ∀ (pre : List Char) (ts : List Token) (w : List Char) (k : Nat)
      (ds s : List Char), Context Level.term pre ts → Blank w → Natural ds → NoDigitHead s →
      (required_max ≤ signed_value k ds ∨ signed_value k ds ≤ required_min) →
      ∃ col q, parse (pre ++ (w ++ (List.replicate k '-' ++ (ds ++ s))))
          = some (⟨ParserResult.code_t.INTEGER_OUT_OF_RANGE, col⟩, q)
        ∧ q.token_list = ts := by
    intro pre ts w k ds s hctx hw hds hs hout
    have hout' : ¬ (required_min < signed_value k ds ∧ signed_value k ds < required_max) := by
      intro hc
      rcases hout with h | h
      · exact absurd hc.2 (not_lt.mpr h)
      · exact absurd hc.1 (not_lt.mpr h)
    have ht := term_out_of_range k pre.length w ds s ts hw hds hs hout'
    obtain ⟨n, hn⟩ := context_propagates hctx _ _ rfl (Or.inl ⟨rfl, _, ht⟩)
    have hne : ¬ Blank (pre ++ (w ++ (List.replicate k '-' ++ (ds ++ s)))) := by
      obtain ⟨d, r, rfl, hd, _⟩ := hds
      intro hb
      exact nonZeroDigit_not_blank hd (hb d (by simp))
    exact ⟨_, _, parse_of_expression hne hn (fun hc => by cases hc), rfl⟩
  refine ⟨general, ?_, ?_, by decide, by decide, by decide, by decide⟩
  · intro k ds s hds hs hout
    have := general [] [] [] k ds s (Context.first [] [] Context.start) blank_nil hds hs hout
    simpa using this
  · intro e r q c k ds s hp hr hc hds hs hout
    obtain ⟨cs, ts, w, hd, hw, he, htok, _⟩ := parse_sound hp hr
    have := general _ _ [] k ds s
      (Context.operator [] cs w c [] ts Context.start hd hw hc) blank_nil hds hs hout
    rw [he, htok]
    simpa using this

open Grammar in
theorem C10_integer_out_of_range_witness :
    (∃ col q, Parser.parse "(2*( ---40000".toList
        = some (⟨ParserResult.code_t.INTEGER_OUT_OF_RANGE, col⟩, q)
      ∧ q.token_list = [⟨['('], token_t.OPENING_SCOPE⟩, ⟨['2'], token_t.OPERAND⟩,
          ⟨['*'], token_t.OPERATOR⟩, ⟨['('], token_t.OPENING_SCOPE⟩])
    ∧ (∃ col q, Parser.parse "32767".toList
        = some (⟨ParserResult.code_t.INTEGER_OUT_OF_RANGE, col⟩, q) ∧ q.token_list = [])
    ∧ (∃ col q1, Parser.parse "1+99999".toList
        = some (⟨ParserResult.code_t.INTEGER_OUT_OF_RANGE, col⟩, q1)
      ∧ q1.token_list = [⟨['1'], token_t.OPERAND⟩, ⟨['+'], token_t.OPERATOR⟩]) :=
  ⟨C10_integer_out_of_range.1 ['(', '2', '*', '('] _ [' '] 3 ['4', '0', '0', '0', '0'] []
      (Context.first _ _ (Context.scope (['('] ++ (['2'] ++ ([] ++ ['*']))) [] _
        (Context.operator ['('] ['2'] [] '*' [⟨['('], token_t.OPENING_SCOPE⟩]
          [⟨['2'], token_t.OPERAND⟩]
          (Context.scope [] [] [] (Context.first [] [] Context.start) (by decide))
          (Derives.single _ _ (Derives.literal 0 [] [] ['2'] Minuses.zero (by decide)
            ⟨'2', [], rfl, by decide, by decide⟩ (by decide) (by decide)))
          (by decide) (by decide))
        (by decide)))
      (by decide) ⟨'4', ['0', '0', '0', '0'], rfl, by decide, by decide⟩
      (by intro x hx; cases hx) (Or.inr (by decide)),
   C10_integer_out_of_range.2.1 0 ['3', '2', '7', '6', '7'] []
      ⟨'3', ['2', '7', '6', '7'], rfl, by decide, by decide⟩ (by intro x hx; cases hx)
      (Or.inl (by decide)),
   C10_integer_out_of_range.2.2.1 ['1'] ⟨ParserResult.code_t.PARSER_OK, 0⟩
      ⟨1, [], [⟨['1'], token_t.OPERAND⟩]⟩ '+' 0 ['9', '9', '9', '9', '9'] []
      (by decide) rfl (by decide)
      ⟨'9', ['9', '9', '9', '9'], rfl, by decide, by decide⟩ (by intro x hx; cases hx)
      (Or.inl (by decide))⟩

namespace Parser

open terminal_symbol_t ParserResult.code_t token_t Grammar

theorem expect_nil (o : Nat) (t : List Token) (c : terminal_symbol_t) :
    expect ⟨o, [], t⟩ c = (false, ⟨o, [], t⟩) := rfl

/-- `integer` where neither a digit nor a minus sign stands: the column is the one of
the cursor, and nothing is read. -/
theorem integer_ill_formed (fuel : Nat) (p : Parser) (hb : NoBlankHead p.it_rest)
    (h : ∀ x ∈ p.it_rest.head?, ¬ Digit x ∧ x ≠ '-') :
    integer (fuel + 1) p = some (⟨ILL_FORMED_INTEGER, p.it_offset⟩, p) := by
  have h1 : accept p TS_ZERO = (false, p) :=
    accept_of_head_ne _ _ (fun x hx hl => (h x hx).1 (Or.inl ((lexer_eq_zero x).mp hl)))
  have h2 : expect p TS_MINUS = (false, p) := by
    unfold expect
    rw [skip_ws_of_noBlankHead p hb]
    exact accept_of_head_ne _ _ (fun x hx hl => (h x hx).2 ((lexer_eq_minus x).mp hl))
  have h3 : digit_excl_zero p = (false, p) := by
    unfold digit_excl_zero
    exact accept_of_head_ne _ _
      (fun x hx hl => (h x hx).1 (Or.inr ((lexer_eq_non_zero_digit x).mp hl)))
  have h4 : minus_loop (fuel + 1) p 0 = some (0, p) := by
    rw [minus_loop, h2]
  have h5 : natural_number (fuel + 1) p = some (⟨ILL_FORMED_INTEGER, p.it_offset⟩, p) := by
    unfold natural_number
    rw [h3]
  unfold integer
  rw [h1]
  dsimp only
  rw [h4]
  dsimp only
  rw [h5]
  dsimp only
  rw [if_neg (by decide)]

/-- `term` where, after the blanks, no digit, minus sign or opening parenthesis stands
(also at the end of the input): `ILL_FORMED_INTEGER` at the column after the blanks. -/
theorem term_ill_formed (fuel o : Nat) (w r : List Char) (t : List Token) (hw : Blank w)
    (hb : NoBlankHead r) (h : ∀ x ∈ r.head?, ¬ Digit x ∧ x ≠ '-' ∧ x ≠ '(') :
    term (fuel + 2) ⟨o, w ++ r, t⟩
      = some (⟨ILL_FORMED_INTEGER, o + w.length⟩, ⟨o + w.length, r, t⟩) := by
  have hsk : skip_ws ⟨o, w ++ r, t⟩ = ⟨o + w.length, r, t⟩ := skip_ws_of_blank o w r t hw hb
  rw [term_eq_integer (fuel + 1) _ (by rw [hsk]; exact fun x hx => (h x hx).2.2), hsk]
  exact integer_ill_formed fuel ⟨o + w.length, r, t⟩ hb (fun x hx => ⟨(h x hx).1, (h x hx).2.1⟩)

/-- An error of the first term of an expression is the result of the expression. -/
theorem expression_of_term_error {n : Nat} {p q : Parser} {res : ParserResult}
    (h : term n p = some (res, q)) (hres : res.type ≠ PARSER_OK) :
    expression (n + 1) p = some (res, q) := by
  obtain ⟨m, rfl⟩ := term_fuel_pos h
  rw [expression_unfold, term_skip_ws, h]
  exact expression_loop_error _ _ _ hres

/-- The loop of `expression` when the term after an operator fails: the error becomes
`MISSING_TERM` when the input has ended, except for `INTEGER_OUT_OF_RANGE`. -/
theorem expression_loop_operator_error (fuel o : Nat) (res res1 : ParserResult)
    (w r : List Char) (c : Char) (t : List Token) (p2 : Parser) (hres : res.type = PARSER_OK)
    (hw : Blank w) (hc : OperatorSymbol c) (hres1 : res1.type ≠ PARSER_OK)
    (ht : term fuel ⟨o + w.length + 1, r, t ++ [⟨[c], OPERATOR⟩]⟩ = some (res1, p2)) :
    expression_loop (fuel + 1) res ⟨o, w ++ c :: r, t⟩
      = some (if res1.type ≠ INTEGER_OUT_OF_RANGE ∧ end_input p2 = true
          then ⟨MISSING_TERM, res1.at_col⟩ else res1, p2) := by
  obtain ⟨m, rfl⟩ := term_fuel_pos ht
  rw [expression_loop_unfold, if_pos hres, expect_operator_some _ w c _ _ hw hc]
  dsimp only
  rw [ht]
  dsimp only
  by_cases hcond : res1.type ≠ INTEGER_OUT_OF_RANGE ∧ end_input p2 = true
  · rw [if_pos ⟨hres1, hcond.1, hcond.2⟩, if_pos hcond]
  · rw [if_neg (fun hc1 => hcond ⟨hc1.2.1, hc1.2.2⟩), if_neg hcond]
    exact expression_loop_error _ _ _ hres1

/-- An expression followed by an operator and a term that fails. -/
theorem expression_operator_error {cs : List Char} {ts : List Token}
    (h : Derives Level.expr cs ts) (o : Nat) (w r : List Char) (c : Char) (t : List Token)
    (hw : Blank w) (hc : OperatorSymbol c) (n : Nat) (res1 : ParserResult) (p2 : Parser)
    (hres1 : res1.type ≠ PARSER_OK)
    (ht : term n ⟨o + cs.length + w.length + 1, r, t ++ ts ++ [⟨[c], OPERATOR⟩]⟩
      = some (res1, p2)) :
    ∃ m, expression m ⟨o, cs ++ (w ++ c :: r), t⟩
      = some (if res1.type ≠ INTEGER_OUT_OF_RANGE ∧ end_input p2 = true
          then ⟨MISSING_TERM, res1.at_col⟩ else res1, p2) := by
  obtain ⟨col, hcol⟩ := (parser_complete h).2 rfl o (w ++ c :: r) t
    (noDigitHead_blank_cons _ hw (mt digit_not_operator (not_not.mpr hc)))
  exact hcol _ (n + 1)
    (expression_loop_operator_error n (o + cs.length) ⟨PARSER_OK, col⟩ res1 w r c (t ++ ts) p2
      rfl hw hc hres1 ht)

/-- An opening parenthesis and an expression after which the input ends. -/
theorem term_missing_closing {cs : List Char} {ts : List Token}
    (h : Derives Level.expr cs ts) (o : Nat) (w w1 : List Char) (t : List Token)
    (hw : Blank w) (hw1 : Blank w1) :
    ∃ n, term n ⟨o, w ++ '(' :: (cs ++ w1), t⟩
      = some (⟨MISSING_CLOSING_PARENTHESIS, o + w.length + 1 + cs.length + w1.length⟩,
          ⟨o + w.length + 1 + cs.length + w1.length, [],
            t ++ ⟨['('], OPENING_SCOPE⟩ :: ts⟩) := by
  have hsk := skip_ws_blank (o + w.length + 1 + cs.length) w1
    (t ++ [⟨['('], OPENING_SCOPE⟩] ++ ts) hw1
  obtain ⟨n, col, hn⟩ := expression_complete h (o + w.length + 1) w1
    (t ++ [⟨['('], OPENING_SCOPE⟩]) (noDigitHead_blank hw1)
    (by rw [hsk]; intro x hx; cases hx)
  rw [hsk] at hn
  refine ⟨n + 1, ?_⟩
  rw [term_unfold, expect_skip_ws,
    expect_of_blank _ w '(' _ t TS_OPENING_SCOPE hw (by decide) (by decide)]
  dsimp only
  rw [hn]
  dsimp only
  rw [if_pos rfl, expect_nil]
  simp

/-- What `parse` returns when `expression` accepts a prefix of the input: the input must
end after the blanks that follow. -/
theorem parse_of_expression_ok {e : List Char} {n : Nat} {res : ParserResult} {p1 : Parser}
    (hne : ¬ Blank e) (h : expression n ⟨0, e, []⟩ = some (res, p1))
    (hres : res.type = PARSER_OK) :
    parse e = some (if (skip_ws p1).it_rest = [] then res
      else ⟨EXTRANEOUS_SYMBOL, (skip_ws p1).it_offset⟩, skip_ws p1) := by
  obtain ⟨r, q, hp⟩ := parse_total e
  rw [hp]
  rcases parse_from_inv hp with ⟨hend, _, _⟩ | ⟨_, res1, p2, he, hcase⟩
  · exfalso
    obtain ⟨w, hw, hc, _⟩ := skip_ws_consumes ⟨0, e, []⟩
    have := hc.1
    rw [hend, List.append_nil] at this
    simp only at this
    rw [this] at hne
    exact hne hw
  · rw [expression_skip_ws] at he
    have hag := expression_fuel_agree he h
    simp only [Prod.mk.injEq] at hag
    obtain ⟨rfl, rfl⟩ := hag
    rcases hcase with ⟨hno, _, _⟩ | ⟨_, rfl, hrest, rfl⟩ | ⟨_, rfl, hrest, rfl⟩
    · exact absurd hres hno
    · rw [if_neg hrest]
    · rw [if_pos hrest]

end Parser

open Parser Grammar in
/-- C12: for every number `k` of minus signs (in particular `k ≥ 1`) and every natural
number text `ds` (first digit non-zero) whose signed value, negative exactly when `k` is
odd, lies strictly between `-32768` and `32767`, `parse` of `k` characters `-` followed by
`ds` returns `PARSER_OK` with exactly one token, an `OPERAND` whose value is `-` followed
by `ds` when `k` is odd and `ds` alone when `k` is even. -/
theorem C12_minus_run_collapses (k : Nat) (ds : List Char) (hds : Natural ds)
    (h1 : required_min < signed_value k ds) (h2 : signed_value k ds < required_max) :
    ∃ col q, parse (List.replicate k '-' ++ ds) = some (⟨ParserResult.code_t.PARSER_OK, col⟩, q)
      ∧ q.token_list = [⟨if k % 2 = 1 then '-' :: ds else ds, token_t.OPERAND⟩] := by
  obtain ⟨col, hcol⟩ := parse_complete
    (Derives.single _ _
      (Derives.literal k (List.replicate k '-') [] ds (minuses_replicate k) blank_nil hds h1 h2))
    blank_nil
  simp only [List.nil_append, List.append_nil] at hcol
  exact ⟨col, _, hcol, rfl⟩

theorem C12_minus_run_collapses_witness :
    (∃ col q, Parser.parse "--5".toList = some (⟨ParserResult.code_t.PARSER_OK, col⟩, q)
      ∧ q.token_list = [⟨['5'], token_t.OPERAND⟩])
    ∧ (∃ col q, Parser.parse "---5".toList = some (⟨ParserResult.code_t.PARSER_OK, col⟩, q)
      ∧ q.token_list = [⟨['-', '5'], token_t.OPERAND⟩]) :=
  ⟨C12_minus_run_collapses 2 ['5'] ⟨'5', [], rfl, by decide, by decide⟩ (by decide)
      (by decide),
   C12_minus_run_collapses 3 ['5'] ⟨'5', [], rfl, by decide, by decide⟩ (by decide)
      (by decide)⟩

open Parser Grammar in
/-- C13: for every input `e` that `parse` accepts with `PARSER_OK`, every operator symbol
`c` among `+ - * / % ^` and every (possibly empty) run `w` of blanks and tabs, `parse` of
`e` followed by `c` and `w` returns `MISSING_TERM` with the length of the whole input as
its column; the tokens are those of `e` and the operator. -/
theorem C13_missing_term_after_operator (e : List Char) (r : ParserResult) (q : Parser)
    (c : Char) (w : List Char) (h : parse e = some (r, q))
    (hr : r.type = ParserResult.code_t.PARSER_OK) (hc : OperatorSymbol c) (hw : Blank w) :
    ∃ q1, parse (e ++ c :: w)
        = some (⟨ParserResult.code_t.MISSING_TERM, (e ++ c :: w).length⟩, q1)
      ∧ q1.token_list = q.token_list ++ [⟨[c], token_t.OPERATOR⟩] := by
  obtain ⟨cs, ts, w0, hd, hw0, he, htok, _⟩ := parse_sound h hr
  have ht := term_ill_formed 0 (0 + cs.length + w0.length + 1) w []
    ([] ++ ts ++ [⟨[c], token_t.OPERATOR⟩]) hw noBlankHead_nil (fun x hx => by cases hx)
  rw [List.append_nil] at ht
  obtain ⟨m, hm⟩ := expression_operator_error hd 0 w0 w c [] hw0 hc _ _ _
    (fun hcon => by cases hcon) ht
  rw [if_pos ⟨(fun hcon => by cases hcon), rfl⟩] at hm
  have hp := parse_of_expression (not_blank_of_derives hd _) hm (fun hcon => by cases hcon)
  have hcol : (cs ++ (w0 ++ c :: w)).length = 0 + cs.length + w0.length + 1 + w.length := by
    simp only [List.length_append, List.length_cons]
    omega
  refine ⟨⟨0 + cs.length + w0.length + 1 + w.length, [],
    [] ++ ts ++ [⟨[c], token_t.OPERATOR⟩]⟩, ?_, ?_⟩
  · rw [he, List.append_assoc, hcol, hp]
  · rw [htok]
    simp

theorem C13_missing_term_after_operator_witness :
    ∃ q1, Parser.parse "1+".toList = some (⟨ParserResult.code_t.MISSING_TERM, 2⟩, q1)
      ∧ q1.token_list = [⟨['1'], token_t.OPERAND⟩, ⟨['+'], token_t.OPERATOR⟩] :=
  C13_missing_term_after_operator ['1'] ⟨ParserResult.code_t.PARSER_OK, 0⟩
    ⟨1, [], [⟨['1'], token_t.OPERAND⟩]⟩ '+' [] (by decide) rfl (by decide) (by decide)

open Parser Grammar in
/-- C14: for every input `e` that `parse` accepts with `PARSER_OK`, `parse` of an opening
parenthesis followed by `e` returns `MISSING_CLOSING_PARENTHESIS` with column
`length e + 1`, the offset where the closing parenthesis was expected. -/
theorem C14_missing_closing_parenthesis (e : List Char) (r : ParserResult) (q : Parser)
    (h : parse e = some (r, q)) (hr : r.type = ParserResult.code_t.PARSER_OK) :
    ∃ q1, parse ('(' :: e)
      = some (⟨ParserResult.code_t.MISSING_CLOSING_PARENTHESIS, e.length + 1⟩, q1) := by
  obtain ⟨cs, ts, w0, hd, hw0, he, _, _⟩ := parse_sound h hr
  obtain ⟨n, hn⟩ := term_missing_closing hd 0 [] w0 [] blank_nil hw0
  have hx := expression_of_term_error hn (fun hcon => by cases hcon)
  have hp := parse_of_expression (fun hb => absurd (hb '(' (by simp)) (by decide)) hx
    (fun hcon => by cases hcon)
  simp only [List.nil_append] at hp
  have hcol : (cs ++ w0).length + 1 = 0 + ([] : List Char).length + 1 + cs.length + w0.length := by
    simp only [List.length_append, List.length_nil]
    omega
  exact ⟨_, by rw [he, hcol, hp]⟩

theorem C14_missing_closing_parenthesis_witness :
    ∃ q1, Parser.parse "(1+2".toList
      = some (⟨ParserResult.code_t.MISSING_CLOSING_PARENTHESIS, 4⟩, q1) :=
  C14_missing_closing_parenthesis ['1', '+', '2'] ⟨ParserResult.code_t.PARSER_OK, 0⟩
    ⟨3, [], [⟨['1'], token_t.OPERAND⟩, ⟨['+'], token_t.OPERATOR⟩, ⟨['2'], token_t.OPERAND⟩]⟩
    (by decide) rfl

open Parser Grammar in
/-- C16: for every input `e` that `parse` accepts with `PARSER_OK` and every text that
begins with a character `c` that is not a blank, a tab, a digit or an operator symbol,
`parse` of `e` followed by that text returns `EXTRANEOUS_SYMBOL` with column `length e`,
the offset of the first leftover character; the tokens are those of `e`. -/
theorem C16_extraneous_symbol (e : List Char) (r : ParserResult) (q : Parser)
    (c : Char) (rest : List Char) (h : parse e = some (r, q))
    (hr : r.type = ParserResult.code_t.PARSER_OK) (hcb : ¬ (c = ' ' ∨ c = '\t'))
    (hcd : ¬ Digit c) (hco : ¬ OperatorSymbol c) :
    ∃ q1, parse (e ++ c :: rest)
        = some (⟨ParserResult.code_t.EXTRANEOUS_SYMBOL, e.length⟩, q1)
      ∧ q1.token_list = q.token_list := by
  obtain ⟨cs, ts, w0, hd, hw0, he, htok, _⟩ := parse_sound h hr
  have hsk := skip_ws_of_blank (0 + cs.length) w0 (c :: rest) ([] ++ ts) hw0
    (noBlankHead_cons rest hcb)
  obtain ⟨n, col, hn⟩ := expression_complete hd 0 (w0 ++ c :: rest) []
    (noDigitHead_blank_cons rest hw0 hcd)
    (by
      rw [hsk]
      intro x hx
      simp only [List.head?_cons, Option.mem_def, Option.some.injEq] at hx
      subst hx
      exact hco)
  rw [hsk] at hn
  have hp := parse_of_expression_ok (not_blank_of_derives hd _) hn rfl
  rw [skip_ws_of_noBlankHead _ (noBlankHead_cons rest hcb)] at hp
  rw [if_neg (by simp)] at hp
  have hcol : (cs ++ w0).length = 0 + cs.length + w0.length := by
    simp only [List.length_append]
    omega
  refine ⟨⟨0 + cs.length + w0.length, c :: rest, [] ++ ts⟩, ?_, ?_⟩
  · rw [he, List.append_assoc, hcol, hp]
  · rw [htok]
    simp

theorem C16_extraneous_symbol_witness :
    ∃ q1, Parser.parse "1+2)".toList
        = some (⟨ParserResult.code_t.EXTRANEOUS_SYMBOL, 3⟩, q1)
      ∧ q1.token_list
        = [⟨['1'], token_t.OPERAND⟩, ⟨['+'], token_t.OPERATOR⟩, ⟨['2'], token_t.OPERAND⟩] :=
  C16_extraneous_symbol ['1', '+', '2'] ⟨ParserResult.code_t.PARSER_OK, 0⟩
    ⟨3, [], [⟨['1'], token_t.OPERAND⟩, ⟨['+'], token_t.OPERATOR⟩, ⟨['2'], token_t.OPERAND⟩]⟩
    ')' [] (by decide) rfl (by decide) (by decide) (by decide)

open Parser Grammar in
/-- C17: for every input made only of blanks and tabs, the empty input included, `parse`
returns `UNEXPECTED_END_OF_EXPRESSION` with the length of the input as its column, and the
token list is empty. -/
theorem C17_blank_input (w : List Char) (hw : Blank w) :
    ∃ q, parse w = some (⟨ParserResult.code_t.UNEXPECTED_END_OF_EXPRESSION, w.length⟩, q)
      ∧ q.token_list = [] := by
  refine ⟨⟨w.length, [], []⟩, ?_, rfl⟩
  unfold parse parse_from
  dsimp only
  rw [skip_ws_blank 0 w [] hw]
  simp [end_input]

theorem C17_blank_input_witness :
    (∃ q, Parser.parse " \t ".toList
        = some (⟨ParserResult.code_t.UNEXPECTED_END_OF_EXPRESSION, 3⟩, q) ∧ q.token_list = [])
    ∧ (∃ q, Parser.parse []
        = some (⟨ParserResult.code_t.UNEXPECTED_END_OF_EXPRESSION, 0⟩, q) ∧ q.token_list = []) :=
  ⟨C17_blank_input [' ', '\t', ' '] (by decide), C17_blank_input [] (by decide)⟩

namespace Parser

open terminal_symbol_t ParserResult.code_t token_t Grammar

theorem context_state_operator (pre e w : List Char) (c : Char) (rest : List Char)
    (ts us : List Token) :
    (⟨(pre ++ (e ++ (w ++ [c]))).length, rest, ts ++ (us ++ [⟨[c], OPERATOR⟩])⟩ : Parser)
      = ⟨pre.length + e.length + w.length + 1, rest, ts ++ us ++ [⟨[c], OPERATOR⟩]⟩ := by
  simp only [List.length_append, List.length_singleton, List.append_assoc,
    Parser.mk.injEq, and_true]
  omega

theorem context_state_scope (pre w : List Char) (rest : List Char) (ts : List Token) :
    (⟨(pre ++ (w ++ ['('])).length, rest, ts ++ [⟨['('], OPENING_SCOPE⟩]⟩ : Parser)
      = ⟨pre.length + w.length + 1, rest, ts ++ [⟨['('], OPENING_SCOPE⟩]⟩ := by
  simp only [List.length_append, List.length_singleton, Parser.mk.injEq, and_true]
  omega

/-- A term right after an opening parenthesis and the expression it starts. -/
theorem term_of_scope_error (n o : Nat) (w rest : List Char) (t : List Token)
    (res : ParserResult) (q : Parser) (hw : Blank w) (hres : res.type ≠ PARSER_OK)
    (h : expression n ⟨o + w.length + 1, rest, t ++ [⟨['('], OPENING_SCOPE⟩]⟩ = some (res, q)) :
    term (n + 1) ⟨o, w ++ '(' :: rest, t⟩ = some (res, q) := by
  rw [term_unfold, expect_skip_ws,
    expect_of_blank _ w '(' rest t TS_OPENING_SCOPE hw (by decide) (by decide)]
  dsimp only
  rw [h]
  dsimp only
  rw [if_neg hres]

/-- An error found where a term or an expression is expected, before the end of the
input or `INTEGER_OUT_OF_RANGE`, is what `expression` returns on the whole input. -/
theorem context_propagates_error {lvl : Level} {pre : List Char} {ts : List Token}
    (h : Context lvl pre ts) :
    ∀ (rest : List Char) (res : ParserResult) (q : Parser), res.type ≠ PARSER_OK →
    (res.type = INTEGER_OUT_OF_RANGE ∨ q.it_rest ≠ []) →
    ((lvl = Level.term ∧ ∃ n, term n ⟨pre.length, rest, ts⟩ = some (res, q))
      ∨ (lvl = Level.expr ∧ ∃ n, expression n ⟨pre.length, rest, ts⟩ = some (res, q))) →
    ∃ n, expression n ⟨0, pre ++ rest, []⟩ = some (res, q) := by
  induction h with
  | start =>
    intro rest res q _ _ hrun
    rcases hrun with ⟨hl, _⟩ | ⟨_, n, hn⟩
    · cases hl
    · exact ⟨n, hn⟩
  | first pre ts _ ih =>
    intro rest res q hres hX hrun
    rcases hrun with ⟨_, n, hn⟩ | ⟨hl, _⟩
    · exact ih rest res q hres hX (Or.inr ⟨rfl, n + 1, expression_of_term_error hn hres⟩)
    · cases hl
  | operator pre e w c ts us _ hd hw hc ih =>
    intro rest res q hres hX hrun
    rcases hrun with ⟨_, n, hn⟩ | ⟨hl, _⟩
    · rw [context_state_operator] at hn
      obtain ⟨m, hm⟩ := expression_operator_error hd pre.length w rest c ts hw hc n res q
        hres hn
      rw [if_neg (by
        intro hcon
        rcases hX with hX | hX
        · exact hcon.1 hX
        · exact hX ((end_input_iff q).mp hcon.2))] at hm
      have := ih (e ++ (w ++ c :: rest)) res q hres hX (Or.inr ⟨rfl, m, hm⟩)
      simpa using this
    · cases hl
  | scope pre w ts _ hw ih =>
    intro rest res q hres hX hrun
    rcases hrun with ⟨hl, _⟩ | ⟨_, n, hn⟩
    · cases hl
    · rw [context_state_scope] at hn
      have := ih (w ++ '(' :: rest) res q hres hX
        (Or.inl ⟨rfl, n + 1, term_of_scope_error n pre.length w rest ts res q hw hres hn⟩)
      simpa using this

/-- An error found at the end of the input where a term or an expression is expected,
other than `INTEGER_OUT_OF_RANGE`: `expression` returns it on the whole input when only
opening parentheses and blanks stand before, and `MISSING_TERM` with the same column when
an operator stands before. -/
theorem context_propagates_end {lvl : Level} {pre : List Char} {ts : List Token}
    (h : Context lvl pre ts) :
    ∀ (rest : List Char) (res : ParserResult) (q : Parser), res.type ≠ PARSER_OK →
    res.type ≠ INTEGER_OUT_OF_RANGE → q.it_rest = [] →
    ((lvl = Level.term ∧ ∃ n, term n ⟨pre.length, rest, ts⟩ = some (res, q))
      ∨ (lvl = Level.expr ∧ ∃ n, expression n ⟨pre.length, rest, ts⟩ = some (res, q))) →
    ∃ n, expression n ⟨0, pre ++ rest, []⟩
      = some (if ∀ x ∈ pre, x = ' ' ∨ x = '\t' ∨ x = '(' then res
          else ⟨MISSING_TERM, res.at_col⟩, q) := by
  induction h with
  | start =>
    intro rest res q _ _ _ hrun
    rcases hrun with ⟨hl, _⟩ | ⟨_, n, hn⟩
    · cases hl
    · exact ⟨n, by rw [if_pos (by intro x hx; cases hx)]; exact hn⟩
  | first pre ts _ ih =>
    intro rest res q hres hoor hend hrun
    rcases hrun with ⟨_, n, hn⟩ | ⟨hl, _⟩
    · exact ih rest res q hres hoor hend
        (Or.inr ⟨rfl, n + 1, expression_of_term_error hn hres⟩)
    · cases hl
  | operator pre e w c ts us _ hd hw hc ih =>
    intro rest res q hres hoor hend hrun
    rcases hrun with ⟨_, n, hn⟩ | ⟨hl, _⟩
    · rw [context_state_operator] at hn
      obtain ⟨m, hm⟩ := expression_operator_error hd pre.length w rest c ts hw hc n res q
        hres hn
      rw [if_pos ⟨hoor, (end_input_iff q).mpr hend⟩] at hm
      have := ih (e ++ (w ++ c :: rest)) ⟨MISSING_TERM, res.at_col⟩ q
        (fun hcon => by cases hcon) (fun hcon => by cases hcon) hend (Or.inr ⟨rfl, m, hm⟩)
      obtain ⟨k, hk⟩ := this
      refine ⟨k, ?_⟩
      have hnot : ¬ ∀ x ∈ pre ++ (e ++ (w ++ [c])), x = ' ' ∨ x = '\t' ∨ x = '(' := by
        intro hall
        have hcc := hall c (by simp)
        rcases hc with rfl | rfl | rfl | rfl | rfl | rfl <;> revert hcc <;> decide
      rw [if_neg hnot]
      have hsame : (if ∀ x ∈ pre, x = ' ' ∨ x = '\t' ∨ x = '('
          then (⟨MISSING_TERM, res.at_col⟩ : ParserResult)
          else ⟨MISSING_TERM, (⟨MISSING_TERM, res.at_col⟩ : ParserResult).at_col⟩)
          = ⟨MISSING_TERM, res.at_col⟩ := by
        split <;> rfl
      rw [hsame] at hk
      simpa using hk
    · cases hl
  | scope pre w ts _ hw ih =>
    intro rest res q hres hoor hend hrun
    rcases hrun with ⟨hl, _⟩ | ⟨_, n, hn⟩
    · cases hl
    · rw [context_state_scope] at hn
      obtain ⟨k, hk⟩ := ih (w ++ '(' :: rest) res q hres hoor hend
        (Or.inl ⟨rfl, n + 1, term_of_scope_error n pre.length w rest ts res q hw hres hn⟩)
      refine ⟨k, ?_⟩
      have hiff : (∀ x ∈ pre ++ (w ++ ['(']), x = ' ' ∨ x = '\t' ∨ x = '(')
          ↔ ∀ x ∈ pre, x = ' ' ∨ x = '\t' ∨ x = '(' := by
        constructor
        · intro hall x hx
          exact hall x (List.mem_append_left _ hx)
        · intro hall x hx
          rcases List.mem_append.mp hx with hx | hx
          · exact hall x hx
          · rcases List.mem_append.mp hx with hx | hx
            · rcases hw x hx with h1 | h1
              · exact Or.inl h1
              · exact Or.inr (Or.inl h1)
            · simp only [List.mem_singleton] at hx
              exact Or.inr (Or.inr hx)
      simp only [hiff]
      simpa using hk

end Parser

open Parser Grammar in
/-- C18: where a term is expected (at the start of the input, right after an operator or
right after an opening parenthesis, at any depth) and, after the blanks, a character
stands that is not a blank, a tab, a digit, `-` or `(`, `parse` returns
`ILL_FORMED_INTEGER` at the column of that character, whatever follows it. In particular
an input whose first character after the blanks, at column `i`, is such a character gives
`ILL_FORMED_INTEGER` at column `i`, and an accepted input `e` followed by an operator and
such a character gives `ILL_FORMED_INTEGER` at column `length e + 1`. -/
theorem C18_ill_formed_integer :
    (∀ (pre : List Char) (ts : List Token) (w : List Char) (c : Char) (rest : List Char),
      Context Level.term pre ts → Blank w → ¬ (c = ' ' ∨ c = '\t') → ¬ Digit c → c ≠ '-' →
      c ≠ '(' →
      ∃ q, parse (pre ++ (w ++ c :: rest))
          = some (⟨ParserResult.code_t.ILL_FORMED_INTEGER, pre.length + w.length⟩, q)
        ∧ q.token_list = ts)
    ∧ (∀ (w : List Char) (c : Char) (rest : List Char),
      Blank w → ¬ (c = ' ' ∨ c = '\t') → ¬ Digit c → c ≠ '-' → c ≠ '(' →
      ∃ q, parse (w ++ c :: rest)
          = some (⟨ParserResult.code_t.ILL_FORMED_INTEGER, w.length⟩, q)
        ∧ q.token_list = [])
    ∧ (∀ (e : List Char) (r : ParserResult) (q : Parser) (op c : Char) (rest : List Char),
      parse e = some (r, q) → r.type = ParserResult.code_t.PARSER_OK → OperatorSymbol op →
      ¬ (c = ' ' ∨ c = '\t') → ¬ Digit c → c ≠ '-' → c ≠ '(' →
      ∃ q1, parse (e ++ op :: c :: rest)
          = some (⟨ParserResult.code_t.ILL_FORMED_INTEGER, e.length + 1⟩, q1)
        ∧ q1.token_list = q.token_list ++ [⟨[op], token_t.OPERATOR⟩]) := by
  have general : ∀ (pre : List Char) (ts : List Token) (w : List Char) (c : Char)
      (rest : List Char), Context Level.term pre ts → Blank w → ¬ (c = ' ' ∨ c = '\t') →
      ¬ Digit c → c ≠ '-' → c ≠ '(' →
      ∃ q, parse (pre ++ (w ++ c :: rest))
          = some (⟨ParserResult.code_t.ILL_FORMED_INTEGER, pre.length + w.length⟩, q)
        ∧ q.token_list = ts := by
    intro pre ts w c rest hctx hw hcb hcd hcm hco
    have ht := term_ill_formed 0 pre.length w (c :: rest) ts hw (noBlankHead_cons rest hcb)
      (fun x hx => by
        simp only [List.head?_cons, Option.mem_def, Option.some.injEq] at hx
        subst hx
        exact ⟨hcd, hcm, hco⟩)
    obtain ⟨n, hn⟩ := context_propagates_error hctx _ _ _ (fun hcon => by cases hcon)
      (Or.inr (by simp)) (Or.inl ⟨rfl, _, ht⟩)
    have hne : ¬ Blank (pre ++ (w ++ c :: rest)) := fun hb => hcb (hb c (by simp))
    exact ⟨_, parse_of_expression hne hn (fun hcon => by cases hcon), rfl⟩
  refine ⟨general, ?_, ?_⟩
  · intro w c rest hw hcb hcd hcm hco
    have := general [] [] w c rest (Context.first [] [] Context.start) hw hcb hcd hcm hco
    simpa using this
  · intro e r q op c rest hp hr hop hcb hcd hcm hco
    obtain ⟨cs, ts, w, hd, hw, he, htok, _⟩ := parse_sound hp hr
    have := general _ _ [] c rest
      (Context.operator [] cs w op [] ts Context.start hd hw hop) blank_nil hcb hcd hcm hco
    rw [he, htok]
    simpa using this

open Grammar in
theorem C18_ill_formed_integer_witness :
    (∃ q, Parser.parse "(2* a".toList
        = some (⟨ParserResult.code_t.ILL_FORMED_INTEGER, 4⟩, q)
      ∧ q.token_list = [⟨['('], token_t.OPENING_SCOPE⟩, ⟨['2'], token_t.OPERAND⟩,
          ⟨['*'], token_t.OPERATOR⟩])
    ∧ (∃ q, Parser.parse "  )1".toList
        = some (⟨ParserResult.code_t.ILL_FORMED_INTEGER, 2⟩, q) ∧ q.token_list = [])
    ∧ (∃ q1, Parser.parse "1+*2".toList
        = some (⟨ParserResult.code_t.ILL_FORMED_INTEGER, 2⟩, q1)
      ∧ q1.token_list = [⟨['1'], token_t.OPERAND⟩, ⟨['+'], token_t.OPERATOR⟩]) :=
  ⟨C18_ill_formed_integer.1 ['(', '2', '*'] _ [' '] 'a' []
      (Context.operator ['('] ['2'] [] '*' [⟨['('], token_t.OPENING_SCOPE⟩]
        [⟨['2'], token_t.OPERAND⟩]
        (Context.scope [] [] [] (Context.first [] [] Context.start) (by decide))
        (Derives.single _ _ (Derives.literal 0 [] [] ['2'] Minuses.zero (by decide)
          ⟨'2', [], rfl, by decide, by decide⟩ (by decide) (by decide)))
        (by decide) (by decide))
      (by decide) (by decide) (by decide) (by decide) (by decide),
   C18_ill_formed_integer.2.1 [' ', ' '] ')' ['1'] (by decide) (by decide) (by decide)
      (by decide) (by decide),
   C18_ill_formed_integer.2.2 ['1'] ⟨ParserResult.code_t.PARSER_OK, 0⟩
      ⟨1, [], [⟨['1'], token_t.OPERAND⟩]⟩ '+' '*' ['2'] (by decide) rfl (by decide)
      (by decide) (by decide) (by decide) (by decide)⟩

open Parser Grammar in
/-- C15 (amended): an opening parenthesis that stands where a term is expected, followed
by an accepted input `e` after which the input ends. When only opening parentheses and
blanks stand before it, `parse` returns `MISSING_CLOSING_PARENTHESIS` with the length of
the input as its column, the offset where the closing parenthesis was expected; when an
operator stands before it, `parse` returns `MISSING_TERM` with that same column. In
particular `w ( e` with `w` blank gives `MISSING_CLOSING_PARENTHESIS`, and `e1 op ( e2`
with `e1` and `e2` accepted gives `MISSING_TERM`. -/
theorem C15_unclosed_parenthesis :
    (∀ (pre : List Char) (ts : List Token) (w e : List Char) (r : ParserResult) (q : Parser),
      Context Level.term pre ts → Blank w → parse e = some (r, q) →
      r.type = ParserResult.code_t.PARSER_OK →
      ∃ q1, parse (pre ++ (w ++ '(' :: e))
        = some (⟨if ∀ x ∈ pre, x = ' ' ∨ x = '\t' ∨ x = '('
            then ParserResult.code_t.MISSING_CLOSING_PARENTHESIS
            else ParserResult.code_t.MISSING_TERM, (pre ++ (w ++ '(' :: e)).length⟩, q1))
    ∧ (∀ (w e : List Char) (r : ParserResult) (q : Parser),
      Blank w → parse e = some (r, q) → r.type = ParserResult.code_t.PARSER_OK →
      ∃ q1, parse (w ++ '(' :: e)
        = some (⟨ParserResult.code_t.MISSING_CLOSING_PARENTHESIS, (w ++ '(' :: e).length⟩, q1))
    ∧ (∀ (e1 e2 : List Char) (r1 r2 : ParserResult) (q1 q2 : Parser) (op : Char),
      parse e1 = some (r1, q1) → r1.type = ParserResult.code_t.PARSER_OK →
      parse e2 = some (r2, q2) → r2.type = ParserResult.code_t.PARSER_OK →
      OperatorSymbol op →
      ∃ q, parse (e1 ++ op :: '(' :: e2)
        = some (⟨ParserResult.code_t.MISSING_TERM, (e1 ++ op :: '(' :: e2).length⟩, q)) := by
  have general : ∀ (pre : List Char) (ts : List Token) (w e : List Char) (r : ParserResult)
      (q : Parser), Context Level.term pre ts → Blank w → parse e = some (r, q) →
      r.type = ParserResult.code_t.PARSER_OK →
      ∃ q1, parse (pre ++ (w ++ '(' :: e))
        = some (⟨if ∀ x ∈ pre, x = ' ' ∨ x = '\t' ∨ x = '('
            then ParserResult.code_t.MISSING_CLOSING_PARENTHESIS
            else ParserResult.code_t.MISSING_TERM, (pre ++ (w ++ '(' :: e)).length⟩, q1) := by
    intro pre ts w e r q hctx hw hp hr
    obtain ⟨cs, us, w1, hd, hw1, he, _, _⟩ := parse_sound hp hr
    obtain ⟨n, hn⟩ := term_missing_closing hd pre.length w w1 ts hw hw1
    obtain ⟨m, hm⟩ := context_propagates_end hctx _ _ _ (fun hcon => by cases hcon)
      (fun hcon => by cases hcon) rfl (Or.inl ⟨rfl, n, hn⟩)
    have hne : ¬ Blank (pre ++ (w ++ '(' :: (cs ++ w1))) :=
      fun hb => absurd (hb '(' (by simp)) (by decide)
    have hlen : (pre ++ (w ++ '(' :: (cs ++ w1))).length
        = pre.length + w.length + 1 + cs.length + w1.length := by
      simp only [List.length_append, List.length_cons]
      omega
    rw [he, hlen]
    by_cases hP : ∀ x ∈ pre, x = ' ' ∨ x = '\t' ∨ x = '('
    · rw [if_pos hP] at hm ⊢
      exact ⟨_, parse_of_expression hne hm (fun hcon => by cases hcon)⟩
    · rw [if_neg hP] at hm ⊢
      exact ⟨_, parse_of_expression hne hm (fun hcon => by cases hcon)⟩
  refine ⟨general, ?_, ?_⟩
  · intro w e r q hw hp hr
    have := general [] [] w e r q (Context.first [] [] Context.start) hw hp hr
    rw [if_pos (by intro x hx; cases hx)] at this
    simpa using this
  · intro e1 e2 r1 r2 q1 q2 op hp1 hr1 hp2 hr2 hop
    obtain ⟨cs, ts, w, hd, hw, he, _, _⟩ := parse_sound hp1 hr1
    have := general _ _ [] e2 r2 q2
      (Context.operator [] cs w op [] ts Context.start hd hw hop) blank_nil hp2 hr2
    rw [if_neg (by
      intro hall
      have hcc := hall op (by simp)
      rcases hop with rfl | rfl | rfl | rfl | rfl | rfl <;> revert hcc <;> decide)] at this
    rw [he]
    simpa using this

open Grammar in
theorem C15_unclosed_parenthesis_witness :
    (∃ q1, Parser.parse "2*( (1".toList
        = some (⟨ParserResult.code_t.MISSING_TERM, 6⟩, q1))
    ∧ (∃ q1, Parser.parse " (1+2".toList
        = some (⟨ParserResult.code_t.MISSING_CLOSING_PARENTHESIS, 5⟩, q1))
    ∧ (∃ q, Parser.parse "1+(2".toList
        = some (⟨ParserResult.code_t.MISSING_TERM, 4⟩, q)) :=
  ⟨C15_unclosed_parenthesis.1 ['2', '*', '('] _ [' '] ['1']
      ⟨ParserResult.code_t.PARSER_OK, 0⟩ ⟨1, [], [⟨['1'], token_t.OPERAND⟩]⟩
      (Context.first _ _ (Context.scope (['2'] ++ ([] ++ ['*'])) [] _
        (Context.operator [] ['2'] [] '*' [] [⟨['2'], token_t.OPERAND⟩] Context.start
          (Derives.single _ _ (Derives.literal 0 [] [] ['2'] Minuses.zero (by decide)
            ⟨'2', [], rfl, by decide, by decide⟩ (by decide) (by decide)))
          (by decide) (by decide))
        (by decide)))
      (by decide) (by decide) rfl,
   C15_unclosed_parenthesis.2.1 [' '] ['1', '+', '2'] ⟨ParserResult.code_t.PARSER_OK, 0⟩
      ⟨3, [], [⟨['1'], token_t.OPERAND⟩, ⟨['+'], token_t.OPERATOR⟩,
        ⟨['2'], token_t.OPERAND⟩]⟩ (by decide) (by decide) rfl,
   C15_unclosed_parenthesis.2.2 ['1'] ['2'] ⟨ParserResult.code_t.PARSER_OK, 0⟩
      ⟨ParserResult.code_t.PARSER_OK, 0⟩ ⟨1, [], [⟨['1'], token_t.OPERAND⟩]⟩
      ⟨1, [], [⟨['2'], token_t.OPERAND⟩]⟩ '+' (by decide) rfl (by decide) rfl (by decide)⟩

/-- C15, as stated, fails on `1+(2`: `1` and `2` are accepted, the opening parenthesis
follows an operator and the input ends without a closing parenthesis, and `parse` returns
`MISSING_TERM` at column 4, not `MISSING_CLOSING_PARENTHESIS`. -/
theorem C15_unclosed_parenthesis_counterexample :
    (Parser.parse "1".toList).map (fun x => x.1.type) = some ParserResult.code_t.PARSER_OK
    ∧ (Parser.parse "2".toList).map (fun x => x.1.type) = some ParserResult.code_t.PARSER_OK
    ∧ (Parser.parse "1+(2".toList).map (fun x => x.1)
        = some ⟨ParserResult.code_t.MISSING_TERM, 4⟩
    ∧ (Parser.parse "1+(2".toList).map (fun x => x.1.type)
        ≠ some ParserResult.code_t.MISSING_CLOSING_PARENTHESIS := by
  refine ⟨by decide, by decide, by decide, by decide⟩

namespace Parser

open terminal_symbol_t ParserResult.code_t token_t Grammar

theorem delete_blanks_append (a b : List Char) :
    delete_blanks (a ++ b) = delete_blanks a ++ delete_blanks b := by
  unfold delete_blanks
  rw [List.filter_append]

theorem delete_blanks_blank {w : List Char} (hw : Blank w) : delete_blanks w = [] := by
  unfold delete_blanks
  rw [List.filter_eq_nil_iff]
  intro c hc
  have h := hw c hc
  simp
  tauto

theorem delete_blanks_cons_of_not_blank {c : Char} (hc : ¬ (c = ' ' ∨ c = '\t'))
    (s : List Char) : delete_blanks (c :: s) = c :: delete_blanks s := by
  unfold delete_blanks
  rw [List.filter_cons_of_pos (by simpa using hc)]

theorem delete_blanks_natural {ds : List Char} (h : Natural ds) : delete_blanks ds = ds := by
  obtain ⟨d, t, rfl, hd, ht⟩ := h
  unfold delete_blanks
  rw [List.filter_eq_self]
  intro c hc
  have hdig : Digit c := by
    rcases List.mem_cons.mp hc with rfl | hc
    · exact Or.inr hd
    · exact ht c hc
  simpa using digit_not_blank hdig

theorem delete_blanks_minuses {k : Nat} {ms : List Char} (h : Minuses k ms) :
    delete_blanks ms = List.replicate k '-' := by
  induction h with
  | zero => rfl
  | succ k w ms hw _ ih =>
    rw [delete_blanks_append, delete_blanks_blank hw,
      delete_blanks_cons_of_not_blank (by decide), ih, List.nil_append, List.replicate_succ]

/-- Deleting the blanks of a text of the grammar gives a text of the grammar with the
same tokens. -/
theorem derives_delete_blanks {lvl : Level} {cs : List Char} {ts : List Token}
    (h : Derives lvl cs ts) : Derives lvl (delete_blanks cs) ts := by
  induction h with
  | zero w hw =>
    rw [delete_blanks_append, delete_blanks_blank hw]
    exact Derives.zero [] blank_nil
  | literal k ms w ds hms hw hds h1 h2 =>
    rw [delete_blanks_append, delete_blanks_append, delete_blanks_blank hw,
      delete_blanks_minuses hms, delete_blanks_natural hds]
    exact Derives.literal k _ [] ds (minuses_replicate k) blank_nil hds h1 h2
  | scope w e w1 ts hw _ hw1 ih =>
    rw [delete_blanks_append, delete_blanks_blank hw,
      delete_blanks_cons_of_not_blank (by decide), delete_blanks_append,
      delete_blanks_append, delete_blanks_blank hw1,
      delete_blanks_cons_of_not_blank (by decide)]
    exact Derives.scope [] _ [] ts blank_nil ih blank_nil
  | single t ts _ ih => exact Derives.single _ _ ih
  | binary e w t c ts us _ hw hc _ ihe iht =>
    rw [delete_blanks_append, delete_blanks_append, delete_blanks_blank hw,
      delete_blanks_cons_of_not_blank (operatorSymbol_not_blank hc)]
    exact Derives.binary _ [] _ c ts us ihe blank_nil hc iht

theorem Emits.same (p : Parser) : Emits p p :=
  ⟨[], by simp, fun t ht => by cases ht⟩

theorem Emits.append {p q r : Parser} (h1 : Emits p q) (h2 : Emits q r) : Emits p r := by
  obtain ⟨ts, hts, hwf⟩ := h1
  obtain ⟨us, hus, hwf1⟩ := h2
  refine ⟨ts ++ us, by rw [hus, hts, List.append_assoc], ?_⟩
  intro t ht
  rcases List.mem_append.mp ht with ht | ht
  · exact hwf t ht
  · exact hwf1 t ht

theorem Emits.of_consumes {p q : Parser} {cs : List Char} {ts : List Token}
    (h : Consumes p q cs ts) (hwf : ∀ t ∈ ts, Reading.WellFormed t) : Emits p q :=
  ⟨ts, h.2.2, hwf⟩

theorem Emits.skip_ws (p : Parser) : Emits p (skip_ws p) :=
  ⟨[], by simp [skip_ws_token_list], fun t ht => by cases ht⟩

theorem integer_emits {fuel : Nat} {p q : Parser} {r : ParserResult}
    (h : integer fuel p = some (r, q)) : Emits p q := by
  rcases integer_cases h with ⟨_, hc⟩ | ⟨k, ms, w, _, _, b, hb, _, _, _, hcase⟩
  · refine Emits.of_consumes hc ?_
    intro t ht
    simp only [List.mem_singleton] at ht
    subst ht
    exact Or.inl rfl
  · have hpb : Emits p b := Emits.of_consumes hb (fun t ht => by cases ht)
    rcases hcase with ⟨rfl, _, _⟩ | ⟨ds, hds, _, hcase⟩
    · exact hpb
    · rcases hcase with ⟨hc, _, _⟩ | ⟨hc, _, h1, h2⟩
      · exact hpb.append (Emits.of_consumes hc (fun t ht => by cases ht))
      · refine hpb.append (Emits.of_consumes hc ?_)
        intro t ht
        simp only [List.mem_singleton] at ht
        subst ht
        exact Or.inr ⟨k, ds, hds, h1, h2, rfl⟩

theorem wellFormed_opening : Reading.WellFormed ⟨['('], OPENING_SCOPE⟩ := rfl

theorem wellFormed_closing : Reading.WellFormed ⟨[')'], CLOSING_SCOPE⟩ := rfl

theorem wellFormed_operator {c : Char} (hc : OperatorSymbol c) :
    Reading.WellFormed ⟨[c], OPERATOR⟩ := ⟨c, hc, rfl⟩

/-- Every token the parser appends has the expected shape, whatever the result. -/
theorem parser_emits (fuel : Nat) :
    (∀ p r q, term fuel p = some (r, q) → Emits p q)
    ∧ (∀ res p r q, expression_loop fuel res p = some (r, q) → Emits p q)
    ∧ (∀ p r q, expression fuel p = some (r, q) → Emits p q) := by
  induction fuel with
  | zero =>
    refine ⟨?_, ?_, ?_⟩
    · intro p r q h
      rw [term_zero] at h
      cases h
    · intro res p r q h
      rw [expression_loop_zero] at h
      cases h
    · intro p r q h
      rw [expression_zero] at h
      cases h
  | succ n ih =>
    obtain ⟨iht, ihl, ihe⟩ := ih
    refine ⟨?_, ?_, ?_⟩
    · intro p r q h
      rcases term_inv h with ⟨w, p1, res, p2, _, hc, hexp, hcase⟩ | ⟨_, hint⟩
      · have h1 : Emits p p1 := Emits.of_consumes hc (fun t ht => by
          simp only [List.mem_singleton] at ht
          subst ht
          exact wellFormed_opening)
        have h2 : Emits p1 p2 := ihe _ _ _ hexp
        rcases hcase with ⟨_, _, rfl⟩ | ⟨_, _, w1, _, hc2⟩ | ⟨_, _, rfl, _⟩
        · exact h1.append h2
        · exact (h1.append h2).append (Emits.of_consumes hc2 (fun t ht => by
            simp only [List.mem_singleton] at ht
            subst ht
            exact wellFormed_closing))
        · exact (h1.append h2).append (Emits.skip_ws p2)
      · exact (Emits.skip_ws p).append (integer_emits hint)
    · intro res p r q h
      rcases expression_loop_inv h with ⟨_, _, rfl⟩ | ⟨_, _, rfl, _⟩
        | ⟨_, w, c, p1, res1, p2, _, hc, hcons, hterm, hcase⟩
      · exact Emits.same _
      · exact Emits.skip_ws _
      · have h1 : Emits p p1 := Emits.of_consumes hcons (fun t ht => by
          simp only [List.mem_singleton] at ht
          subst ht
          exact wellFormed_operator hc)
        have h2 : Emits p1 p2 := iht _ _ _ hterm
        rcases hcase with ⟨_, _, _, _, rfl⟩ | ⟨_, hloop⟩
        · exact h1.append h2
        · exact (h1.append h2).append (ihl _ _ _ _ hloop)
    · intro p r q h
      obtain ⟨res, p1, hterm, hloop⟩ := expression_inv h
      exact ((Emits.skip_ws p).append (iht _ _ _ hterm)).append (ihl _ _ _ _ hloop)

/-- Every token `parse` leaves in the token list has the expected shape. -/
theorem parse_emits {e : List Char} {r : ParserResult} {q : Parser}
    (h : parse e = some (r, q)) : ∀ t ∈ q.token_list, Reading.WellFormed t := by
  have hstart : ∀ q1, Emits (skip_ws ⟨0, e, []⟩) q1 → ∀ t ∈ q1.token_list,
      Reading.WellFormed t := by
    intro q1 hq1 t ht
    obtain ⟨ts, hts, hwf⟩ := hq1
    rw [hts] at ht
    simp only [skip_ws_token_list, List.nil_append] at ht
    exact hwf t ht
  rcases parse_from_inv h with ⟨_, rfl, _⟩ | ⟨_, res, p1, hexp, hcase⟩
  · exact hstart _ (Emits.same _)
  · have h1 := (parser_emits _).2.2 _ _ _ hexp
    rcases hcase with ⟨_, _, rfl⟩ | ⟨_, rfl, _, _⟩ | ⟨_, rfl, _, _⟩
    · exact hstart _ h1
    · exact hstart _ (h1.append (Emits.skip_ws p1))
    · exact hstart _ (h1.append (Emits.skip_ws p1))

end Parser

open Parser Grammar Reading in
/-- C20: for every input, accepted or not, `parse` returns and every token it leaves in
the token list is well formed: the value of an `OPERAND` is `0`, or a natural number text
(a non-zero digit, then digits) with or without a single `-` before it, whose numeric
value lies strictly between `-32768` and `32767`; the value of an `OPERATOR` is exactly
one of the characters `+ - * / % ^`; the value of an `OPENING_SCOPE` is `(` and the value
of a `CLOSING_SCOPE` is `)`. -/
theorem C20_tokens_well_formed (e : List Char) :
    ∃ r q, parse e = some (r, q) ∧ ∀ t ∈ q.token_list,
      (t.type = token_t.OPERAND →
        (t.value = ['0'] ∨ ∃ ds, Natural ds ∧ (t.value = ds ∨ t.value = '-' :: ds))
        ∧ required_min < literal_value t.value ∧ literal_value t.value < required_max)
      ∧ (t.type = token_t.OPERATOR → ∃ c, OperatorSymbol c ∧ t.value = [c])
      ∧ (t.type = token_t.OPENING_SCOPE → t.value = ['('])
      ∧ (t.type = token_t.CLOSING_SCOPE → t.value = [')']) := by
  obtain ⟨r, q, h⟩ := parse_total e
  refine ⟨r, q, h, ?_⟩
  intro t ht
  have hwf := parse_emits h t ht
  obtain ⟨v, ty⟩ := t
  cases ty with
  | OPERAND =>
    refine ⟨fun _ => ?_, (fun hc => by cases hc), (fun hc => by cases hc), (fun hc => by cases hc)⟩
    have hv := token2Value_wellFormed 0 hwf
    refine ⟨?_, hv.2.1, hv.2.2⟩
    rcases hwf with h0 | ⟨k, ds, hds, _, _, htxt⟩
    · exact Or.inl h0
    · refine Or.inr ⟨ds, hds, ?_⟩
      simp only at htxt
      rw [htxt]
      unfold literal_text
      split
      · exact Or.inr rfl
      · exact Or.inl rfl
  | OPERATOR =>
    exact ⟨(fun hc => by cases hc), fun _ => hwf, (fun hc => by cases hc), (fun hc => by cases hc)⟩
  | OPENING_SCOPE =>
    exact ⟨(fun hc => by cases hc), (fun hc => by cases hc), fun _ => hwf, (fun hc => by cases hc)⟩
  | CLOSING_SCOPE =>
    exact ⟨(fun hc => by cases hc), (fun hc => by cases hc), (fun hc => by cases hc), fun _ => hwf⟩

namespace Parser

open terminal_symbol_t ParserResult.code_t token_t Grammar

/-- Every `INTEGER_OUT_OF_RANGE` the parser returns comes from a literal that stands where
a term is expected, and its column is the offset of the first digit of the literal. -/
theorem parser_out_of_range (fuel : Nat) :
    (∀ (e pre : List Char) (ts : List Token) (p : Parser) (r : ParserResult) (q : Parser),
      Context Level.term pre ts → p.it_offset = pre.length → p.token_list = ts →
      e = pre ++ p.it_rest → term fuel p = some (r, q) → r.type = INTEGER_OUT_OF_RANGE →
      OutOfRangeLiteral e r q)
    ∧ (∀ (e pre : List Char) (ts : List Token) (e0 : List Char) (us : List Token)
        (res : ParserResult) (p : Parser) (r : ParserResult) (q : Parser),
      Context Level.expr pre ts → Derives Level.expr e0 us →
      p.it_offset = (pre ++ e0).length → p.token_list = ts ++ us →
      e = pre ++ (e0 ++ p.it_rest) → res.type = PARSER_OK →
      expression_loop fuel res p = some (r, q) → r.type = INTEGER_OUT_OF_RANGE →
      OutOfRangeLiteral e r q)
    ∧ (∀ (e pre : List Char) (ts : List Token) (p : Parser) (r : ParserResult) (q : Parser),
      Context Level.expr pre ts → p.it_offset = pre.length → p.token_list = ts →
      e = pre ++ p.it_rest → expression fuel p = some (r, q) →
      r.type = INTEGER_OUT_OF_RANGE → OutOfRangeLiteral e r q) := by
  induction fuel with
  | zero =>
    refine ⟨?_, ?_, ?_⟩
    · intro e pre ts p r q _ _ _ _ h
      rw [term_zero] at h
      cases h
    · intro e pre ts e0 us res p r q _ _ _ _ _ _ h
      rw [expression_loop_zero] at h
      cases h
    · intro e pre ts p r q _ _ _ _ h
      rw [expression_zero] at h
      cases h
  | succ n ih =>
    obtain ⟨iht, ihl, ihe⟩ := ih
    refine ⟨?_, ?_, ?_⟩
    · intro e pre ts p r q hctx hoff htok he h hr
      rcases term_inv h with ⟨w, p1, res, p2, hw, hc, hexp, hcase⟩ | ⟨_, hint⟩
      · rcases hcase with ⟨_, rfl, rfl⟩ | ⟨hok, rfl, _⟩ | ⟨_, rfl, _⟩
        · refine ihe e (pre ++ (w ++ ['('])) (ts ++ [⟨['('], OPENING_SCOPE⟩]) p1 r q
            (Context.scope pre w ts hctx hw) ?_ ?_ ?_ hexp hr
          · rw [hc.2.1, hoff]
            simp only [List.length_append]
          · rw [hc.2.2, htok]
          · rw [he, hc.1]
            simp
        · rw [hok] at hr
          cases hr
        · cases hr
      · rcases integer_cases hint with ⟨rfl, _⟩ | ⟨k, ms, w, hms, hw, b, hb, _, _, _, hcase⟩
        · cases hr
        · rcases hcase with ⟨_, rfl, _⟩ | ⟨ds, hds, hnd, hcase⟩
          · cases hr
          · rcases hcase with ⟨hcq, rfl, hout⟩ | ⟨_, rfl, _⟩
            · obtain ⟨w0, hw0, hc0, _⟩ := skip_ws_consumes p
              refine ⟨pre, ts, w0, k, ms, w, ds, hctx, hw0, hms, hw, hds, hnd, ?_, hout, ?_, ?_⟩
              · rw [he, hc0.1, hb.1, hcq.1]
                simp only [List.append_assoc]
              · show b.it_offset = _
                rw [hb.2.1, hc0.2.1, hoff]
                simp only [List.length_append]
                omega
              · rw [hcq.2.2, hb.2.2, hc0.2.2, htok]
                simp
            · cases hr
    · intro e pre ts e0 us res p r q hctx hd hoff htok he hres h hr
      rcases expression_loop_inv h with ⟨hno, _, _⟩ | ⟨hok, rfl, _⟩
        | ⟨_, w, c, p1, res1, p2, hw, hc, hcons, hterm, hcase⟩
      · exact absurd hres hno
      · rw [hok] at hr
        cases hr
      · rcases hcase with ⟨_, _, _, rfl, _⟩ | ⟨_, hloop⟩
        · cases hr
        · by_cases hok : res1.type = PARSER_OK
          · obtain ⟨cs1, ts1, hd1, hc1⟩ := (parser_sound n).1 _ _ _ hterm hok
            refine ihl e pre ts (e0 ++ (w ++ c :: cs1)) (us ++ ⟨[c], OPERATOR⟩ :: ts1) res1 p2
              r q hctx (Derives.binary e0 w cs1 c us ts1 hd hw hc hd1) ?_ ?_ ?_ hok hloop hr
            · rw [hc1.2.1, hcons.2.1, hoff]
              simp only [List.length_append, List.length_cons, List.length_nil]
              omega
            · rw [hc1.2.2, hcons.2.2, htok]
              simp
            · rw [he, hcons.1, hc1.1]
              simp
          · cases n with
            | zero =>
              rw [expression_loop_zero] at hloop
              cases hloop
            | succ m =>
              rw [expression_loop_error m res1 p2 hok] at hloop
              simp only [Option.some.injEq, Prod.mk.injEq] at hloop
              obtain ⟨rfl, rfl⟩ := hloop
              refine iht e (pre ++ (e0 ++ (w ++ [c]))) (ts ++ (us ++ [⟨[c], OPERATOR⟩])) p1
                res1 p2 (Context.operator pre e0 w c ts us hctx hd hw hc) ?_ ?_ ?_ hterm hr
              · rw [hcons.2.1, hoff]
                simp only [List.length_append]
                omega
              · rw [hcons.2.2, htok]
                simp
              · rw [he, hcons.1]
                simp
    · intro e pre ts p r q hctx hoff htok he h hr
      obtain ⟨res, p1, hterm, hloop⟩ := expression_inv h
      rw [term_skip_ws] at hterm
      by_cases hok : res.type = PARSER_OK
      · obtain ⟨cs1, ts1, hd1, hc1⟩ := (parser_sound n).1 _ _ _ hterm hok
        refine ihl e pre ts cs1 ts1 res p1 r q hctx (Derives.single _ _ hd1) ?_ ?_ ?_ hok
          hloop hr
        · rw [hc1.2.1, hoff]
          simp only [List.length_append]
        · rw [hc1.2.2, htok]
        · rw [he, hc1.1]
      · cases n with
        | zero =>
          rw [expression_loop_zero] at hloop
          cases hloop
        | succ m =>
          rw [expression_loop_error m res p1 hok] at hloop
          simp only [Option.some.injEq, Prod.mk.injEq] at hloop
          obtain ⟨rfl, rfl⟩ := hloop
          exact iht e pre ts p res p1 (Context.first pre ts hctx) hoff htok he hterm hr

/-- Every `INTEGER_OUT_OF_RANGE` that `parse` returns comes from a literal that stands
where a term is expected, and its column is the offset of the first digit of the
literal. -/
theorem parse_out_of_range {e : List Char} {r : ParserResult} {q : Parser}
    (h : parse e = some (r, q)) (hr : r.type = INTEGER_OUT_OF_RANGE) :
    OutOfRangeLiteral e r q := by
  rcases parse_from_inv h with ⟨_, _, rfl⟩ | ⟨_, res, p1, hexp, hcase⟩
  · cases hr
  · rcases hcase with ⟨_, rfl, rfl⟩ | ⟨_, _, _, rfl⟩ | ⟨hok, _, _, rfl⟩
    · rw [expression_skip_ws] at hexp
      exact (parser_out_of_range _).2.2 e [] [] ⟨0, e, []⟩ r q Context.start rfl rfl rfl
        hexp hr
    · cases hr
    · rw [hok] at hr
      cases hr

end Parser

/-- C11: on `-99999` the out-of-range literal begins with its minus sign, at offset 0,
and `parse` returns `INTEGER_OUT_OF_RANGE` with column 1, the offset of the first digit;
likewise `1+ --40000)` gives column 5, not 3. A literal without minus signs is reported at
its beginning: `99999` and `99999999999999999999` give column 0, and `1+ 40000` gives
column 3. -/
theorem C11_column_skips_minus_signs :
    "-99999".toList.head? = some '-'
    ∧ (Parser.parse "-99999".toList).map (fun x => x.1)
        = some ⟨ParserResult.code_t.INTEGER_OUT_OF_RANGE, 1⟩
    ∧ (Parser.parse "1+ --40000)".toList).map (fun x => x.1)
        = some ⟨ParserResult.code_t.INTEGER_OUT_OF_RANGE, 5⟩
    ∧ (Parser.parse "99999".toList).map (fun x => x.1)
        = some ⟨ParserResult.code_t.INTEGER_OUT_OF_RANGE, 0⟩
    ∧ (Parser.parse "99999999999999999999".toList).map (fun x => x.1)
        = some ⟨ParserResult.code_t.INTEGER_OUT_OF_RANGE, 0⟩
    ∧ (Parser.parse "1+ 40000".toList).map (fun x => x.1)
        = some ⟨ParserResult.code_t.INTEGER_OUT_OF_RANGE, 3⟩ := by
  refine ⟨by decide, by decide, by decide, by decide, by decide, by decide⟩

namespace Reading

open token_t Grammar Evaluator EvaluatorResult.code_t

/-- The converter pops the operator on top of the stack for the operator read exactly when
it binds tighter, or as tightly and is not `^`. -/
theorem has_higher_precedence_iff (c1 c2 : Char) (t1 t2 : token_t) :
    has_higher_precedence ⟨[c1], t1⟩ ⟨[c2], t2⟩ = true
      ↔ (binding c1 > binding c2 ∨ (binding c1 = binding c2 ∧ c1 ≠ '^')) := by
  rw [has_higher_precedence_eq]
  by_cases h : binding c1 = binding c2 ∧ c1 = '^'
  · rw [if_pos h]
    constructor
    · intro hc
      cases hc
    · rintro (h1 | ⟨_, h2⟩)
      · omega
      · exact absurd h.2 h2
  · rw [if_neg h, decide_eq_true_iff]
    constructor
    · intro hge
      by_cases heq : binding c1 = binding c2
      · exact Or.inr ⟨heq, fun hc => h ⟨heq, hc⟩⟩
      · exact Or.inl (by omega)
    · rintro (h1 | ⟨h1, _⟩) <;> omega

/-- The converter on an operand, an operator, an operand, an operator and an operand. -/
theorem infix_to_postfix_five (a b c o1 o2 : Token) (ha : a.type = OPERAND)
    (hb : b.type = OPERAND) (hc : c.type = OPERAND) (h1 : o1.type = OPERATOR)
    (h2 : o2.type = OPERATOR) :
    Evaluator.infix_to_postfix [a, o1, b, o2, c]
      = .ok (if has_higher_precedence o1 o2 = true then [a, b, o1, c, o2]
          else [a, b, c, o2, o1]) := by
  have ea : is_operand a = true := by simp [is_operand, ha]
  have eb : is_operand b = true := by simp [is_operand, hb]
  have ec : is_operand c = true := by simp [is_operand, hc]
  have e1 : is_operand o1 = false := by simp [is_operand, h1]
  have e2 : is_operand o2 = false := by simp [is_operand, h2]
  have f1 : is_opening_scope o1 = false := by simp [is_opening_scope, h1]
  have f2 : is_opening_scope o2 = false := by simp [is_opening_scope, h2]
  have g1 : is_closing_scope o1 = false := by simp [is_closing_scope, h1]
  have g2 : is_closing_scope o2 = false := by simp [is_closing_scope, h2]
  have k1 : is_operator o1 = true := by simp [is_operator, h1]
  have k2 : is_operator o2 = true := by simp [is_operator, h2]
  by_cases hh : has_higher_precedence o1 o2 = true
  · simp [Evaluator.infix_to_postfix, convert_loop, convert_step, pop_higher, ea, eb, ec, e1,
      e2, f1, f2, g1, g2, k1, k2, hh]
  · simp [Evaluator.infix_to_postfix, convert_loop, convert_step, pop_higher, ea, eb, ec, e1,
      e2, f1, f2, g1, g2, k1, k2, hh]

end Reading

open Parser in
/-- C21: `parse` keeps no state between calls. For all texts `s1` and `s2`, `parse` of
`s1` returns, and `parse` of `s2` on the parser left by it (and on a parser in any other
state) returns the same status and column and leaves the same token list as `parse` of
`s2` on a fresh parser. -/
theorem C21_parse_keeps_no_state (s1 s2 : List Char) :
    ∃ r1 q1, parse s1 = some (r1, q1) ∧ parse_from q1 s2 = parse s2
      ∧ ∀ p0 : Parser, parse_from p0 s2 = parse s2 := by
  obtain ⟨r1, q1, h⟩ := parse_total s1
  exact ⟨r1, q1, h, rfl, fun _ => rfl⟩

open Reading Grammar in
/-- C22: for operand tokens `a`, `b`, `c` and operator tokens `o1`, `o2` whose values are
the symbols `c1`, `c2` among `+ - * / % ^` (binding: `^` 3, `* / %` 2, `+ -` 1), the
converter turns `a o1 b o2 c` into `a b o1 c o2` when `o1` binds tighter than `o2`, or as
tightly and is not `^`, and into `a b c o2 o1` otherwise. `1+2*3` gives `1 2 3 * +`, and
`2^3^2` gives `2 3 2 ^ ^`, which evaluates to `512`. -/
theorem C22_converter_precedence :
    (∀ (a b c : Token) (c1 c2 : Char), a.type = token_t.OPERAND → b.type = token_t.OPERAND →
      c.type = token_t.OPERAND → OperatorSymbol c1 → OperatorSymbol c2 →
      Evaluator.infix_to_postfix
          [a, ⟨[c1], token_t.OPERATOR⟩, b, ⟨[c2], token_t.OPERATOR⟩, c]
        = .ok (if binding c1 > binding c2 ∨ (binding c1 = binding c2 ∧ c1 ≠ '^')
            then [a, b, ⟨[c1], token_t.OPERATOR⟩, c, ⟨[c2], token_t.OPERATOR⟩]
            else [a, b, c, ⟨[c2], token_t.OPERATOR⟩, ⟨[c1], token_t.OPERATOR⟩]))
    ∧ (∀ uninit : Nat → Int, Evaluator.evaluate_postfix uninit
          [⟨['2'], token_t.OPERAND⟩, ⟨['3'], token_t.OPERAND⟩, ⟨['2'], token_t.OPERAND⟩,
            ⟨['^'], token_t.OPERATOR⟩, ⟨['^'], token_t.OPERATOR⟩]
        = .ok ⟨512, EvaluatorResult.code_t.RESULT_OK⟩) := by
  refine ⟨?_, fun _ => rfl⟩
  intro a b c c1 c2 ha hb hc _ _
  rw [infix_to_postfix_five a b c _ _ ha hb hc rfl rfl]
  by_cases hh : binding c1 > binding c2 ∨ (binding c1 = binding c2 ∧ c1 ≠ '^')
  · rw [if_pos ((has_higher_precedence_iff c1 c2 _ _).mpr hh), if_pos hh]
  · rw [if_neg (fun hcon => hh ((has_higher_precedence_iff c1 c2 _ _).mp hcon)), if_neg hh]

theorem C22_converter_precedence_witness :
    Evaluator.infix_to_postfix
        [⟨['1'], token_t.OPERAND⟩, ⟨['+'], token_t.OPERATOR⟩, ⟨['2'], token_t.OPERAND⟩,
          ⟨['*'], token_t.OPERATOR⟩, ⟨['3'], token_t.OPERAND⟩]
      = .ok [⟨['1'], token_t.OPERAND⟩, ⟨['2'], token_t.OPERAND⟩, ⟨['3'], token_t.OPERAND⟩,
          ⟨['*'], token_t.OPERATOR⟩, ⟨['+'], token_t.OPERATOR⟩]
    ∧ Evaluator.infix_to_postfix
        [⟨['2'], token_t.OPERAND⟩, ⟨['^'], token_t.OPERATOR⟩, ⟨['3'], token_t.OPERAND⟩,
          ⟨['^'], token_t.OPERATOR⟩, ⟨['2'], token_t.OPERAND⟩]
      = .ok [⟨['2'], token_t.OPERAND⟩, ⟨['3'], token_t.OPERAND⟩, ⟨['2'], token_t.OPERAND⟩,
          ⟨['^'], token_t.OPERATOR⟩, ⟨['^'], token_t.OPERATOR⟩]
    ∧ Evaluator.infix_to_postfix
        [⟨['8'], token_t.OPERAND⟩, ⟨['-'], token_t.OPERATOR⟩, ⟨['3'], token_t.OPERAND⟩,
          ⟨['+'], token_t.OPERATOR⟩, ⟨['2'], token_t.OPERAND⟩]
      = .ok [⟨['8'], token_t.OPERAND⟩, ⟨['3'], token_t.OPERAND⟩, ⟨['-'], token_t.OPERATOR⟩,
          ⟨['2'], token_t.OPERAND⟩, ⟨['+'], token_t.OPERATOR⟩] :=
  ⟨C22_converter_precedence.1 ⟨['1'], token_t.OPERAND⟩ ⟨['2'], token_t.OPERAND⟩
      ⟨['3'], token_t.OPERAND⟩ '+' '*' rfl rfl rfl (by decide) (by decide),
   C22_converter_precedence.1 ⟨['2'], token_t.OPERAND⟩ ⟨['3'], token_t.OPERAND⟩
      ⟨['2'], token_t.OPERAND⟩ '^' '^' rfl rfl rfl (by decide) (by decide),
   C22_converter_precedence.1 ⟨['8'], token_t.OPERAND⟩ ⟨['3'], token_t.OPERAND⟩
      ⟨['2'], token_t.OPERAND⟩ '-' '+' rfl rfl rfl (by decide) (by decide)⟩

namespace Reading

open token_t Grammar Evaluator EvaluatorResult.code_t

/-- An operator application whose status is `NUMERIC_OVERFLOW` has the value `0`. -/
theorem execute_operator_overflow (u term1 term2 : Int) (op : Token)
    (h : (execute_operator u term1 term2 op).type = NUMERIC_OVERFLOW) :
    execute_operator u term1 term2 op = ⟨0, NUMERIC_OVERFLOW⟩ := by
  unfold execute_operator at h ⊢
  dsimp only at h ⊢
  split_ifs at h ⊢ with h1 h2
  · exfalso
    revert h
    unfold operator_switch
    split_ifs <;> simp
  · rfl
  · simp only at h
    rw [not_not.mp h2] at h
    cases h

theorem tmod_nonpos {a : Int} (b : Int) (ha : a ≤ 0) : Int.tmod a b ≤ 0 := by
  have h := Int.tmod_nonneg (-b) (Int.neg_nonneg.mpr ha)
  have h1 := Int.tmod_def (-a) (-b)
  have h2 := Int.tmod_def a b
  have h3 : (-a).tdiv (-b) = a.tdiv b := by
    rw [Int.tdiv_neg, Int.neg_tdiv, neg_neg]
  rw [h3] at h1
  have h4 : (-a).tmod (-b) = - a.tmod b := by
    rw [h1, h2]
    ring
  rw [h4] at h
  omega

theorem tmod_natAbs_lt (a : Int) {b : Int} (hb : b ≠ 0) :
    (Int.tmod a b).natAbs < b.natAbs := by
  have key : ∀ (x y : Int), 0 ≤ x → 0 < y → (Int.tmod x y).natAbs < y.natAbs := by
    intro x y hx hy
    have h1 := Int.tmod_nonneg y hx
    have h2 := Int.tmod_lt_of_pos x hy
    omega
  have hneg : ∀ (x y : Int), (Int.tmod (-x) y) = - Int.tmod x y := by
    intro x y
    have h1 := Int.tmod_def (-x) y
    have h2 := Int.tmod_def x y
    rw [h1, h2, Int.neg_tdiv]
    ring
  rcases Int.lt_or_lt_of_ne hb with hb1 | hb1
  · rcases Int.le_total 0 a with ha | ha
    · have := key a (-b) ha (by omega)
      rw [Int.tmod_neg] at this
      omega
    · have := key (-a) (-b) (by omega) (by omega)
      rw [Int.tmod_neg, hneg] at this
      omega
  · rcases Int.le_total 0 a with ha | ha
    · exact key a b ha hb1
    · have := key (-a) b (by omega) hb1
      rw [hneg] at this
      omega

theorem tdiv_in_range {a b : Int} (ha : required_min < a ∧ a < required_max) :
    in_range (Int.tdiv a b) := by
  have h := Int.natAbs_tdiv a b
  have h1 : (a.natAbs).div (b.natAbs) ≤ a.natAbs := Nat.div_le_self _ _
  unfold in_range
  unfold required_min required_max at ha ⊢
  omega

theorem tmod_in_range {a b : Int} (hb : required_min < b ∧ b < required_max) (hb0 : b ≠ 0) :
    in_range (Int.tmod a b) := by
  have h := tmod_natAbs_lt a hb0
  unfold in_range
  unfold required_min required_max at hb ⊢
  omega

end Reading

open Reading in
/-- C24 (amended): when an operator application in `evaluate_postfix` has the status
`NUMERIC_OVERFLOW`, the two operands are popped and the value pushed onto the evaluation
stack is `0`, so that later operators compute with `0`. -/
theorem C24_overflow_pushes_zero (u term1 term2 : Int) (op : Token) (st : stack Int)
    (res : EvaluatorResult) (hop : op.type = token_t.OPERATOR)
    (h : (Evaluator.execute_operator u term1 term2 op).type
      = EvaluatorResult.code_t.NUMERIC_OVERFLOW) :
    Evaluator.evaluate_step u op (term2 :: term1 :: st) res
      = .ok (0 :: st, ⟨0, EvaluatorResult.code_t.NUMERIC_OVERFLOW⟩) := by
  rw [evaluate_step_of_operator u op term1 term2 st res hop, execute_operator_overflow _ _ _ _ h]

theorem C24_overflow_pushes_zero_witness :
    Evaluator.evaluate_step 0 ⟨['+'], token_t.OPERATOR⟩ [30000, 30000]
        ⟨0, EvaluatorResult.code_t.RESULT_OK⟩
      = .ok ([0], ⟨0, EvaluatorResult.code_t.NUMERIC_OVERFLOW⟩) :=
  C24_overflow_pushes_zero 0 30000 30000 ⟨['+'], token_t.OPERATOR⟩ []
    ⟨0, EvaluatorResult.code_t.RESULT_OK⟩ rfl rfl

/-- C24, as stated, fails on `30000 30000 +`: the application of `+` has the status
`NUMERIC_OVERFLOW` and the stack then holds `0`, not `60000`; the next operator computes
with `0` (`30000+30000-1` ends with the value `-1`). -/
theorem C24_overflow_pushes_zero_counterexample :
    Evaluator.evaluate_loop (fun _ => 0) 0
        [⟨['3', '0', '0', '0', '0'], token_t.OPERAND⟩,
          ⟨['3', '0', '0', '0', '0'], token_t.OPERAND⟩, ⟨['+'], token_t.OPERATOR⟩]
        [] ⟨0, EvaluatorResult.code_t.RESULT_OK⟩
      = .ok ([0], ⟨0, EvaluatorResult.code_t.NUMERIC_OVERFLOW⟩)
    ∧ ([0] : stack Int) ≠ [60000]
    ∧ Evaluator.evaluate_loop (fun _ => 0) 0
        [⟨['3', '0', '0', '0', '0'], token_t.OPERAND⟩,
          ⟨['3', '0', '0', '0', '0'], token_t.OPERAND⟩, ⟨['+'], token_t.OPERATOR⟩,
          ⟨['1'], token_t.OPERAND⟩, ⟨['-'], token_t.OPERATOR⟩]
        [] ⟨0, EvaluatorResult.code_t.RESULT_OK⟩
      = .ok ([-1], ⟨-1, EvaluatorResult.code_t.RESULT_OK⟩) :=
  ⟨rfl, by decide, rfl⟩

open Reading in
/-- C26: for operand tokens `a` and `b` whose texts are operands of the accepted literal
range, with the numbers `literal_value a.value` and `literal_value b.value` their texts
denote, the value of `b` not `0`, `evaluate_postfix [a, b, /]` returns `RESULT_OK` with the
quotient truncated toward zero and `evaluate_postfix [a, b, %]` returns `RESULT_OK` with
the remainder of that division: quotient times `b` plus remainder is `a`, the remainder is
smaller than `b` in absolute value and is zero or has the sign of `a`. -/
theorem C26_division_truncates (a b op : Token) (uninit : Nat → Int)
    (ha : a.type = token_t.OPERAND) (hb : b.type = token_t.OPERAND)
    (hop : op.type = token_t.OPERATOR)
    (hat : OperandText a.value) (hbt : OperandText b.value)
    (hb0 : literal_value b.value ≠ 0) :
    ∃ quo rem : Int,
      (op.value = ['/'] → Evaluator.evaluate_postfix uninit [a, b, op]
        = .ok ⟨quo, EvaluatorResult.code_t.RESULT_OK⟩)
      ∧ (op.value = ['%'] → Evaluator.evaluate_postfix uninit [a, b, op]
        = .ok ⟨rem, EvaluatorResult.code_t.RESULT_OK⟩)
      ∧ quo * literal_value b.value + rem = literal_value a.value
      ∧ |rem| < |literal_value b.value|
      ∧ (0 ≤ literal_value a.value → 0 ≤ rem)
      ∧ (literal_value a.value ≤ 0 → rem ≤ 0) := by
  have ea := token2Value_operandText (uninit 0) ha hat
  have eb := token2Value_operandText (uninit 1) hb hbt
  have hav := hat.2
  have hbv := hbt.2
  refine ⟨Int.tdiv (literal_value a.value) (literal_value b.value),
    Int.tmod (literal_value a.value) (literal_value b.value), fun hv => ?_, fun hv => ?_,
    Int.tdiv_add_tmod' _ _, ?_, fun h0 => Int.tmod_nonneg _ h0, fun h0 => tmod_nonpos _ h0⟩
  · rw [evaluate_postfix_binary uninit a b op ha hb hop, ea, eb]
    have hr := tdiv_in_range (b := literal_value b.value) hav
    have hsw : Evaluator.operator_switch (uninit 2) (literal_value a.value)
        (literal_value b.value) op
        = (Int.tdiv (literal_value a.value) (literal_value b.value),
            EvaluatorResult.code_t.RESULT_OK) := by
      unfold Evaluator.operator_switch Evaluator.first_char
      rw [hv, List.headD_cons, if_neg (by decide), if_neg (by decide), if_neg (by decide),
        if_neg (by decide), if_pos rfl, if_neg hb0, wrap_long_of_in_range hr]
    rw [execute_operator_of_switch hsw, if_pos hr]
  · rw [evaluate_postfix_binary uninit a b op ha hb hop, ea, eb]
    have hr := tmod_in_range (a := literal_value a.value) hbv hb0
    have hsw : Evaluator.operator_switch (uninit 2) (literal_value a.value)
        (literal_value b.value) op
        = (Int.tmod (literal_value a.value) (literal_value b.value),
            EvaluatorResult.code_t.RESULT_OK) := by
      unfold Evaluator.operator_switch Evaluator.first_char
      rw [hv, List.headD_cons, if_neg (by decide), if_neg (by decide), if_neg (by decide),
        if_neg (by decide), if_neg (by decide), if_pos rfl, if_neg hb0]
    rw [execute_operator_of_switch hsw, if_pos hr]
  · have h := tmod_natAbs_lt (literal_value a.value) hb0
    rw [Int.abs_eq_natAbs, Int.abs_eq_natAbs]
    exact_mod_cast h

theorem C26_division_truncates_witness :
    Evaluator.evaluate_postfix (fun _ => 9)
        [⟨['-', '7'], token_t.OPERAND⟩, ⟨['2'], token_t.OPERAND⟩, ⟨['/'], token_t.OPERATOR⟩]
      = .ok ⟨-3, EvaluatorResult.code_t.RESULT_OK⟩
    ∧ Evaluator.evaluate_postfix (fun _ => 9)
        [⟨['-', '7'], token_t.OPERAND⟩, ⟨['2'], token_t.OPERAND⟩, ⟨['%'], token_t.OPERATOR⟩]
      = .ok ⟨-1, EvaluatorResult.code_t.RESULT_OK⟩ := by
  have e1 : Reading.literal_value ['2'] = 2 := by decide
  have e2 : Reading.literal_value ['-', '7'] = -7 := by decide
  have t1 : Reading.OperandText ['-', '7'] :=
    ⟨Or.inr ⟨['7'], ⟨'7', [], rfl, by decide, by decide⟩, Or.inr rfl⟩, by decide, by decide⟩
  have t2 : Reading.OperandText ['2'] :=
    ⟨Or.inr ⟨['2'], ⟨'2', [], rfl, by decide, by decide⟩, Or.inl rfl⟩, by decide, by decide⟩
  obtain ⟨quo, rem, h1, _, h3, h4, _, h6⟩ := C26_division_truncates
    ⟨['-', '7'], token_t.OPERAND⟩ ⟨['2'], token_t.OPERAND⟩ ⟨['/'], token_t.OPERATOR⟩
    (fun _ => 9) rfl rfl rfl t1 t2 (by decide)
  obtain ⟨quo1, rem1, _, k2, k3, k4, _, k6⟩ := C26_division_truncates
    ⟨['-', '7'], token_t.OPERAND⟩ ⟨['2'], token_t.OPERAND⟩ ⟨['%'], token_t.OPERATOR⟩
    (fun _ => 9) rfl rfl rfl t1 t2 (by decide)
  simp only at h3 h4 h6 k3 k4 k6
  rw [e1, e2] at h3 k3
  have habs : |(2 : Int)| = 2 := by norm_num
  rw [e1, habs, abs_lt] at h4 k4
  rw [e2] at h6 k6
  have h7 := h6 (by decide)
  have k7 := k6 (by decide)
  have hq : quo = -3 := by omega
  have hr : rem1 = -1 := by omega
  subst hq
  subst hr
  exact ⟨h1 rfl, k2 rfl⟩

namespace Reading

open token_t Grammar Evaluator EvaluatorResult.code_t

/-- When the loop of `evaluate_postfix` ends on a sequence, it ends on every initial part
of it. -/
theorem evaluate_loop_split (uninit : Nat → Int) (xs : List Token) :
    ∀ (i : Nat) (ys : List Token) (st : stack Int) (res : EvaluatorResult)
      (X : stack Int × EvaluatorResult),
    evaluate_loop uninit i (xs ++ ys) st res = .ok X →
    ∃ st1 res1, evaluate_loop uninit i xs st res = .ok (st1, res1)
      ∧ evaluate_loop uninit (i + xs.length) ys st1 res1 = .ok X := by
  induction xs with
  | nil =>
    intro i ys st res X h
    exact ⟨st, res, rfl, by simpa using h⟩
  | cons x xs ih =>
    intro i ys st res X h
    rw [List.cons_append, evaluate_loop] at h
    rw [evaluate_loop]
    cases hs : evaluate_step (uninit i) x st res with
    | error f => rw [hs] at h; cases h
    | ok p =>
      obtain ⟨st2, res2⟩ := p
      rw [hs] at h
      dsimp only at h ⊢
      obtain ⟨st1, res1, h1, h2⟩ := ih (i + 1) ys st2 res2 X h
      refine ⟨st1, res1, h1, ?_⟩
      rw [List.length_cons, show i + (xs.length + 1) = i + 1 + xs.length from by omega]
      exact h2

/-- An operator is applied only to a stack that holds two values. -/
theorem evaluate_step_operator_inv {u : Int} {s : Token} {st st1 : stack Int}
    {res res1 : EvaluatorResult} (hs : s.type = OPERATOR)
    (h : evaluate_step u s st res = .ok (st1, res1)) :
    ∃ term2 term1 st2, st = term2 :: term1 :: st2 := by
  have h1 : is_operand s = false := by simp [is_operand, hs]
  have h2 : is_operator s = true := by simp [is_operator, hs]
  match st, h with
  | [], h => simp [evaluate_step, h1, h2, stack.top, stack.pop] at h
  | [_], h => simp [evaluate_step, h1, h2, stack.top, stack.pop] at h
  | term2 :: term1 :: st2, _ => exact ⟨term2, term1, st2, rfl⟩

/-- A postfix sequence without an operator is a single operand. -/
theorem post_no_operator (T : Exp) (h : ∀ t ∈ T.post, t.type ≠ OPERATOR) :
    ∃ text, T.post = [⟨text, OPERAND⟩] := by
  induction T with
  | literal text => exact ⟨text, rfl⟩
  | scope e ih => exact ih h
  | binary l op r _ _ =>
    exfalso
    exact h ⟨[op], OPERATOR⟩ (by simp [Exp.post]) rfl

end Reading

open Reading in
/-- C23: for the postfix sequence `pf` of every accepted input the evaluation returns; the
value returned is the single value left on the stack; the status returned is the status
of `execute_operator` on the last operator token of `pf`, applied to the two values on top
of the stack when that token is reached; and when `pf` has no operator it is a single
operand of the accepted literal range, and the result is `RESULT_OK` with the number the
text of that operand denotes. -/
theorem C23_status_of_last_operator (e : List Char) (r : ParserResult) (q : Parser)
    (h : Parser.parse e = some (r, q)) (hr : r.type = ParserResult.code_t.PARSER_OK)
    (uninit : Nat → Int) :
    ∃ pf v res, Evaluator.infix_to_postfix q.token_list = .ok pf
      ∧ Evaluator.evaluate_loop uninit 0 pf [] ⟨0, EvaluatorResult.code_t.RESULT_OK⟩
          = .ok ([v], res)
      ∧ Evaluator.evaluate_postfix uninit pf = .ok ⟨v, res.type⟩
      ∧ (∀ (pre post : List Token) (s : Token), pf = pre ++ s :: post →
          s.type = token_t.OPERATOR → (∀ t ∈ post, t.type ≠ token_t.OPERATOR) →
          ∃ term1 term2 st res0,
            Evaluator.evaluate_loop uninit 0 pre [] ⟨0, EvaluatorResult.code_t.RESULT_OK⟩
              = .ok (term2 :: term1 :: st, res0)
            ∧ res.type = (Evaluator.execute_operator (uninit pre.length) term1 term2 s).type)
      ∧ ((∀ t ∈ pf, t.type ≠ token_t.OPERATOR) →
          ∃ a, pf = [a] ∧ a.type = token_t.OPERAND ∧ q.token_list.count a = 1
            ∧ res.type = EvaluatorResult.code_t.RESULT_OK ∧ v = literal_value a.value) := by
  obtain ⟨⟨T, hT, htok⟩, hwf⟩ := parse_ok_reading h hr
  rw [← htok] at hwf ⊢
  obtain ⟨v, res, h1, _, h2⟩ := evaluate_loop_post uninit T hwf
  refine ⟨T.post, v, res, infix_to_postfix_tokens T hT, h1, h2, ?_, ?_⟩
  · intro pre post s hsplit hs hlast
    rw [hsplit] at h1
    obtain ⟨st1, res0, hpre, hrest⟩ := evaluate_loop_split uninit pre 0 (s :: post) [] _ _ h1
    rw [Evaluator.evaluate_loop] at hrest
    cases hstep : Evaluator.evaluate_step (uninit (0 + pre.length)) s st1 res0 with
    | error f => rw [hstep] at hrest; cases hrest
    | ok p =>
      obtain ⟨st2, res2⟩ := p
      rw [hstep] at hrest
      dsimp only at hrest
      obtain ⟨term2, term1, st3, rfl⟩ := evaluate_step_operator_inv hs hstep
      rw [evaluate_step_of_operator _ s term1 term2 st3 res0 hs] at hstep
      simp only [Except.ok.injEq, Prod.mk.injEq] at hstep
      obtain ⟨rfl, rfl⟩ := hstep
      have hpost : ∀ t ∈ post, t.type = token_t.OPERAND := by
        intro t ht
        have hmem : t ∈ T.post := by
          rw [hsplit]
          simp [ht]
        rcases post_type T t hmem with h3 | h3
        · exact h3
        · exact absurd h3 (hlast t ht)
      obtain ⟨w, st4, hloop⟩ := evaluate_loop_operands uninit post (0 + pre.length + 1)
        (Evaluator.execute_operator (uninit (0 + pre.length)) term1 term2 s).value st3
        (Evaluator.execute_operator (uninit (0 + pre.length)) term1 term2 s) hpost
      rw [hloop] at hrest
      simp only [Except.ok.injEq, Prod.mk.injEq] at hrest
      refine ⟨term1, term2, st3, res0, hpre, ?_⟩
      rw [← hrest.2, Nat.zero_add]
  · intro hno
    obtain ⟨text, htext⟩ := post_no_operator T hno
    have hperm := post_perm T
    rw [htext] at hperm
    have hcount : T.tokens.count ⟨text, token_t.OPERAND⟩ = 1 := by
      have hc := hperm.count_eq ⟨text, token_t.OPERAND⟩
      rw [List.count_filter (by simp)] at hc
      rw [← hc]
      simp
    have hmem : (⟨text, token_t.OPERAND⟩ : Token) ∈ T.tokens :=
      List.count_pos_iff.mp (by rw [hcount]; exact Nat.one_pos)
    have hval := (token2Value_wellFormed (uninit 0) (hwf _ hmem)).1
    rw [htext] at h1
    simp only [Evaluator.evaluate_loop, evaluate_step_operand, Except.ok.injEq,
      Prod.mk.injEq, List.cons.injEq, and_true] at h1
    refine ⟨⟨text, token_t.OPERAND⟩, htext, rfl, hcount, ?_, ?_⟩
    · rw [← h1.2]
    · rw [← h1.1, hval]


namespace Parser

open terminal_symbol_t ParserResult.code_t token_t Grammar

theorem Consumes.keeps {p q : Parser} {cs : List Char} {ts : List Token}
    (h : Consumes p q cs ts) :
    q.it_offset + q.it_rest.length = p.it_offset + p.it_rest.length := by
  rw [h.2.1, h.1, List.length_append]
  omega

theorem skip_ws_keeps (p : Parser) :
    (skip_ws p).it_offset + (skip_ws p).it_rest.length = p.it_offset + p.it_rest.length := by
  obtain ⟨w, _, hc, _⟩ := skip_ws_consumes p
  exact hc.keeps

theorem integer_column {fuel : Nat} {p q : Parser} {r : ParserResult}
    (h : integer fuel p = some (r, q)) :
    q.it_offset + q.it_rest.length = p.it_offset + p.it_rest.length
      ∧ (r.type ≠ PARSER_OK → r.at_col ≤ q.it_offset) := by
  rcases integer_cases h with ⟨rfl, hc⟩ | ⟨k, ms, w, _, _, b, hb, _, _, _, hcase⟩
  · exact ⟨hc.keeps, fun hne => absurd rfl hne⟩
  · rcases hcase with ⟨rfl, rfl, _⟩ | ⟨ds, _, _, hcase⟩
    · exact ⟨hb.keeps, fun _ => Nat.le_refl _⟩
    · rcases hcase with ⟨hc, rfl, _⟩ | ⟨hc, rfl, _⟩
      · refine ⟨by rw [hc.keeps, hb.keeps], fun _ => ?_⟩
        show b.it_offset ≤ q.it_offset
        rw [hc.2.1]
        omega
      · exact ⟨by rw [hc.keeps, hb.keeps], fun hne => absurd rfl hne⟩

/-- The cursor never leaves the input, and the column of every error is an offset the
cursor has reached. -/
theorem parser_column (fuel : Nat) :
    (∀ p r q, term fuel p = some (r, q) →
      q.it_offset + q.it_rest.length = p.it_offset + p.it_rest.length
        ∧ (r.type ≠ PARSER_OK → r.at_col ≤ q.it_offset))
    ∧ (∀ res p r q, (res.type ≠ PARSER_OK → res.at_col ≤ p.it_offset) →
      expression_loop fuel res p = some (r, q) →
      q.it_offset + q.it_rest.length = p.it_offset + p.it_rest.length
        ∧ (r.type ≠ PARSER_OK → r.at_col ≤ q.it_offset))
    ∧ (∀ p r q, expression fuel p = some (r, q) →
      q.it_offset + q.it_rest.length = p.it_offset + p.it_rest.length
        ∧ (r.type ≠ PARSER_OK → r.at_col ≤ q.it_offset)) := by
  induction fuel with
  | zero =>
    refine ⟨?_, ?_, ?_⟩
    · intro p r q h
      rw [term_zero] at h
      cases h
    · intro res p r q _ h
      rw [expression_loop_zero] at h
      cases h
    · intro p r q h
      rw [expression_zero] at h
      cases h
  | succ n ih =>
    obtain ⟨iht, ihl, ihe⟩ := ih
    refine ⟨?_, ?_, ?_⟩
    · intro p r q h
      rcases term_inv h with ⟨w, p1, res, p2, _, hc, hexp, hcase⟩ | ⟨_, hint⟩
      · obtain ⟨hk, hcol⟩ := ihe _ _ _ hexp
        rcases hcase with ⟨hne, rfl, rfl⟩ | ⟨hok, rfl, w1, _, hc2⟩ | ⟨_, rfl, rfl, _⟩
        · exact ⟨by rw [hk, hc.keeps], hcol⟩
        · exact ⟨by rw [hc2.keeps, hk, hc.keeps], fun hne => absurd hok hne⟩
        · exact ⟨by rw [skip_ws_keeps, hk, hc.keeps], fun _ => Nat.le_refl _⟩
      · obtain ⟨hk, hcol⟩ := integer_column hint
        exact ⟨by rw [hk, skip_ws_keeps], hcol⟩
    · intro res p r q hres h
      rcases expression_loop_inv h with ⟨_, rfl, rfl⟩ | ⟨hok, rfl, rfl, _⟩
        | ⟨_, w, c, p1, res1, p2, _, _, hcons, hterm, hcase⟩
      · exact ⟨rfl, hres⟩
      · exact ⟨skip_ws_keeps _, fun hne => absurd hok hne⟩
      · obtain ⟨hk, hcol⟩ := iht _ _ _ hterm
        rcases hcase with ⟨hne, _, _, rfl, rfl⟩ | ⟨_, hloop⟩
        · exact ⟨by rw [hk, hcons.keeps], fun _ => hcol hne⟩
        · obtain ⟨hk2, hcol2⟩ := ihl _ _ _ _ hcol hloop
          exact ⟨by rw [hk2, hk, hcons.keeps], hcol2⟩
    · intro p r q h
      obtain ⟨res, p1, hterm, hloop⟩ := expression_inv h
      obtain ⟨hk, hcol⟩ := iht _ _ _ hterm
      obtain ⟨hk2, hcol2⟩ := ihl _ _ _ _ hcol hloop
      exact ⟨by rw [hk2, hk, skip_ws_keeps], hcol2⟩

/-- The column of every error `parse` returns is at most the length of the input. -/
theorem parse_column {e : List Char} {r : ParserResult} {q : Parser}
    (h : parse e = some (r, q)) (hr : r.type ≠ PARSER_OK) : r.at_col ≤ e.length := by
  have h0 := skip_ws_keeps ⟨0, e, []⟩
  simp only [Nat.zero_add] at h0
  rcases parse_from_inv h with ⟨_, rfl, rfl⟩ | ⟨_, res, p1, hexp, hcase⟩
  · show (skip_ws ⟨0, e, []⟩).it_offset ≤ e.length
    omega
  · obtain ⟨hk, hcol⟩ := (parser_column _).2.2 _ _ _ hexp
    rcases hcase with ⟨hne, rfl, rfl⟩ | ⟨_, rfl, _, rfl⟩ | ⟨hok, _, _, rfl⟩
    · have := hcol hne
      omega
    · have := skip_ws_keeps p1
      show (skip_ws p1).it_offset ≤ e.length
      omega
    · exact absurd hok hr

theorem derives_zero (lvl : Level) : Derives lvl ['0'] [⟨['0'], OPERAND⟩] := by
  have h := Derives.zero [] blank_nil
  cases lvl with
  | term => exact h
  | expr => exact Derives.single _ _ h

/-- What stands where a term or an expression is expected can be completed to a text of
the grammar. -/
theorem context_complete {lvl : Level} {pre : List Char} {ts : List Token}
    (h : Context lvl pre ts) :
    ∀ (cs : List Char) (us : List Token), Derives lvl cs us →
    ∃ cs1 t, Derives Level.expr cs1 (ts ++ us ++ t) := by
  induction h with
  | start =>
    intro cs us hd
    exact ⟨cs, [], by simpa using hd⟩
  | first pre ts _ ih =>
    intro cs us hd
    exact ih cs us (Derives.single _ _ hd)
  | operator pre e w c ts us0 _ hd0 hw hc ih =>
    intro cs us hd
    obtain ⟨cs1, t, h1⟩ := ih _ _ (Derives.binary e w cs c us0 us hd0 hw hc hd)
    exact ⟨cs1, t, by simpa using h1⟩
  | scope pre w ts _ hw ih =>
    intro cs us hd
    obtain ⟨cs1, t, h1⟩ := ih _ _ (Derives.scope w cs [] us hw hd blank_nil)
    exact ⟨cs1, ⟨[')'], CLOSING_SCOPE⟩ :: t, by simpa using h1⟩

theorem viable_complete {ts : List Token} (h : Viable ts) :
    ∃ cs t, Derives Level.expr cs (ts ++ t) := by
  rcases h with ⟨lvl, pre, hctx⟩ | ⟨pre, ts0, e, us, hctx, hd, rfl⟩
  · obtain ⟨cs1, t, h1⟩ := context_complete hctx _ _ (derives_zero lvl)
    exact ⟨cs1, ⟨['0'], OPERAND⟩ :: t, by simpa using h1⟩
  · exact context_complete hctx e us hd

/-- The token list stays viable on every path of the parser, errors included. -/
theorem parser_viable (fuel : Nat) :
    (∀ (pre : List Char) (ts : List Token) (p : Parser) (r : ParserResult) (q : Parser),
      Context Level.term pre ts → p.token_list = ts → term fuel p = some (r, q) →
      r.type ≠ PARSER_OK → Viable q.token_list)
    ∧ (∀ (pre : List Char) (ts : List Token) (e0 : List Char) (us : List Token)
        (res : ParserResult) (p : Parser) (r : ParserResult) (q : Parser),
      Context Level.expr pre ts → Derives Level.expr e0 us → p.token_list = ts ++ us →
      res.type = PARSER_OK → expression_loop fuel res p = some (r, q) →
      Viable q.token_list)
    ∧ (∀ (pre : List Char) (ts : List Token) (p : Parser) (r : ParserResult) (q : Parser),
      Context Level.expr pre ts → p.token_list = ts → expression fuel p = some (r, q) →
      Viable q.token_list) := by
  induction fuel with
  | zero =>
    refine ⟨?_, ?_, ?_⟩
    · intro pre ts p r q _ _ h
      rw [term_zero] at h
      cases h
    · intro pre ts e0 us res p r q _ _ _ _ h
      rw [expression_loop_zero] at h
      cases h
    · intro pre ts p r q _ _ h
      rw [expression_zero] at h
      cases h
  | succ n ih =>
    obtain ⟨iht, ihl, ihe⟩ := ih
    refine ⟨?_, ?_, ?_⟩
    · intro pre ts p r q hctx htok h hr
      rcases term_inv h with ⟨w, p1, res, p2, hw, hc, hexp, hcase⟩ | ⟨_, hint⟩
      · have hv := ihe (pre ++ (w ++ ['('])) (ts ++ [⟨['('], OPENING_SCOPE⟩]) p1 res p2
          (Context.scope pre w ts hctx hw) (by rw [hc.2.2, htok]) hexp
        rcases hcase with ⟨_, _, rfl⟩ | ⟨hok, rfl, _⟩ | ⟨_, _, rfl, _⟩
        · exact hv
        · exact absurd hok hr
        · exact hv
      · have hsame : q.token_list = ts := by
          rcases integer_cases hint with ⟨rfl, _⟩ | ⟨k, ms, w, _, _, b, hb, _, _, _, hcase⟩
          · exact absurd rfl hr
          · have hbt : b.token_list = ts := by
              rw [hb.2.2, skip_ws_token_list, htok, List.append_nil]
            rcases hcase with ⟨rfl, _, _⟩ | ⟨ds, _, _, hcase⟩
            · exact hbt
            · rcases hcase with ⟨hc, _, _⟩ | ⟨_, rfl, _⟩
              · rw [hc.2.2, hbt, List.append_nil]
              · exact absurd rfl hr
        rw [hsame]
        exact Or.inl ⟨Level.term, pre, hctx⟩
    · intro pre ts e0 us res p r q hctx hd htok hres h
      rcases expression_loop_inv h with ⟨hno, _, _⟩ | ⟨_, _, rfl, _⟩
        | ⟨_, w, c, p1, res1, p2, hw, hc, hcons, hterm, hcase⟩
      · exact absurd hres hno
      · rw [skip_ws_token_list, htok]
        exact Or.inr ⟨pre, ts, e0, us, hctx, hd, rfl⟩
      · have hctx1 := Context.operator pre e0 w c ts us hctx hd hw hc
        have htok1 : p1.token_list = ts ++ (us ++ [⟨[c], OPERATOR⟩]) := by
          rw [hcons.2.2, htok, List.append_assoc]
        rcases hcase with ⟨hne, _, _, _, rfl⟩ | ⟨_, hloop⟩
        · exact iht _ _ p1 res1 _ hctx1 htok1 hterm hne
        · by_cases hok : res1.type = PARSER_OK
          · obtain ⟨cs1, ts1, hd1, hc1⟩ := (parser_sound n).1 _ _ _ hterm hok
            refine ihl pre ts (e0 ++ (w ++ c :: cs1)) (us ++ ⟨[c], OPERATOR⟩ :: ts1) res1 p2
              r q hctx (Derives.binary e0 w cs1 c us ts1 hd hw hc hd1) ?_ hok hloop
            rw [hc1.2.2, htok1]
            simp
          · cases n with
            | zero =>
              rw [expression_loop_zero] at hloop
              cases hloop
            | succ m =>
              rw [expression_loop_error m res1 p2 hok] at hloop
              simp only [Option.some.injEq, Prod.mk.injEq] at hloop
              obtain ⟨rfl, rfl⟩ := hloop
              exact iht _ _ p1 res1 p2 hctx1 htok1 hterm hok
    · intro pre ts p r q hctx htok h
      obtain ⟨res, p1, hterm, hloop⟩ := expression_inv h
      rw [term_skip_ws] at hterm
      by_cases hok : res.type = PARSER_OK
      · obtain ⟨cs1, ts1, hd1, hc1⟩ := (parser_sound n).1 _ _ _ hterm hok
        exact ihl pre ts cs1 ts1 res p1 r q hctx (Derives.single _ _ hd1)
          (by rw [hc1.2.2, htok]) hok hloop
      · cases n with
        | zero =>
          rw [expression_loop_zero] at hloop
          cases hloop
        | succ m =>
          rw [expression_loop_error m res p1 hok] at hloop
          simp only [Option.some.injEq, Prod.mk.injEq] at hloop
          obtain ⟨rfl, rfl⟩ := hloop
          exact iht pre ts p res p1 (Context.first pre ts hctx) htok hterm hok

/-- The token list `parse` leaves is viable, whatever the status. -/
theorem parse_viable {e : List Char} {r : ParserResult} {q : Parser}
    (h : parse e = some (r, q)) : Viable q.token_list := by
  rcases parse_from_inv h with ⟨_, rfl, _⟩ | ⟨_, res, p1, hexp, hcase⟩
  · exact Or.inl ⟨Level.expr, [], Context.start⟩
  · have hv := (parser_viable _).2.2 [] [] _ res p1 Context.start rfl hexp
    rcases hcase with ⟨_, _, rfl⟩ | ⟨_, rfl, _, _⟩ | ⟨_, rfl, _, _⟩
    · exact hv
    · exact hv
    · exact hv

end Parser

open Parser in
/-- C25: for every input, whatever status `parse` returns, the token list it leaves is an
initial part of the token list of an accepted input: there are tokens `t` and an input
`e1` on which `parse` returns `PARSER_OK` with the tokens left for `e` followed by `t`. -/
theorem C25_tokens_are_viable_prefix (e : List Char) :
    ∃ r q, parse e = some (r, q)
      ∧ ∃ (t : List Token) (e1 : List Char) (col : Nat) (q1 : Parser),
        parse e1 = some (⟨ParserResult.code_t.PARSER_OK, col⟩, q1)
        ∧ q1.token_list = q.token_list ++ t := by
  obtain ⟨r, q, h⟩ := parse_total e
  obtain ⟨cs, t, hd⟩ := viable_complete (parse_viable h)
  obtain ⟨col, hcol⟩ := parse_complete hd blank_nil
  exact ⟨r, q, h, t, _, col, _, hcol, rfl⟩

open Parser in
/-- C27: for every input `parse` returns, and when its status is not `PARSER_OK` the
column `at_col` (an offset from the beginning of the input, so not negative) is at most
the length of the input: the column `at_col + 1` the driver prints is at most one past
the end of the line. -/
theorem C27_error_column_in_input (e : List Char) :
    ∃ r q, parse e = some (r, q)
      ∧ (r.type ≠ ParserResult.code_t.PARSER_OK →
          r.at_col ≤ e.length ∧ r.at_col + 1 ≤ e.length + 1) := by
  obtain ⟨r, q, h⟩ := parse_total e
  exact ⟨r, q, h, fun hr => ⟨parse_column h hr, Nat.succ_le_succ (parse_column h hr)⟩⟩

theorem C23_status_of_last_operator_witness :
    Evaluator.evaluate_postfix (fun _ => 5) [⟨['7'], token_t.OPERAND⟩]
      = .ok ⟨7, EvaluatorResult.code_t.RESULT_OK⟩
    ∧ ∃ v, Evaluator.evaluate_postfix (fun _ => 5)
        [⟨['1'], token_t.OPERAND⟩, ⟨['0'], token_t.OPERAND⟩, ⟨['/'], token_t.OPERATOR⟩,
          ⟨['1'], token_t.OPERAND⟩, ⟨['+'], token_t.OPERATOR⟩]
      = .ok ⟨v, EvaluatorResult.code_t.RESULT_OK⟩ := by
  constructor
  · obtain ⟨pf, v, res, hpf, _, hev, _, hsingle⟩ := C23_status_of_last_operator
      "(7)".toList ⟨ParserResult.code_t.PARSER_OK, 0⟩
      ⟨3, [], [⟨['('], token_t.OPENING_SCOPE⟩, ⟨['7'], token_t.OPERAND⟩,
        ⟨[')'], token_t.CLOSING_SCOPE⟩]⟩ (by decide) rfl (fun _ => 5)
    have hc : Evaluator.infix_to_postfix [⟨['('], token_t.OPENING_SCOPE⟩,
        ⟨['7'], token_t.OPERAND⟩, ⟨[')'], token_t.CLOSING_SCOPE⟩]
        = .ok [⟨['7'], token_t.OPERAND⟩] := rfl
    rw [show (⟨3, [], [⟨['('], token_t.OPENING_SCOPE⟩, ⟨['7'], token_t.OPERAND⟩,
        ⟨[')'], token_t.CLOSING_SCOPE⟩]⟩ : Parser).token_list
        = [⟨['('], token_t.OPENING_SCOPE⟩, ⟨['7'], token_t.OPERAND⟩,
          ⟨[')'], token_t.CLOSING_SCOPE⟩] from rfl, hc] at hpf
    simp only [Except.ok.injEq] at hpf
    subst hpf
    obtain ⟨a, ha, _, _, hres, hv⟩ := hsingle (by decide)
    simp only [List.cons.injEq, and_true] at ha
    subst ha
    rw [hev, hres, hv]
    rfl
  · obtain ⟨pf, v, res, hpf, _, hev, hlast, _⟩ := C23_status_of_last_operator
      "1/0+1".toList ⟨ParserResult.code_t.PARSER_OK, 0⟩
      ⟨5, [], [⟨['1'], token_t.OPERAND⟩, ⟨['/'], token_t.OPERATOR⟩,
        ⟨['0'], token_t.OPERAND⟩, ⟨['+'], token_t.OPERATOR⟩, ⟨['1'], token_t.OPERAND⟩]⟩
      (by decide) rfl (fun _ => 5)
    have hc : Evaluator.infix_to_postfix [⟨['1'], token_t.OPERAND⟩,
        ⟨['/'], token_t.OPERATOR⟩, ⟨['0'], token_t.OPERAND⟩, ⟨['+'], token_t.OPERATOR⟩,
        ⟨['1'], token_t.OPERAND⟩]
        = .ok [⟨['1'], token_t.OPERAND⟩, ⟨['0'], token_t.OPERAND⟩,
          ⟨['/'], token_t.OPERATOR⟩, ⟨['1'], token_t.OPERAND⟩, ⟨['+'], token_t.OPERATOR⟩] := rfl
    rw [show (⟨5, [], [⟨['1'], token_t.OPERAND⟩, ⟨['/'], token_t.OPERATOR⟩,
        ⟨['0'], token_t.OPERAND⟩, ⟨['+'], token_t.OPERATOR⟩,
        ⟨['1'], token_t.OPERAND⟩]⟩ : Parser).token_list
        = [⟨['1'], token_t.OPERAND⟩, ⟨['/'], token_t.OPERATOR⟩, ⟨['0'], token_t.OPERAND⟩,
          ⟨['+'], token_t.OPERATOR⟩, ⟨['1'], token_t.OPERAND⟩] from rfl, hc] at hpf
    simp only [Except.ok.injEq] at hpf
    subst hpf
    obtain ⟨term1, term2, st, res0, hpre, hty⟩ := hlast
      [⟨['1'], token_t.OPERAND⟩, ⟨['0'], token_t.OPERAND⟩, ⟨['/'], token_t.OPERATOR⟩,
        ⟨['1'], token_t.OPERAND⟩] [] ⟨['+'], token_t.OPERATOR⟩ rfl rfl
      (by intro t ht; cases ht)
    have hc2 : Evaluator.evaluate_loop (fun _ => 5) 0
        [⟨['1'], token_t.OPERAND⟩, ⟨['0'], token_t.OPERAND⟩, ⟨['/'], token_t.OPERATOR⟩,
          ⟨['1'], token_t.OPERAND⟩] [] ⟨0, EvaluatorResult.code_t.RESULT_OK⟩
        = .ok ([1, 5], ⟨5, EvaluatorResult.code_t.DIVISION_BY_ZERO⟩) := rfl
    rw [hc2] at hpre
    simp only [Except.ok.injEq, Prod.mk.injEq, List.cons.injEq] at hpre
    obtain ⟨⟨rfl, rfl, _⟩, _⟩ := hpre
    exact ⟨v, by rw [hev, hty]; rfl⟩

namespace Parser

open terminal_symbol_t ParserResult.code_t token_t Grammar

theorem spaced_nil (ws : List (List Char)) : spaced ws [] = [] := by
  rw [spaced]

theorem spaced_cons (ws : List (List Char)) (t : Token) (ts : List Token) :
    spaced ws (t :: ts) = ws.headD [] ++ (t.value ++ spaced ws.tail ts) := by
  rw [spaced]

theorem spaced_append (ts : List Token) : ∀ (ws : List (List Char)) (us : List Token),
    spaced ws (ts ++ us) = spaced ws ts ++ spaced (ws.drop ts.length) us := by
  induction ts with
  | nil =>
    intro ws us
    simp [spaced_nil]
  | cons t ts ih =>
    intro ws us
    rw [List.cons_append, spaced_cons, spaced_cons, ih ws.tail us]
    have hd : ws.tail.drop ts.length = ws.drop (t :: ts).length := by
      cases ws with
      | nil => simp
      | cons w ws => simp
    rw [hd]
    simp only [List.append_assoc]

theorem blank_headD {ws : List (List Char)} (h : ∀ w ∈ ws, Blank w) : Blank (ws.headD []) := by
  cases ws with
  | nil => exact blank_nil
  | cons w ws => exact h w (List.mem_cons_self _ _)

theorem blank_tail {ws : List (List Char)} (h : ∀ w ∈ ws, Blank w) :
    ∀ w ∈ ws.tail, Blank w :=
  fun w hw => h w (List.mem_of_mem_tail hw)

theorem blank_drop {ws : List (List Char)} (h : ∀ w ∈ ws, Blank w) (n : Nat) :
    ∀ w ∈ ws.drop n, Blank w :=
  fun w hw => h w (List.mem_of_mem_drop hw)

/-- The tokens of a text of the grammar, written with a run of blanks before each of
them, are a text of the grammar with the same tokens. -/
theorem derives_spaced {lvl : Level} {cs : List Char} {ts : List Token}
    (h : Derives lvl cs ts) :
    ∀ (ws : List (List Char)), (∀ w ∈ ws, Blank w) → Derives lvl (spaced ws ts) ts := by
  induction h with
  | zero w hw =>
    intro ws hws
    have := Derives.zero (ws.headD []) (blank_headD hws)
    simpa [spaced_cons, spaced_nil] using this
  | literal k ms w ds hms hw hds h1 h2 =>
    intro ws hws
    by_cases hk : k % 2 = 1
    · have hp : k % 2 = 1 % 2 := by omega
      have := Derives.literal 1 (ws.headD [] ++ '-' :: []) [] ds
        (Minuses.succ 0 (ws.headD []) [] (blank_headD hws) Minuses.zero) blank_nil hds
        (by rw [← signed_value_parity k 1 ds hp]; exact h1)
        (by rw [← signed_value_parity k 1 ds hp]; exact h2)
      rw [← literal_text_parity k 1 ds hp] at this
      have htxt : spaced ws [⟨literal_text k ds, OPERAND⟩] = ws.headD [] ++ '-' :: ds := by
        simp [spaced_cons, spaced_nil, literal_text, hk]
      rw [htxt]
      simpa using this
    · have hp : k % 2 = 0 % 2 := by omega
      have := Derives.literal 0 [] (ws.headD []) ds Minuses.zero (blank_headD hws) hds
        (by rw [← signed_value_parity k 0 ds hp]; exact h1)
        (by rw [← signed_value_parity k 0 ds hp]; exact h2)
      rw [← literal_text_parity k 0 ds hp] at this
      have htxt : spaced ws [⟨literal_text k ds, OPERAND⟩] = ws.headD [] ++ ds := by
        simp [spaced_cons, spaced_nil, literal_text, hk]
      rw [htxt]
      simpa using this
  | scope w e w1 ts hw _ hw1 ih =>
    intro ws hws
    have := Derives.scope (ws.headD []) (spaced ws.tail ts)
      ((ws.tail.drop ts.length).headD []) ts (blank_headD hws) (ih ws.tail (blank_tail hws))
      (blank_headD (blank_drop (blank_tail hws) ts.length))
    rw [spaced_cons, spaced_append, spaced_cons, spaced_nil]
    simpa using this
  | single t ts _ ih =>
    intro ws hws
    exact Derives.single _ _ (ih ws hws)
  | binary e w t c ts us _ hw hc _ ihe iht =>
    intro ws hws
    have := Derives.binary (spaced ws ts) ((ws.drop ts.length).headD [])
      (spaced (ws.drop ts.length).tail us) c ts us (ihe ws hws)
      (blank_headD (blank_drop hws ts.length)) hc
      (iht (ws.drop ts.length).tail (blank_tail (blank_drop hws ts.length)))
    rw [spaced_append, spaced_cons]
    simpa using this

end Parser

open Parser Grammar in
/-- C19: white space between tokens is insignificant. For every input `s` that `parse`
accepts with `PARSER_OK`, the input obtained from `s` by deleting every blank and every
tab is also accepted with `PARSER_OK` and gives exactly the same sequence of tokens; and
so is every text made of the tokens of `s`, each written after an arbitrary run of blanks
and tabs, and followed by a run of blanks and tabs. -/
theorem C19_blanks_are_insignificant (s : List Char) (r : ParserResult) (q : Parser)
    (h : parse s = some (r, q)) (hr : r.type = ParserResult.code_t.PARSER_OK) :
    (∃ col q1, parse (delete_blanks s) = some (⟨ParserResult.code_t.PARSER_OK, col⟩, q1)
      ∧ q1.token_list = q.token_list)
    ∧ ∀ (ws : List (List Char)) (v : List Char), (∀ w ∈ ws, Blank w) → Blank v →
      ∃ col q1, parse (spaced ws q.token_list ++ v)
          = some (⟨ParserResult.code_t.PARSER_OK, col⟩, q1)
        ∧ q1.token_list = q.token_list := by
  obtain ⟨cs, ts, w, hd, hw, he, htok, _⟩ := parse_sound h hr
  constructor
  · obtain ⟨col, hcol⟩ := parse_complete (derives_delete_blanks hd) blank_nil
    rw [List.append_nil] at hcol
    refine ⟨col, ⟨(delete_blanks cs).length, [], ts⟩, ?_, htok.symm⟩
    rw [he, delete_blanks_append, delete_blanks_blank hw, List.append_nil]
    exact hcol
  · intro ws v hws hv
    obtain ⟨col, hcol⟩ := parse_complete (derives_spaced hd ws hws) hv
    rw [htok]
    exact ⟨col, _, hcol, rfl⟩

open Grammar in
theorem C19_blanks_are_insignificant_witness :
    Parser.parse " 1 - - 2 *\t( 3 ) ".toList
        = some (⟨ParserResult.code_t.PARSER_OK, 0⟩, ⟨17, [],
            [⟨['1'], token_t.OPERAND⟩, ⟨['-'], token_t.OPERATOR⟩,
              ⟨['-', '2'], token_t.OPERAND⟩, ⟨['*'], token_t.OPERATOR⟩,
              ⟨['('], token_t.OPENING_SCOPE⟩, ⟨['3'], token_t.OPERAND⟩,
              ⟨[')'], token_t.CLOSING_SCOPE⟩]⟩)
    ∧ (∃ col q1, Parser.parse "1--2*(3)".toList
          = some (⟨ParserResult.code_t.PARSER_OK, col⟩, q1)
        ∧ q1.token_list = [⟨['1'], token_t.OPERAND⟩, ⟨['-'], token_t.OPERATOR⟩,
            ⟨['-', '2'], token_t.OPERAND⟩, ⟨['*'], token_t.OPERATOR⟩,
            ⟨['('], token_t.OPENING_SCOPE⟩, ⟨['3'], token_t.OPERAND⟩,
            ⟨[')'], token_t.CLOSING_SCOPE⟩])
    ∧ (∃ col q1, Parser.parse "\t1  - -2*  (3 ) ".toList
          = some (⟨ParserResult.code_t.PARSER_OK, col⟩, q1)
        ∧ q1.token_list = [⟨['1'], token_t.OPERAND⟩, ⟨['-'], token_t.OPERATOR⟩,
            ⟨['-', '2'], token_t.OPERAND⟩, ⟨['*'], token_t.OPERATOR⟩,
            ⟨['('], token_t.OPENING_SCOPE⟩, ⟨['3'], token_t.OPERAND⟩,
            ⟨[')'], token_t.CLOSING_SCOPE⟩]) :=
  have hp : Parser.parse " 1 - - 2 *\t( 3 ) ".toList
      = some (⟨ParserResult.code_t.PARSER_OK, 0⟩, ⟨17, [],
          [⟨['1'], token_t.OPERAND⟩, ⟨['-'], token_t.OPERATOR⟩,
            ⟨['-', '2'], token_t.OPERAND⟩, ⟨['*'], token_t.OPERATOR⟩,
            ⟨['('], token_t.OPENING_SCOPE⟩, ⟨['3'], token_t.OPERAND⟩,
            ⟨[')'], token_t.CLOSING_SCOPE⟩]⟩) := by decide
  ⟨hp,
   (C19_blanks_are_insignificant " 1 - - 2 *\t( 3 ) ".toList _ _ hp rfl).1,
   (C19_blanks_are_insignificant " 1 - - 2 *\t( 3 ) ".toList _ _ hp rfl).2
      [['\t'], [' ', ' '], [' '], [], [' ', ' '], [], [' ']] [' '] (by decide) (by decide)⟩

end Bares
